import Mathlib

/-!
Verification of the route-computation engine of `bestpath.py` (Route-Navigator).

The Python code is shallowly embedded:
* Python `float` values are modelled as exact rationals `ℚ` (the program only
  adds, multiplies, divides and compares finite values);
* Python `dict`s are modelled as insertion-ordered association lists
  (`alGet` / `alSet` / `alGetD` mirror `d[k]`, `d[k] = v`, `d.get(k, default)`:
  an update keeps the key's position, a fresh key is appended at the end);
* Python `while` loops and recursions are modelled with an explicit fuel
  parameter; every claim proved below is either independent of the fuel or
  comes with a proof that the supplied fuel is large enough;
* `math.inf` distances are modelled as `none : Option ℚ`.
-/

namespace BestPath

/-- `City` of `bestpath.py` (`cid`, `name`, `state`, `sea_level_m`); the
elevation is optional (`None` in Python). -/
structure City where
  cid : String
  name : String
  state : String
  sea_level_m : Option ℚ
deriving DecidableEq

/-- `Edge` of `bestpath.py`: directed edge with symmetric `map_dist` and
directional `real_dist`. -/
structure Edge where
  src : String
  dst : String
  map_dist : ℚ
  real_dist : ℚ
deriving DecidableEq

/-- Association list modelling a Python `dict` with `String` keys. -/
abbrev AL (α : Type) : Type := List (String × α)

/-- `d.get(k)`: value of the first (unique, for genuine dicts) entry. -/
def alGet {α : Type} : AL α → String → Option α
  | [], _ => none
  | kv :: t, x => if kv.1 = x then some kv.2 else alGet t x

/-- `d.get(k, dflt)`. -/
def alGetD {α : Type} (l : AL α) (k : String) (dflt : α) : α :=
  (alGet l k).getD dflt

/-- `d[k] = v`: overwrite in place when the key exists, append otherwise
(CPython dicts keep the insertion position of an overwritten key). -/
def alSet {α : Type} : AL α → String → α → AL α
  | [], k, v => [(k, v)]
  | kv :: t, k, v => if kv.1 = k then (kv.1, v) :: t else kv :: alSet t k v

/-- Keys of an association list, in order. -/
def alKeys {α : Type} (l : AL α) : List String := l.map Prod.fst

/-- `Graph` of `bestpath.py`: `cities` dict plus `adj` defaultdict(list). -/
structure Graph where
  cities : AL City
  adj : AL (List Edge)

/-- The city identifiers present in the graph (`self.cities` keys). -/
def citiesKeys (g : Graph) : List String := alKeys g.cities

/-- `Graph.add_c`. -/
def add_c (g : Graph) (c : City) : Graph :=
  { g with cities := alSet g.cities c.cid c }

/-- `defaultdict(list)` append: `self.adj[k].append(e)`. -/
def adjAppend (l : AL (List Edge)) (k : String) (e : Edge) : AL (List Edge) :=
  alSet l k (alGetD l k [] ++ [e])

/-- The constant `1609.34` (meters per mile) of `add_bidir_edge`. -/
def metersPerMile : ℚ := 160934 / 100

/-- `Graph.add_bidir_edge` of `bestpath.py`, line for line:
silently ignores endpoints missing from `cities`; computes the elevation
delta in miles (zero when either elevation is `None`), the slope
`tan_ab = delta / map_dist` (zero when `map_dist == 0`), and inserts the two
directed edges with costs `max(map_dist * (1 ± tan_ab), 0.01)`. -/
def add_bidir_edge (g : Graph) (src dst : String) (map_dist : ℚ) : Graph :=
  match alGet g.cities src, alGet g.cities dst with
  | some A, some B =>
    let delta_miles : ℚ :=
      match A.sea_level_m, B.sea_level_m with
      | some a, some b => (b - a) / metersPerMile
      | _, _ => 0
    let tan_ab : ℚ := if map_dist ≠ 0 then delta_miles / map_dist else 0
    let tan_ba : ℚ := -tan_ab
    let real_ab : ℚ := max (map_dist * (1 + tan_ab)) (1/100)
    let real_ba : ℚ := max (map_dist * (1 + tan_ba)) (1/100)
    { g with adj := adjAppend (adjAppend g.adj src (Edge.mk src dst map_dist real_ab))
                      dst (Edge.mk dst src map_dist real_ba) }
  | _, _ => g

/-- `Graph.edge_dist`: directional cost `u→v` when present, else `v→u`,
else `0.0`. -/
def edge_dist (g : Graph) (u v : String) : ℚ :=
  match (alGetD g.adj u []).find? (fun e => e.dst == v) with
  | some e => e.real_dist
  | none =>
    match (alGetD g.adj v []).find? (fun e => e.dst == u) with
    | some e => e.real_dist
    | none => 0

/-- Total number of adjacency entries; used only to size the fuel of the
loops below (each loop iteration consumes one queue element, and at most
`totalAdjLen` elements are ever enqueued beyond the start vertex). -/
def totalAdjLen (g : Graph) : Nat := (g.adj.map (fun kv => kv.2.length)).sum

/-- The `while cur is not None` walk of `reconstruct` (`bestpath.py`): the
list of vertices visited while following the predecessor map from `dest`,
in visit order (Python appends to `path` and reverses afterwards).
`parent.get(cur)` yields `None` both for a missing key and for a stored
`None`, which `alGetD parent cur none` reproduces.  The `fuel` argument is a
modelling artefact bounding the chain length; every use below supplies a
fuel larger than any chain the algorithms can build. -/
def followParent (parent : AL (Option String)) (start : String) :
    Nat → Option String → List String
  | _, none => []
  | 0, some _ => []
  | fuel+1, some cur =>
    cur :: (if cur = start then [] else followParent parent start fuel (alGetD parent cur none))

/-- `reconstruct(parent, start, dest)` of `bestpath.py`. -/
def reconstruct (fuel : Nat) (parent : AL (Option String)) (start dest : String) :
    List String :=
  if dest = start then [start]
  else if (alGet parent dest).isNone then []
  else
    let path := (followParent parent start fuel (some dest)).reverse
    if path ≠ [] ∧ path.head? = some start then path else []

/-- The breadth-first worklist loop shared by `bfs_path` (neighbours are the
`dst` fields of `self.adj.get(u, [])`) and `tree_path_in_adj` (neighbours are
`adj.get(u, [])` directly): pops the queue head, stops on `dest`, appends
unvisited neighbours to queue and visited set and records their parent. -/
def bfsSearch (nbrs : String → List String) (dest : String) :
    Nat → List String → List String → AL (Option String) → AL (Option String)
  | 0, _, _, parent => parent
  | _+1, [], _, parent => parent
  | fuel+1, u :: q, visited, parent =>
    if u = dest then parent
    else
      let st := (nbrs u).foldl
        (fun (st : List String × List String × AL (Option String)) v =>
          if v ∈ st.2.1 then st
          else (st.1 ++ [v], st.2.1 ++ [v], alSet st.2.2 v (some u)))
        (q, visited, parent)
      bfsSearch nbrs dest fuel st.1 st.2.1 st.2.2

/-- Neighbour function of `Graph.bfs_path`: destinations of the outgoing
adjacency entries. -/
def graphNbrs (g : Graph) (u : String) : List String :=
  (alGetD g.adj u []).map Edge.dst

/-- `Graph.bfs_path`. -/
def bfs_path (g : Graph) (start dest : String) : List String :=
  let fuel := totalAdjLen g + 2
  reconstruct fuel (bfsSearch (graphNbrs g) dest fuel [start] [start] [(start, none)]) start dest

/-- `_dfs` of `Graph.dfs_path`: state is (visited, parent, found).  After
`found` is set the remaining calls return immediately (Python checks
`found[0]` before touching `visited`), though parents of unvisited siblings
are still assigned, exactly as in the Python loop. -/
def dfsGo (g : Graph) (dest : String) (fuel : Nat) (u : String)
    (st : List String × AL (Option String) × Bool) :
    List String × AL (Option String) × Bool :=
  match fuel with
  | 0 => st
  | fuel+1 =>
    if st.2.2 then st
    else
      let vis := st.1 ++ [u]
      if u = dest then (vis, st.2.1, true)
      else
        (alGetD g.adj u []).foldl
          (fun st e =>
            if e.dst ∈ st.1 then st
            else dfsGo g dest fuel e.dst (st.1, alSet st.2.1 e.dst (some u), st.2.2))
          (vis, st.2.1, false)

/-- `Graph.dfs_path`. -/
def dfs_path (g : Graph) (start dest : String) : List String :=
  let st := dfsGo g dest (totalAdjLen g + 2) start ([], [(start, none)], false)
  reconstruct (totalAdjLen g + 2) st.2.1 start dest

/-- `all_edges` as collected by `bellman_ford` and `kruskal_mst_edges`:
`for u in self.adj: for e in self.adj[u]` in dict insertion order. -/
def allEdges (g : Graph) : List Edge := (g.adj.map Prod.snd).flatten

/-- Python string `<` (lexicographic by code point), written as a
structurally recursive Boolean so that closed instances evaluate. -/
def charListLt : List Char → List Char → Bool
  | [], [] => false
  | [], _ :: _ => true
  | _ :: _, [] => false
  | c :: cs, d :: ds => if c < d then true else if d < c then false else charListLt cs ds

/-- Python `a < b` on strings. -/
def pyStrLt (a b : String) : Bool := charListLt a.data b.data

/-- Python `a <= b` on strings (total order, so `a <= b` iff `not (b < a)`). -/
def pyStrLe (a b : String) : Bool := !(pyStrLt b a)

/-- Lexicographic order on the `(real_dist, src, dst)` tuples pushed on the
Prim frontier: Python's `tuple.__lt__`, which `heapq` uses to order them
(cost first, then origin id, then destination id; see `tupLt_iff`). -/
def tupLtB (a b : ℚ × String × String) : Bool :=
  decide (a.1 < b.1) ||
    (decide (a.1 = b.1) &&
      (pyStrLt a.2.1 b.2.1 || (decide (a.2.1 = b.2.1) && pyStrLt a.2.2 b.2.2)))

/-- `tupLtB` as a proposition. -/
def tupLt (a b : ℚ × String × String) : Prop := tupLtB a b = true

instance (a b : ℚ × String × String) : Decidable (tupLt a b) :=
  inferInstanceAs (Decidable (_ = _))

/-- Running minimum under `tupLt`; keeps the earlier element on ties, so the
result is the least tuple, value-wise, of `m :: l`. -/
def findMinTup (m : ℚ × String × String) (l : List (ℚ × String × String)) :
    ℚ × String × String :=
  l.foldl (fun m x => if tupLt x m then x else m) m

/-- Remove the first occurrence of a value. -/
def eraseFirst {α : Type} [DecidableEq α] : List α → α → List α
  | [], _ => []
  | x :: xs, m => if x = m then xs else x :: eraseFirst xs m

/-- `heapq.heappop` at the level of values: a heap pop always returns the
least element of the heap (ties between *equal* tuples are unobservable,
since equal tuples are identical values); the rest of the heap holds the
remaining multiset. -/
def popMin (l : List (ℚ × String × String)) :
    Option ((ℚ × String × String) × List (ℚ × String × String)) :=
  match l with
  | [] => none
  | t :: ts =>
    let m := findMinTup t ts
    some (m, eraseFirst (t :: ts) m)

/-- The `while pq and len(visited) < len(self.cities)` loop of
`Graph.prim_mst_edges`. -/
def primLoop (g : Graph) :
    Nat → List String → List (ℚ × String × String) → List Edge → List Edge
  | 0, _, _, mst => mst
  | fuel+1, visited, pq, mst =>
    if pq = [] ∨ ¬ visited.length < g.cities.length then mst
    else
      match popMin pq with
      | none => mst
      | some (t, pq') =>
        let u := t.2.1
        let v := t.2.2
        if v ∈ visited then primLoop g fuel visited pq' mst
        else
          let visited' := visited ++ [v]
          let mst' :=
            match (alGetD g.adj u []).find? (fun e => e.dst == v) with
            | some e => mst ++ [e]
            | none => mst
          let pq'' := pq' ++ ((alGetD g.adj v []).filter
              (fun ne => decide (ne.dst ∉ visited'))).map
              (fun ne => (ne.real_dist, ne.src, ne.dst))
          primLoop g fuel visited' pq'' mst'

/-- `Graph.prim_mst_edges`. -/
def prim_mst_edges (g : Graph) (start : String) : List Edge :=
  match alGet g.cities start with
  | none => []
  | some _ =>
    let pq := (alGetD g.adj start []).map (fun e => (e.real_dist, e.src, e.dst))
    primLoop g (2 * totalAdjLen g + 2) [start] pq []

/-- `mst_adj[k].append(v)` (a `defaultdict(list)`). -/
def alAppendS (l : AL (List String)) (k v : String) : AL (List String) :=
  alSet l k (alGetD l k [] ++ [v])

/-- The undirected adjacency built from a spanning-tree edge list in
`prim_path` and `kruskal_path`. -/
def mstAdj (mst : List Edge) : AL (List String) :=
  mst.foldl (fun a e => alAppendS (alAppendS a e.src e.dst) e.dst e.src) []

/-- `tree_path_in_adj` of `bestpath.py` (breadth-first search over the tree
adjacency, then `reconstruct`). -/
def tree_path_in_adj (adj : AL (List String)) (start dest : String) (fuel : Nat) :
    List String :=
  reconstruct fuel (bfsSearch (fun u => alGetD adj u []) dest fuel [start] [start] [(start, none)]) start dest

/-- Fuel that suffices for a breadth-first search over `mstAdj mst`: the
adjacency holds `2 * mst.length` values in total. -/
def treeFuel (mst : List Edge) : Nat := 2 * mst.length + 2

/-- `Graph.prim_path`. -/
def prim_path (g : Graph) (start dest : String) : List String :=
  let mst := prim_mst_edges g start
  tree_path_in_adj (mstAdj mst) start dest (treeFuel mst)

/-- `find` of `kruskal_mst_edges` with path compression: returns the root
and the updated parent map.  (For inputs outside the parent map Python would
raise `KeyError`; the loader guarantees all endpoints are cities, and the
claims below assume as much.) -/
def ufFind : Nat → AL String → String → String × AL String
  | 0, par, x => (x, par)
  | fuel+1, par, x =>
    match alGet par x with
    | none => (x, par)
    | some px =>
      if px = x then (x, par)
      else
        let rp := ufFind fuel par px
        (rp.1, alSet rp.2 x rp.1)

/-- `union` of `kruskal_mst_edges` (union by rank; on equal ranks the root
of `a` wins and its rank is bumped). -/
def ufUnion (fuel : Nat) (par : AL String) (rank : AL Nat) (a b : String) :
    AL String × AL Nat :=
  let fa := ufFind fuel par a
  let fb := ufFind fuel fa.2 b
  if fa.1 ≠ fb.1 then
    if alGetD rank fa.1 0 < alGetD rank fb.1 0 then (alSet fb.2 fa.1 fb.1, rank)
    else if alGetD rank fb.1 0 < alGetD rank fa.1 0 then (alSet fb.2 fb.1 fa.1, rank)
    else (alSet fb.2 fb.1 fa.1, alSet rank fa.1 (alGetD rank fa.1 0 + 1))
  else (fb.2, rank)

/-- `tuple(sorted((src, dst)))`: the canonical unordered key used for edge
de-duplication. -/
def canonPair (a b : String) : String × String := if pyStrLt b a then (b, a) else (a, b)

/-- The `seen`-set de-duplication loop of `kruskal_mst_edges`. -/
def dedupGo : List Edge → List (String × String) → List Edge
  | [], _ => []
  | e :: es, seen =>
    let key := canonPair e.src e.dst
    if key ∈ seen then dedupGo es seen
    else e :: dedupGo es (key :: seen)

/-- The de-duplicated undirected edge list of `kruskal_mst_edges`. -/
def dedupEdges (g : Graph) : List Edge := dedupGo (allEdges g) []

/-- Stable insertion (new element goes after equal keys), building the same
ascending order as Python's stable `list.sort(key=lambda x: x.real_dist)`. -/
def insSortedEdge (x : Edge) : List Edge → List Edge
  | [] => [x]
  | y :: ys => if y.real_dist ≤ x.real_dist then y :: insSortedEdge x ys else x :: y :: ys

/-- Stable ascending sort by `real_dist` (observably equal to Python's
stable sort: both are the unique stable ascending reordering). -/
def sortEdges (l : List Edge) : List Edge := l.foldl (fun acc x => insSortedEdge x acc) []

/-- The main loop of `kruskal_mst_edges`: for each edge in ascending cost
order, add it to the MST when its endpoints have distinct roots. -/
def kruskalLoop (fuel : Nat) :
    List Edge → AL String → AL Nat → List Edge → List Edge
  | [], _, _, mst => mst
  | e :: es, par, rank, mst =>
    let fs := ufFind fuel par e.src
    let fd := ufFind fuel fs.2 e.dst
    if fs.1 ≠ fd.1 then
      let ur := ufUnion fuel fd.2 rank e.src e.dst
      kruskalLoop fuel es ur.1 ur.2 (mst ++ [e])
    else kruskalLoop fuel es fd.2 rank mst

/-- `Graph.kruskal_mst_edges`. -/
def kruskal_mst_edges (g : Graph) : List Edge :=
  let par : AL String := g.cities.map (fun kv => (kv.1, kv.1))
  let rank : AL Nat := g.cities.map (fun kv => (kv.1, 0))
  kruskalLoop (g.cities.length + 1) (sortEdges (dedupEdges g)) par rank []

/-- `Graph.kruskal_path`. -/
def kruskal_path (g : Graph) (start dest : String) : List String :=
  let mst := kruskal_mst_edges g
  tree_path_in_adj (mstAdj mst) start dest (treeFuel mst)

/-- One relaxation attempt of `bellman_ford`:
`if dist[e.src] + e.real_dist < dist[e.dst]: update`.  `none` models
`math.inf`; state is (dist, pred, updated). -/
def relaxEdge (st : AL (Option ℚ) × AL (Option String) × Bool) (e : Edge) :
    AL (Option ℚ) × AL (Option String) × Bool :=
  match alGetD st.1 e.src none with
  | none => st
  | some du =>
    match alGetD st.1 e.dst none with
    | none =>
      (alSet st.1 e.dst (some (du + e.real_dist)), alSet st.2.1 e.dst (some e.src), true)
    | some dv =>
      if du + e.real_dist < dv then
        (alSet st.1 e.dst (some (du + e.real_dist)), alSet st.2.1 e.dst (some e.src), true)
      else st

/-- The `for _ in range(len(self.cities)-1)` rounds of `bellman_ford`, with
the early exit on a round without updates. -/
def bfRounds : Nat → AL (Option ℚ) → AL (Option String) → List Edge →
    AL (Option ℚ) × AL (Option String)
  | 0, d, p, _ => (d, p)
  | k+1, d, p, es =>
    let st := es.foldl relaxEdge (d, p, false)
    if st.2.2 then bfRounds k st.1 st.2.1 es else (st.1, st.2.1)

/-- `Graph.bellman_ford`. -/
def bellman_ford (g : Graph) (start : String) :
    AL (Option ℚ) × AL (Option String) :=
  let dist : AL (Option ℚ) := g.cities.map (fun kv => (kv.1, none))
  let pred : AL (Option String) := g.cities.map (fun kv => (kv.1, none))
  match alGet g.cities start with
  | none => (dist, pred)
  | some _ => bfRounds (g.cities.length - 1) (alSet dist start (some 0)) pred (allEdges g)

/-- `Graph.bellman_path`. -/
def bellman_path (g : Graph) (start dest : String) : List String :=
  let dp := bellman_ford g start
  match alGetD dp.1 dest none with
  | none => []
  | some _ => reconstruct (g.cities.length + 1) dp.2 start dest

/-- `path_distance`. -/
def path_distance (g : Graph) (route : List String) : ℚ :=
  (route.zip route.tail).foldl (fun total uv => total + edge_dist g uv.1 uv.2) 0

/-- `gas_used`. -/
def gas_used (distance : ℚ) : ℚ := distance / 45

/-- `WeatherRisk`: `risk` is a dict city → (dict date → value), `dates` the
list of distinct non-empty dates seen (sorted at the end of `load`). -/
structure WeatherRisk where
  risk : AL (AL ℚ)
  dates : List String
deriving DecidableEq

/-- `WeatherRisk.edge_risk`. -/
def edge_risk (wr : WeatherRisk) (c1 c2 date : String) : ℚ :=
  (alGetD (alGetD wr.risk c1 []) date 0 + alGetD (alGetD wr.risk c2 []) date 0) / 2

/-- ASCII whitespace, as stripped by Python's `str.strip()` (Python also
strips the rare non-ASCII unicode spaces, which do not occur in the data
considered here). -/
def isPyWhitespace (c : Char) : Bool :=
  c == ' ' || c == '\t' || c == '\n' || c == '\r' || c == '\x0b' || c == '\x0c'

/-- Python `str.strip()`. -/
def pyStrip (s : String) : String :=
  String.mk (((s.data.dropWhile isPyWhitespace).reverse.dropWhile isPyWhitespace).reverse)

/-- Digits of a decimal string read as a natural number. -/
def natOfDigits (cs : List Char) : ℕ :=
  cs.foldl (fun n c => 10 * n + (c.toNat - 48)) 0

/-- All characters are ASCII digits. -/
def allDigits (cs : List Char) : Bool := cs.all Char.isDigit

/-- Split at the first `e`/`E` (exponent marker). -/
def splitAtExpChar : List Char → List Char × Option (List Char)
  | [] => ([], none)
  | c :: t =>
    if c = 'e' ∨ c = 'E' then ([], some t)
    else
      let r := splitAtExpChar t
      (c :: r.1, r.2)

/-- `digits [. digits]` with at least one digit in total, as a rational. -/
def parseUnsignedDec (cs : List Char) : Option ℚ :=
  let sp := cs.span Char.isDigit
  match sp.2 with
  | [] => if sp.1 = [] then none else some (natOfDigits sp.1)
  | '.' :: fp =>
    if allDigits fp ∧ (sp.1 ≠ [] ∨ fp ≠ []) then
      some ((natOfDigits sp.1 : ℚ) + (natOfDigits fp : ℚ) / (10 ^ fp.length))
    else none
  | _ => none

/-- Optional leading sign. -/
def parseSign : List Char → ℤ × List Char
  | '+' :: t => (1, t)
  | '-' :: t => ((-1 : ℤ), t)
  | cs => (1, cs)

/-- Exponent part: optional sign then a nonempty digit string. -/
def parseExp (cs : List Char) : Option ℤ :=
  let sd := parseSign cs
  if sd.2 ≠ [] ∧ allDigits sd.2 then some (sd.1 * natOfDigits sd.2) else none

/-- Modelled from the spec: the language built-in numeric parse used by the
ingestion ("parses a numeric value; if direct numeric parse fails ...").
This embeds Python's `float(...)` on finite decimal literals: surrounding
whitespace, an optional sign, `digits [. digits]` with at least one digit,
and an optional `e`/`E` exponent.  (The special spellings `inf`/`nan` and
digit-group underscores, which `float` also accepts, have no exact rational
meaning or do not occur in risk data and are parsed as failures here; no
claim below depends on them.) -/
def pyFloat? (s : String) : Option ℚ :=
  let cs := (pyStrip s).data
  let sc := parseSign cs
  let me := splitAtExpChar sc.2
  match parseUnsignedDec me.1 with
  | none => none
  | some m =>
    match me.2 with
    | none => some (sc.1 * m)
    | some ecs =>
      match parseExp ecs with
      | none => none
      | some e => some (sc.1 * m * (10 : ℚ) ^ e)

/-- `''.join(ch for ch in raw if ch.isdigit() or ch == '.' or ch == '-')`. -/
def digitsOf (raw : String) : String :=
  String.mk (raw.data.filter (fun ch => ch.isDigit || ch == '.' || ch == '-'))

/-- Python's `a or b` on an optional string: `b` when `a` is `None` or
empty (falsy), else the string itself. -/
def pyOrStr (a : Option String) (b : String) : String :=
  match a with
  | some s => if s = "" then b else s
  | none => b

/-- `self.risk[cid][date] = val` followed by
`if date and date not in self.dates: self.dates.append(date)`. -/
def wrStore (wr : WeatherRisk) (cid date : String) (val : ℚ) : WeatherRisk :=
  { risk := alSet wr.risk cid (alSet (alGetD wr.risk cid []) date val)
    dates := if date ≠ "" ∧ date ∉ wr.dates then wr.dates ++ [date] else wr.dates }

/-- `(r.get("city_id") or r.get("city") or r.get("id") or "").strip()`. -/
def cidOf (r : AL String) : String :=
  pyStrip (pyOrStr (alGet r "city_id")
    (pyOrStr (alGet r "city") (pyOrStr (alGet r "id") "")))

/-- `(r.get("date") or "").strip()`. -/
def dateOf (r : AL String) : String := pyStrip (pyOrStr (alGet r "date") "")

/-- `(r.get("risk") or "").strip()`. -/
def rawOf (r : AL String) : String := pyStrip (pyOrStr (alGet r "risk") "")

/-- One CSV record of `WeatherRisk.load` (a `csv.DictReader` row is a dict
field-name → string).  Returns `none` when the row raises: that happens
exactly when the direct parse fails, the filtered digit string is nonempty,
and the re-parse of the digit string fails too (`float(digits)` is *inside*
the `except` block and unprotected). -/
def loadRow (wr : WeatherRisk) (r : AL String) : Option WeatherRisk :=
  if cidOf r = "" then some wr
  else
    match pyFloat? (rawOf r) with
    | some val => some (wrStore wr (cidOf r) (dateOf r) val)
    | none =>
      let digits := digitsOf (rawOf r)
      if digits = "" then some (wrStore wr (cidOf r) (dateOf r) 0)
      else
        match pyFloat? digits with
        | some val => some (wrStore wr (cidOf r) (dateOf r) val)
        | none => none

/-- Stable string insertion used to model `list.sort()`. -/
def insSortedStr (x : String) : List String → List String
  | [] => [x]
  | y :: ys => if pyStrLe y x then y :: insSortedStr x ys else x :: y :: ys

/-- `self.dates.sort()`: ascending lexicographic sort. -/
def sortStrings (l : List String) : List String :=
  l.foldl (fun acc x => insSortedStr x acc) []

/-- `WeatherRisk.load` over a list of records.  The `Bool` is true when a
record raised: the loop stops there, the final `self.dates.sort()` is
skipped, and the partially mutated table is kept (the caller in `main`
catches the exception and prints a warning). -/
def load (wr : WeatherRisk) : List (AL String) → WeatherRisk × Bool
  | [] => ({ wr with dates := sortStrings wr.dates }, false)
  | r :: rs =>
    match loadRow wr r with
    | some wr' => load wr' rs
    | none => (wr, true)

/-- One feasibility-and-total scan of `best_date_for_path` over the
consecutive pairs of a route for one date: `none` when some endpoint of
some pair has no entry for the date (`ok = False`), else the accumulated
`edge_risk` total. -/
def segRisk (wr : WeatherRisk) (date : String) : List (String × String) → Option ℚ
  | [] => some 0
  | uv :: rest =>
    if (alGet (alGetD wr.risk uv.1 []) date).isSome
        && (alGet (alGetD wr.risk uv.2 []) date).isSome then
      match segRisk wr date rest with
      | some t => some (edge_risk wr uv.1 uv.2 date + t)
      | none => none
    else none

/-- The `if ok and total < best_risk` update of `best_date_for_path`. -/
def bestStep (wr : WeatherRisk) (pairs : List (String × String))
    (acc : Option (String × ℚ)) (date : String) : Option (String × ℚ) :=
  match segRisk wr date pairs with
  | none => acc
  | some total =>
    match acc with
    | none => some (date, total)
    | some dr => if total < dr.2 then some (date, total) else acc

/-- `best_date_for_path`. -/
def best_date_for_path (route : List String) (wr : WeatherRisk) :
    Option String × ℚ :=
  if route.length < 2 then (none, 0)
  else
    match wr.dates.foldl (bestStep wr (route.zip route.tail)) none with
    | none => (none, 0)
    | some dr => (some dr.1, dr.2)

/-- The success payload of `compute` in `RouteHandler.handle_route`
(the keys of the JSON dict that depend on the route). -/
structure SuccessData where
  algorithm_label : String
  route_ids : List String
  route_names : List String
  segments : List (String × String × String × String × ℚ)
  total_distance : ℚ
  gas_used : ℚ
  total_risk : ℚ
  best_travel_date : Option String
  score : ℚ
deriving DecidableEq

/-- Result of `compute`: `{"ok": False, "label": ..., "message": ...}` or a
success payload. -/
inductive ComputeResult where
  | failure (label message : String)
  | success (data : SuccessData)
deriving DecidableEq

/-- `r.get("ok")`. -/
def ComputeResult.ok : ComputeResult → Bool
  | .failure _ _ => false
  | .success _ => true

/-- `r["score"]` (only read for successes). -/
def ComputeResult.score : ComputeResult → ℚ
  | .failure _ _ => 0
  | .success d => d.score

/-- `compute(algorithm)` of `RouteHandler.handle_route`. -/
def compute (g : Graph) (wr : WeatherRisk) (idToName : AL String)
    (src dst algorithm : String) : ComputeResult :=
  let rl : List String × String :=
    if algorithm = "BFS" then (bfs_path g src dst, "BFS")
    else if algorithm = "DFS" then (dfs_path g src dst, "DFS")
    else if algorithm = "PRIM" then (prim_path g src dst, "Prim MST")
    else if algorithm = "KRUSKAL" then (kruskal_path g src dst, "Kruskal MST")
    else if algorithm = "BELLMAN" then (bellman_path g src dst, "Bellman-Ford")
    else ([], algorithm)
  if rl.1 = [] then .failure rl.2 "No route found"
  else
    let total := path_distance g rl.1
    let dr := best_date_for_path rl.1 wr
    .success {
      algorithm_label := rl.2
      route_ids := rl.1
      route_names := rl.1.map (fun x => alGetD idToName x x)
      segments := (rl.1.zip rl.1.tail).map
        (fun uv => (uv.1, uv.2, alGetD idToName uv.1 uv.1, alGetD idToName uv.2 uv.2,
          edge_dist g uv.1 uv.2))
      total_distance := total
      gas_used := gas_used total
      total_risk := dr.2
      best_travel_date := dr.1
      score := total + 20 * dr.2 }

/-- The algorithm tokens tried by the `alg == "BEST"` branch, in order. -/
def bestAlgTokens : List String := ["BFS", "DFS", "PRIM", "KRUSKAL", "BELLMAN"]

/-- The `alg == "BEST"` branch of `handle_route`: run `compute` for all five
tokens, keep the successes (dict insertion order = token order), and pick
`min(results.keys(), key=lambda k: results[k]["score"])` — Python's `min`
keeps the first key on ties.  `none` models the
`"No algorithm found a path"` overall failure. -/
def computeOk (g : Graph) (wr : WeatherRisk) (idToName : AL String)
    (src dst a : String) : Option (String × ComputeResult) :=
  let r := compute g wr idToName src dst a
  if r.ok then some (a, r) else none

def evaluateBest (g : Graph) (wr : WeatherRisk) (idToName : AL String)
    (src dst : String) : Option (String × ComputeResult) :=
  match bestAlgTokens.filterMap (computeOk g wr idToName src dst) with
  | [] => none
  | x :: xs => some (xs.foldl (fun m y => if y.2.score < m.2.score then y else m) x)

/-! ### Specification-side predicates (walks, reachability, invariants) -/

/-- A directed walk in the graph, as the list of edges traversed:
each edge is one of the graph's adjacency entries, the first starts at `s`,
consecutive edges are chained, the last ends at `t` (the empty walk requires
`s = t`). -/
def IsWalk (g : Graph) : String → String → List Edge → Prop
  | s, t, [] => s = t
  | s, t, e :: es => e ∈ allEdges g ∧ e.src = s ∧ IsWalk g e.dst t es

instance isWalkDecidable (g : Graph) :
    ∀ (s t : String) (es : List Edge), Decidable (IsWalk g s t es)
  | _, _, [] => inferInstanceAs (Decidable (_ = _))
  | _, t, e :: es =>
    haveI := isWalkDecidable g e.dst t es
    inferInstanceAs (Decidable (_ ∧ _ ∧ _))

/-- Total directional cost of a walk. -/
def walkCost (es : List Edge) : ℚ := (es.map Edge.real_dist).sum

/-- Vertex trace of a walk starting at `s`. -/
def walkVerts (s : String) (es : List Edge) : List String :=
  s :: es.map Edge.dst

/-- `t` can be reached from `s` by a directed walk. -/
def Reachable (g : Graph) (s t : String) : Prop :=
  ∃ es, IsWalk g s t es

/-- Structural invariant of every graph the loader builds: each adjacency
entry is keyed by the edge's `src` field (`add_bidir_edge` appends
`Edge(src, dst, ...)` under key `src`). -/
def AdjKeyed (g : Graph) : Prop :=
  ∀ kv ∈ g.adj, ∀ e ∈ kv.2, e.src = kv.1

/-- Structural invariant: every edge endpoint is a known city
(`add_bidir_edge` refuses unknown endpoints). -/
def ClosedG (g : Graph) : Prop :=
  ∀ e ∈ allEdges g, e.src ∈ citiesKeys g ∧ e.dst ∈ citiesKeys g

/-- Structural invariant: all directional costs are positive
(they are clamped to at least `0.01`). -/
def PosW (g : Graph) : Prop :=
  ∀ e ∈ allEdges g, 0 < e.real_dist

/-- Structural invariant: every directed edge has a reverse edge
(`add_bidir_edge` always inserts both directions). -/
def SymG (g : Graph) : Prop :=
  ∀ e ∈ allEdges g, ∃ e' ∈ allEdges g, e'.src = e.dst ∧ e'.dst = e.src

instance (g : Graph) : Decidable (AdjKeyed g) := by
  unfold AdjKeyed; infer_instance

instance (g : Graph) : Decidable (ClosedG g) := by
  unfold ClosedG; infer_instance

instance (g : Graph) : Decidable (PosW g) := by
  unfold PosW; infer_instance

instance (g : Graph) : Decidable (SymG g) := by
  unfold SymG; infer_instance

/-- Both endpoints of a route segment have an explicit risk entry for the
date (`date in wr.risk.get(c, {})` for both). -/
def pairOk (wr : WeatherRisk) (date : String) (uv : String × String) : Prop :=
  (alGet (alGetD wr.risk uv.1 []) date).isSome = true ∧
    (alGet (alGetD wr.risk uv.2 []) date).isSome = true

instance (wr : WeatherRisk) (date : String) (uv : String × String) :
    Decidable (pairOk wr date uv) := by
  unfold pairOk; infer_instance

/-- Spec predicate: a date is feasible for a route when every consecutive
pair of stops has explicit risk entries for both endpoints. -/
def FeasibleDate (wr : WeatherRisk) (route : List String) (date : String) : Prop :=
  ∀ uv ∈ route.zip route.tail, pairOk wr date uv

instance (wr : WeatherRisk) (route : List String) (date : String) :
    Decidable (FeasibleDate wr route date) := by
  unfold FeasibleDate; infer_instance

/-- Summed `edge_risk` over the consecutive pairs of a route. -/
def totalRisk (wr : WeatherRisk) (route : List String) (date : String) : ℚ :=
  ((route.zip route.tail).map (fun uv => edge_risk wr uv.1 uv.2 date)).sum

/-- Order on optional distances, `none` playing `math.inf`. -/
def dle : Option ℚ → Option ℚ → Prop
  | _, none => True
  | none, some _ => False
  | some a, some b => a ≤ b

instance (a b : Option ℚ) : Decidable (dle a b) := by
  unfold dle
  rcases a with _ | a <;> rcases b with _ | b
  · exact inferInstanceAs (Decidable True)
  · exact inferInstanceAs (Decidable False)
  · exact inferInstanceAs (Decidable True)
  · exact inferInstanceAs (Decidable (_ ≤ _))

/-- `math.inf`-aware addition of an edge weight. -/
def oadd (o : Option ℚ) (w : ℚ) : Option ℚ := o.map (fun q => q + w)

/-- Strictly below a finite threshold (`none` = `inf` is never below). -/
def dltB (o : Option ℚ) (q : ℚ) : Bool :=
  match o with
  | some r => decide (r < q)
  | none => false

/-- Number of cities whose tentative distance is strictly below `q`:
the measure along a predecessor chain. -/
def countBelow (g : Graph) (d : AL (Option ℚ)) (q : ℚ) : Nat :=
  ((citiesKeys g).filter (fun u => dltB (alGetD d u none) q)).length

/-- The relaxation guard fails for `e` at distance map `d`
(`dist[e.src] + e.real_dist < dist[e.dst]` is false). -/
def RelaxFails (d : AL (Option ℚ)) (e : Edge) : Prop :=
  ∀ du, alGetD d e.src none = some du →
    ∃ dv, alGetD d e.dst none = some dv ∧ dv ≤ du + e.real_dist

/-- Invariant of the Bellman–Ford state: the start keeps distance `0`;
every finite tentative distance is the cost of an actual walk from `start`;
every predecessor entry `p v = u` is backed by an edge `u→v` whose
relaxation produced a value at most the current `d v`; and every non-start
vertex with a finite distance has a predecessor. -/
def BFInv (g : Graph) (start : String) (d : AL (Option ℚ)) (p : AL (Option String)) : Prop :=
  alGetD d start none = some 0 ∧
  (∀ v q, alGetD d v none = some q → ∃ es, IsWalk g start v es ∧ walkCost es = q) ∧
  (∀ v u, alGetD p v none = some u → ∃ e ∈ allEdges g, e.src = u ∧ e.dst = v ∧
    ∃ du q, alGetD d u none = some du ∧ alGetD d v none = some q ∧
      du + e.real_dist ≤ q) ∧
  (∀ v q, v ≠ start → alGetD d v none = some q → ∃ u, alGetD p v none = some u)

/-- After `k` full relaxation passes, every walk of at most `k` edges bounds
the tentative distance at its endpoint. -/
def BndD (g : Graph) (start : String) (d : AL (Option ℚ)) (k : Nat) : Prop :=
  ∀ v es, IsWalk g start v es → es.length ≤ k →
    dle (alGetD d v none) (some (walkCost es))

/-- No edge of `es` can be relaxed at distance map `d` (a fixpoint pass of
the Bellman–Ford loop). -/
def FixD (d : AL (Option ℚ)) (es : List Edge) : Prop := ∀ e ∈ es, RelaxFails d e

/-- Position of the first occurrence of `x` (the list's length when absent):
the discovery-order measure of the breadth-first searches. -/
def posIn : List String → String → Nat
  | [], _ => 0
  | y :: t, x => if y = x then 0 else posIn t x + 1

/-- Total number of stored neighbour values in an adjacency dict. -/
def totalVals (l : AL (List String)) : Nat :=
  (l.map (fun kv => kv.2.length)).sum

/-- `u` and `v` are joined (in either direction) by an edge of the spanning
tree edge list. -/
def TreeEdge (mst : List Edge) (u v : String) : Prop :=
  ∃ e ∈ mst, (e.src = u ∧ e.dst = v) ∨ (e.src = v ∧ e.dst = u)

/-- Connectivity in the undirected graph spanned by the tree edge list. -/
def MstC (mst : List Edge) : String → String → Prop :=
  Relation.ReflTransGen (TreeEdge mst)

/-- Spec predicate: every city can reach every city by a directed walk. -/
def ConnectedG (g : Graph) : Prop :=
  ∀ u ∈ citiesKeys g, ∀ v ∈ citiesKeys g, Reachable g u v

/-- The number of adjacency values stored under keys not yet visited: the
decreasing measure of the Prim loop. -/
def remAdj (g : Graph) (visited : List String) : Nat :=
  ((g.adj.filter (fun kv => decide (kv.1 ∉ visited))).map
    (fun kv => kv.2.length)).sum

/-- The invariant of `bfsSearch` between iterations: the queue is visited;
`start` is visited with a stored `None` parent; visited ids are distinct
and drawn from `bound`; every visited id except `start` has a parent
entry; every parent entry points from a later-discovered id back to an
earlier-discovered neighbour; every visited id is still queued or fully
expanded. -/
def SearchInv (nbrs : String → List String) (start : String)
    (bound : List String) (q vis : List String)
    (par : AL (Option String)) : Prop :=
  (∀ x ∈ q, x ∈ vis) ∧
  start ∈ vis ∧
  alGet par start = some none ∧
  vis.Nodup ∧
  (∀ x ∈ vis, x ∈ bound) ∧
  (∀ x ∈ vis, x = start ∨ ∃ w, alGetD par x none = some w) ∧
  (∀ k w, alGetD par k none = some w →
    k ∈ vis ∧ w ∈ vis ∧ posIn vis w < posIn vis k ∧ k ∈ nbrs w) ∧
  (∀ x ∈ vis, x ∈ q ∨ ∀ y ∈ nbrs x, y ∈ vis)

/-- The `SearchInv` variant holding while the neighbours of `u` are being
folded into the state `(queue, visited, parent)`. -/
def FoldInv (nbrs : String → List String) (start : String)
    (bound : List String) (u : String)
    (st : List String × List String × AL (Option String)) : Prop :=
  (∀ x ∈ st.1, x ∈ st.2.1) ∧
  start ∈ st.2.1 ∧
  alGet st.2.2 start = some none ∧
  st.2.1.Nodup ∧
  (∀ x ∈ st.2.1, x ∈ bound) ∧
  (∀ x ∈ st.2.1, x = start ∨ ∃ w, alGetD st.2.2 x none = some w) ∧
  (∀ k w, alGetD st.2.2 k none = some w →
    k ∈ st.2.1 ∧ w ∈ st.2.1 ∧ posIn st.2.1 w < posIn st.2.1 k ∧ k ∈ nbrs w) ∧
  (∀ x ∈ st.2.1, x ∈ u :: st.1 ∨ ∀ y ∈ nbrs x, y ∈ st.2.1) ∧
  u ∈ st.2.1

/-! ### Concrete fixtures for the closed counterexamples and witnesses -/

/-- A city at sea level. -/
def cityA : City := ⟨"A", "A", "", some 0⟩

/-- A city 1.60934 m (= 0.001 mile) above `cityA`. -/
def cityBhigh : City := ⟨"B", "B", "", some (160934/100000)⟩

/-- Two-city graph with no edges yet. -/
def gAB : Graph := ⟨[("A", cityA), ("B", cityBhigh)], []⟩

/-- Three cities at equal elevation, `"B"` registered before `"A"`. -/
def gSBA : Graph :=
  ⟨[("S", ⟨"S", "S", "", some 0⟩), ("B", ⟨"B", "B", "", some 0⟩),
    ("A", ⟨"A", "A", "", some 0⟩)], []⟩

/-- `gSBA` with the equal-cost edges S–B (inserted first) and S–A: written
with literal costs, equal (see `gTie_eq_loaded`) to the graph
`add_bidir_edge (add_bidir_edge gSBA "S" "B" 5) "S" "A" 5` the loader
builds. -/
def gTie : Graph :=
  ⟨[("S", ⟨"S", "S", "", some 0⟩), ("B", ⟨"B", "B", "", some 0⟩),
    ("A", ⟨"A", "A", "", some 0⟩)],
   [("S", [⟨"S", "B", 5, 5⟩, ⟨"S", "A", 5, 5⟩]),
    ("B", [⟨"B", "S", 5, 5⟩]),
    ("A", [⟨"A", "S", 5, 5⟩])]⟩

/-!
## Theorems

First the association-list (dict) lemmas, then the per-claim results.
-/

theorem alGet_alSet_self {α : Type} (l : AL α) (k : String) (v : α) :
    alGet (alSet l k v) k = some v := by
  induction l with
  | nil => simp [alSet, alGet]
  | cons kv t ih =>
    obtain ⟨a, b⟩ := kv
    by_cases h : a = k
    · simp [alSet, alGet, h]
    · simpa [alSet, alGet, h] using ih

theorem alGet_alSet_ne {α : Type} (l : AL α) (k k' : String) (v : α)
    (h : k ≠ k') : alGet (alSet l k v) k' = alGet l k' := by
  induction l with
  | nil => simp [alSet, alGet, h]
  | cons kv t ih =>
    by_cases hk : kv.1 = k
    · simp [alSet, alGet, hk, h]
    · by_cases hk' : kv.1 = k'
      · simp [alSet, alGet, hk, hk', Ne.symm h]
      · simpa [alSet, alGet, hk, hk'] using ih

theorem alGet_mem {α : Type} {l : AL α} {k : String} {v : α}
    (h : alGet l k = some v) : (k, v) ∈ l := by
  induction l with
  | nil => simp [alGet] at h
  | cons kv t ih =>
    by_cases hk : kv.1 = k
    · simp only [alGet, if_pos hk, Option.some_inj] at h
      subst h
      rw [← hk]
      exact List.mem_cons_self _ _
    · simp only [alGet, if_neg hk] at h
      exact List.mem_cons_of_mem _ (ih h)

theorem alGet_mem_keys {α : Type} {l : AL α} {k : String} {v : α}
    (h : alGet l k = some v) : k ∈ alKeys l := by
  have := alGet_mem h
  exact List.mem_map_of_mem Prod.fst this

theorem alGet_eq_none_of_not_mem_keys {α : Type} {l : AL α} {k : String}
    (h : k ∉ alKeys l) : alGet l k = none := by
  induction l with
  | nil => rfl
  | cons kv t ih =>
    have h1 : kv.1 ≠ k := by
      intro hh
      apply h
      simp only [alKeys, List.map_cons, List.mem_cons]
      exact Or.inl hh.symm
    have h2 : k ∉ alKeys t := by
      intro hh
      apply h
      simp only [alKeys, List.map_cons, List.mem_cons]
      exact Or.inr hh
    simp only [alGet, if_neg h1]
    exact ih h2

theorem alGet_isSome_of_mem_keys {α : Type} {l : AL α} {k : String}
    (h : k ∈ alKeys l) : (alGet l k).isSome := by
  induction l with
  | nil => simp [alKeys] at h
  | cons kv t ih =>
    by_cases hk : kv.1 = k
    · simp [alGet, hk]
    · simp only [alKeys, List.map_cons, List.mem_cons] at h
      rcases h with h | h
      · exact absurd h.symm hk
      · simpa [alGet, hk] using ih (by simpa [alKeys] using h)

theorem alKeys_alSet {α : Type} (l : AL α) (k : String) (v : α) :
    alKeys (alSet l k v) = if k ∈ alKeys l then alKeys l else alKeys l ++ [k] := by
  induction l with
  | nil => simp [alSet, alKeys]
  | cons kv t ih =>
    by_cases hk : kv.1 = k
    · rw [if_pos]
      · simp [alSet, alKeys, hk]
      · simp [alKeys, hk]
    · have hiff : k ∈ alKeys (kv :: t) ↔ k ∈ alKeys t := by
        simp only [alKeys, List.map_cons, List.mem_cons]
        constructor
        · rintro (h | h)
          · exact absurd h.symm hk
          · exact h
        · exact fun h => Or.inr h
      by_cases hm : k ∈ alKeys t
      · rw [if_pos (hiff.mpr hm)]
        simp only [alSet, if_neg hk, alKeys, List.map_cons]
        rw [alKeys] at ih
        rw [ih, if_pos hm]
        rfl
      · rw [if_neg (fun h => hm (hiff.mp h))]
        simp only [alSet, if_neg hk, alKeys, List.map_cons]
        rw [alKeys] at ih
        rw [ih, if_neg hm]
        rfl

theorem mem_alKeys_alSet_of_mem {α : Type} {l : AL α} {x : String}
    (k : String) (v : α) (h : x ∈ alKeys l) : x ∈ alKeys (alSet l k v) := by
  rw [alKeys_alSet]
  split
  · exact h
  · exact List.mem_append_left _ h

/-- Every entry of `alSet l k v` is an entry of `l` or the new pair. -/
theorem alSet_forall {α : Type} {Q : String × α → Prop} {l : AL α}
    {k : String} {v : α}
    (hl : ∀ kv ∈ l, Q kv) (hv : Q (k, v)) : ∀ kv ∈ alSet l k v, Q kv := by
  induction l with
  | nil => simpa [alSet] using hv
  | cons kv t ih =>
    by_cases hk : kv.1 = k
    · intro x hx
      simp only [alSet, if_pos hk, List.mem_cons] at hx
      rcases hx with hx | hx
      · subst hx
        rw [hk]
        exact hv
      · exact hl _ (List.mem_cons_of_mem _ hx)
    · intro x hx
      simp only [alSet, if_neg hk, List.mem_cons] at hx
      rcases hx with hx | hx
      · subst hx
        exact hl _ (List.mem_cons_self _ _)
      · exact ih (fun y hy => hl y (List.mem_cons_of_mem _ hy)) _ hx

/-- All edges stored under some key of `adjAppend l k e` satisfy `P` when
those of `l` do and `e` does. -/
theorem adjAppend_forall {P : Edge → Prop} {l : AL (List Edge)}
    {k : String} {e : Edge}
    (hl : ∀ kv ∈ l, ∀ x ∈ kv.2, P x) (he : P e) :
    ∀ kv ∈ adjAppend l k e, ∀ x ∈ kv.2, P x := by
  unfold adjAppend
  refine alSet_forall hl ?_
  intro x hx
  rcases List.mem_append.mp hx with hx | hx
  · rcases h : alGet l k with _ | vs
    · rw [alGetD, h] at hx
      simp at hx
    · rw [alGetD, h] at hx
      exact hl _ (alGet_mem h) _ hx
  · rw [List.mem_singleton] at hx
    subst hx
    exact he

/-!
### C1 — uphill cost versus downhill cost

The claim asserts `cost(A→B) > cost(B→A)` *strictly* for every `e_a < e_b`
and `d > 0`.  The code clamps both costs at `max(..., 0.01)`, and when both
raw costs fall below the floor the two stored costs are equal, so the strict
inequality fails.  The amended claim replaces `>` by `≥` (everything else —
both edges are created, both costs ≥ 0.01 — is proved as stated).
-/

/-- **C1, counterexample.**  `cityA` (elevation 0) and `cityBhigh`
(elevation 1.60934 m, i.e. 0.001 mile) with positive map distance
`d = 1/200 = 0.005`: the raw directional costs are `0.006` and `0.004`,
both below the `0.01` floor, so the two stored costs are both exactly
`0.01` — `cost(A→B) > cost(B→A)` is false at this input. -/
theorem claim1_cex :
    cityA.sea_level_m = some 0 ∧
    cityBhigh.sea_level_m = some (160934/100000) ∧
    ((0 : ℚ) < 160934/100000) ∧ ((0 : ℚ) < 1/200) ∧
    (alGetD (add_bidir_edge gAB "A" "B" (1/200)).adj "A" []).map Edge.real_dist
      = [1/100] ∧
    (alGetD (add_bidir_edge gAB "A" "B" (1/200)).adj "B" []).map Edge.real_dist
      = [1/100] ∧
    ¬ ((1 : ℚ)/100 > 1/100) := by
  refine ⟨rfl, rfl, by norm_num, by norm_num, ?_, ?_, by norm_num⟩
  · norm_num [add_bidir_edge, gAB, cityA, cityBhigh, alGet, alGetD, adjAppend, alSet,
      metersPerMile, max_def, show ("A" : String) ≠ "B" from by decide]
  · norm_num [add_bidir_edge, gAB, cityA, cityBhigh, alGet, alGetD, adjAppend, alSet,
      metersPerMile, max_def, show ("A" : String) ≠ "B" from by decide]

/-- **C1, amended.**  For locations `A`, `B` present in the graph with
elevations `e_a < e_b` and positive map distance `d`,
`add_bidir_edge` appends exactly the two directed connections, with
`cost(A→B) ≥ cost(B→A)` (equality exactly when both raw costs are clamped
by the floor) and both costs `≥ 0.01`. -/
theorem claim1_amended (g : Graph) (A B : String) (cA cB : City)
    (ea eb d : ℚ)
    (hA : alGet g.cities A = some cA) (hB : alGet g.cities B = some cB)
    (hea : cA.sea_level_m = some ea) (heb : cB.sea_level_m = some eb)
    (hlt : ea < eb) (hd : 0 < d) :
    ∃ costAB costBA : ℚ,
      (add_bidir_edge g A B d).adj =
        adjAppend (adjAppend g.adj A (Edge.mk A B d costAB)) B (Edge.mk B A d costBA)
      ∧ costBA ≤ costAB ∧ 1/100 ≤ costAB ∧ 1/100 ≤ costBA := by
  have hmpm : (0 : ℚ) < metersPerMile := by norm_num [metersPerMile]
  have hdne : d ≠ 0 := ne_of_gt hd
  have htan : 0 < (eb - ea) / metersPerMile / d := by
    apply div_pos (div_pos (by linarith) hmpm) hd
  refine ⟨max (d * (1 + (eb - ea) / metersPerMile / d)) (1/100),
          max (d * (1 + -((eb - ea) / metersPerMile / d))) (1/100), ?_, ?_, ?_, ?_⟩
  · unfold add_bidir_edge
    rw [hA, hB]
    simp only [hea, heb, if_pos hdne]
  · refine max_le_max (mul_le_mul_of_nonneg_left (by linarith) (le_of_lt hd)) le_rfl
  · exact le_max_right _ _
  · exact le_max_right _ _

/-- **C1, witness** for the amended theorem: the spec's own worked example
(`A` at elevation 0, `B` at 1609.34 m is not in the fixtures, so we use
`cityBhigh` and `d = 10`), all hypotheses discharged concretely. -/
theorem claim1_witness :
    ∃ costAB costBA : ℚ,
      (add_bidir_edge gAB "A" "B" 10).adj =
        adjAppend (adjAppend gAB.adj "A" (Edge.mk "A" "B" 10 costAB)) "B"
          (Edge.mk "B" "A" 10 costBA)
      ∧ costBA ≤ costAB ∧ 1/100 ≤ costAB ∧ 1/100 ≤ costBA :=
  claim1_amended gAB "A" "B" cityA cityBhigh 0 (160934/100000) 10
    rfl rfl rfl rfl (by norm_num) (by norm_num)

/-!
### C6 — self-loops

The claim asserts that no call to `add_bidir_edge`, *including one with
equal origin and destination*, ever creates a self-loop.  The code has no
such guard: `add_bidir_edge(A, A, d)` with `A` present inserts two edges
`A→A`.  The amended claim restricts the invariant to calls with distinct
endpoints. -/

/-- **C6, counterexample.**  Calling `add_bidir_edge` with origin =
destination = `"A"` on a graph containing `"A"` puts self-loop edges in the
adjacency list. -/
theorem claim6_cex :
    ((alGetD (add_bidir_edge (⟨[("A", cityA)], []⟩ : Graph) "A" "A" 5).adj "A" []).any
      (fun e => e.src == e.dst)) = true := by decide

/-- **C6, amended.**  A call with origin ≠ destination preserves the
no-self-loop invariant of the adjacency lists (and hence graphs loaded from
self-loop-free edge records never contain one); a call with equal,
present endpoints violates it (see the counterexample). -/
theorem claim6_amended (g : Graph) (src dst : String) (d : ℚ)
    (hne : src ≠ dst)
    (hg : ∀ kv ∈ g.adj, ∀ e ∈ kv.2, e.src ≠ e.dst) :
    ∀ kv ∈ (add_bidir_edge g src dst d).adj, ∀ e ∈ kv.2, e.src ≠ e.dst := by
  unfold add_bidir_edge
  rcases hA : alGet g.cities src with _ | cA
  · exact hg
  · rcases hB : alGet g.cities dst with _ | cB
    · exact hg
    · exact adjAppend_forall (adjAppend_forall hg hne) (Ne.symm hne)

/-- **C6, witness**: concrete application on `gAB` (the first conjunct is
the discharged distinct-endpoint hypothesis). -/
theorem claim6_witness :
    (("A" : String) ≠ "B") ∧
    ∀ kv ∈ (add_bidir_edge gAB "A" "B" 1).adj, ∀ e ∈ kv.2, e.src ≠ e.dst :=
  ⟨by decide,
    claim6_amended gAB "A" "B" 1 (by decide) (by intro kv h; simp [gAB] at h)⟩

/-!
### C8 — Prim frontier tie-breaking

The spec claims cost ties on the Prim frontier are broken by
insertion/discovery order.  The frontier is a `heapq` of
`(real_dist, src, dst)` tuples, and `heapq` orders by Python tuple
comparison: cost first, then *lexicographically* by origin and destination
identifier — insertion order plays no role.  `gTie` refutes the claim:
the equal-cost tuple `(5, "S", "B")` is inserted before `(5, "S", "A")`,
yet `(5, "S", "A")` is popped and selected first.  The amended claim states
the actual rule: the popped tuple is minimal in the lexicographic
`(cost, origin, destination)` order, and among equal tuples the first
occurrence is removed. -/

/-- Sanity: `gTie` is exactly what the loader builds from the two
`add_bidir_edge` calls on `gSBA`. -/
theorem gTie_eq_loaded :
    gTie = add_bidir_edge (add_bidir_edge gSBA "S" "B" 5) "S" "A" 5 := by
  norm_num [gTie, gSBA, add_bidir_edge, alGet, alGetD, adjAppend, alSet, max_def,
    metersPerMile, show ("S" : String) ≠ "B" from by decide,
    show ("S" : String) ≠ "A" from by decide, show ("B" : String) ≠ "A" from by decide]

/-- **C8, counterexample.**  In `gTie` the frontier of
`prim_mst_edges gTie "S"` holds the equal-cost tuples `(5, "S", "B")`
(inserted first) and `(5, "S", "A")`; the first pop selects the
*later-inserted* edge S→A, so the first tree edge is `S→A`, refuting the
insertion-order tie-break. -/
theorem claim8_cex :
    alGetD gTie.adj "S" [] = [⟨"S", "B", 5, 5⟩, ⟨"S", "A", 5, 5⟩] ∧
    (⟨"S", "B", 5, 5⟩ : Edge).real_dist = (⟨"S", "A", 5, 5⟩ : Edge).real_dist ∧
    prim_mst_edges gTie "S" = [⟨"S", "A", 5, 5⟩, ⟨"S", "B", 5, 5⟩] := by decide

theorem charListLt_lt_iff : ∀ (a b : List Char), charListLt a b = true ↔ a < b
  | [], [] => by
    constructor
    · intro h
      simp [charListLt] at h
    · intro h
      cases h
  | [], b :: bs => by
    simpa [charListLt] using List.Lex.nil
  | a :: as, [] => by
    constructor
    · intro h
      simp [charListLt] at h
    · intro h
      cases h
  | a :: as, b :: bs => by
    by_cases hab : a < b
    · simp only [charListLt, if_pos hab, true_iff]
      exact List.Lex.rel hab
    · by_cases hba : b < a
      · simp only [charListLt, if_neg hab, if_pos hba, Bool.false_eq_true, false_iff]
        intro h
        cases h with
        | rel h' => exact absurd h' hab
        | cons _ => exact absurd hba (lt_irrefl _)
      · have heq : a = b := le_antisymm (le_of_not_lt hba) (le_of_not_lt hab)
        subst heq
        simp only [charListLt, if_neg hab, if_neg hba]
        rw [charListLt_lt_iff as bs]
        constructor
        · intro h
          exact List.Lex.cons h
        · intro h
          cases h with
          | rel h' => exact absurd h' hab
          | cons h' => exact h'

theorem pyStrLt_lt_iff (a b : String) : pyStrLt a b = true ↔ a < b := by
  rw [String.lt_iff_toList_lt]
  exact charListLt_lt_iff a.data b.data

theorem pyStrLe_le_iff (a b : String) : pyStrLe a b = true ↔ a ≤ b := by
  unfold pyStrLe
  rw [Bool.not_eq_true']
  constructor
  · intro h
    by_contra hle
    rw [not_le] at hle
    rw [← pyStrLt_lt_iff b a] at hle
    rw [hle] at h
    exact Bool.noConfusion h
  · intro h
    by_contra hne
    rw [Bool.not_eq_false] at hne
    exact absurd h (not_le_of_lt ((pyStrLt_lt_iff b a).mp hne))

theorem tupLt_iff (a b : ℚ × String × String) :
    tupLt a b ↔
      a.1 < b.1 ∨ (a.1 = b.1 ∧ (a.2.1 < b.2.1 ∨ (a.2.1 = b.2.1 ∧ a.2.2 < b.2.2))) := by
  unfold tupLt tupLtB
  simp [pyStrLt_lt_iff, Bool.or_eq_true, Bool.and_eq_true, decide_eq_true_eq]

theorem tupLt_irrefl (a : ℚ × String × String) : ¬ tupLt a a := by
  rw [tupLt_iff]
  intro h
  rcases h with h | ⟨_, h | ⟨_, h⟩⟩ <;> exact absurd h (lt_irrefl _)

theorem tupLt_trans {a b c : ℚ × String × String}
    (h1 : tupLt a b) (h2 : tupLt b c) : tupLt a c := by
  rw [tupLt_iff] at h1 h2 ⊢
  rcases h1 with h1 | ⟨e1, h1⟩ <;> rcases h2 with h2 | ⟨e2, h2⟩
  · exact Or.inl (lt_trans h1 h2)
  · exact Or.inl (e2 ▸ h1)
  · exact Or.inl (e1 ▸ h2)
  · refine Or.inr ⟨e1.trans e2, ?_⟩
    rcases h1 with h1 | ⟨f1, h1⟩ <;> rcases h2 with h2 | ⟨f2, h2⟩
    · exact Or.inl (lt_trans h1 h2)
    · exact Or.inl (f2 ▸ h1)
    · exact Or.inl (f1 ▸ h2)
    · exact Or.inr ⟨f1.trans f2, lt_trans h1 h2⟩

theorem findMinTup_mem (m : ℚ × String × String) (l : List (ℚ × String × String)) :
    findMinTup m l ∈ m :: l := by
  induction l generalizing m with
  | nil => simp [findMinTup]
  | cons x t ih =>
    have hstep : findMinTup m (x :: t) = findMinTup (if tupLt x m then x else m) t := rfl
    rw [hstep]
    by_cases h : tupLt x m
    · rw [if_pos h]
      rcases List.mem_cons.mp (ih x) with hh | hh
      · rw [hh]
        exact List.mem_cons_of_mem _ (List.mem_cons_self _ _)
      · exact List.mem_cons_of_mem _ (List.mem_cons_of_mem _ hh)
    · rw [if_neg h]
      rcases List.mem_cons.mp (ih m) with hh | hh
      · rw [hh]
        exact List.mem_cons_self _ _
      · exact List.mem_cons_of_mem _ (List.mem_cons_of_mem _ hh)

theorem tupLt_total (a b : ℚ × String × String) : tupLt a b ∨ a = b ∨ tupLt b a := by
  rw [tupLt_iff, tupLt_iff]
  obtain ⟨a1, a2, a3⟩ := a
  obtain ⟨b1, b2, b3⟩ := b
  rcases lt_trichotomy a1 b1 with h | h | h
  · exact Or.inl (Or.inl h)
  · subst h
    rcases lt_trichotomy a2 b2 with h2 | h2 | h2
    · exact Or.inl (Or.inr ⟨rfl, Or.inl h2⟩)
    · subst h2
      rcases lt_trichotomy a3 b3 with h3 | h3 | h3
      · exact Or.inl (Or.inr ⟨rfl, Or.inr ⟨rfl, h3⟩⟩)
      · subst h3
        exact Or.inr (Or.inl rfl)
      · exact Or.inr (Or.inr (Or.inr ⟨rfl, Or.inr ⟨rfl, h3⟩⟩))
    · exact Or.inr (Or.inr (Or.inr ⟨rfl, Or.inl h2⟩))
  · exact Or.inr (Or.inr (Or.inl h))

theorem findMinTup_min (m : ℚ × String × String) (l : List (ℚ × String × String)) :
    ∀ x ∈ m :: l, ¬ tupLt x (findMinTup m l) := by
  induction l generalizing m with
  | nil =>
    intro x hx
    rw [List.mem_singleton] at hx
    subst hx
    simpa [findMinTup] using tupLt_irrefl x
  | cons y t ih =>
    have hstep : findMinTup m (y :: t) = findMinTup (if tupLt y m then y else m) t := rfl
    by_cases hy : tupLt y m
    · rw [hstep, if_pos hy]
      intro x hx hc
      have hxy : x = m ∨ x = y ∨ x ∈ t := by simpa using hx
      have hym : ¬ tupLt y (findMinTup y t) := ih y y (List.mem_cons_self y t)
      rcases hxy with rfl | rfl | hxt
      · exact hym (tupLt_trans hy hc)
      · exact hym hc
      · exact ih y x (List.mem_cons_of_mem _ hxt) hc
    · rw [hstep, if_neg hy]
      intro x hx hc
      have hxy : x = m ∨ x = y ∨ x ∈ t := by simpa using hx
      have hmm : ¬ tupLt m (findMinTup m t) := ih m m (List.mem_cons_self m t)
      rcases hxy with rfl | rfl | hxt
      · exact hmm hc
      · rcases tupLt_total x m with ht | ht | ht
        · exact hy ht
        · exact hmm (ht ▸ hc)
        · exact hmm (tupLt_trans ht hc)
      · exact ih m x (List.mem_cons_of_mem _ hxt) hc

theorem eraseFirst_decomp {α : Type} [DecidableEq α] {l : List α} {m : α}
    (h : m ∈ l) :
    ∃ l₁ l₂, l = l₁ ++ m :: l₂ ∧ m ∉ l₁ ∧ eraseFirst l m = l₁ ++ l₂ := by
  induction l with
  | nil => simp at h
  | cons x t ih =>
    by_cases hx : x = m
    · subst hx
      exact ⟨[], t, rfl, by simp, by simp [eraseFirst]⟩
    · have hmt : m ∈ t := by
        rcases List.mem_cons.mp h with hh | hh
        · exact absurd hh.symm hx
        · exact hh
      obtain ⟨l₁, l₂, heq, hnm, her⟩ := ih hmt
      refine ⟨x :: l₁, l₂, by rw [heq]; rfl, ?_, ?_⟩
      · simp only [List.mem_cons, not_or]
        exact ⟨fun hh => hx hh.symm, hnm⟩
      · simp only [eraseFirst, if_neg hx, her, List.cons_append]

/-- **C8, amended.**  The tuple popped from the Prim frontier (`popMin`,
the value-level behaviour of `heapq.heappop` on which `prim_mst_edges` is
built) is minimal among the frontier tuples in the lexicographic
`(cost, origin id, destination id)` order — so cost ties are broken by the
identifier comparison, not by insertion order — and among equal tuples the
first occurrence is the one removed. -/
theorem claim8_amended (l : List (ℚ × String × String)) (h : l ≠ []) :
    ∃ t rest, popMin l = some (t, rest) ∧ t ∈ l ∧ (∀ x ∈ l, ¬ tupLt x t) ∧
      ∃ l₁ l₂, l = l₁ ++ t :: l₂ ∧ t ∉ l₁ ∧ rest = l₁ ++ l₂ := by
  match l with
  | [] => exact absurd rfl h
  | x :: ts =>
    refine ⟨findMinTup x ts, eraseFirst (x :: ts) (findMinTup x ts), rfl,
      findMinTup_mem x ts, findMinTup_min x ts, ?_⟩
    obtain ⟨l₁, l₂, heq, hnm, her⟩ := eraseFirst_decomp (findMinTup_mem x ts)
    exact ⟨l₁, l₂, heq, hnm, her⟩

/-- **C8, witness**: the amended theorem applied to the concrete frontier of
the `gTie` counterexample. -/
theorem claim8_witness :
    ∃ t rest, popMin [((5 : ℚ), "S", "B"), ((5 : ℚ), "S", "A")] = some (t, rest) ∧
      t ∈ [((5 : ℚ), "S", "B"), ((5 : ℚ), "S", "A")] ∧
      (∀ x ∈ [((5 : ℚ), "S", "B"), ((5 : ℚ), "S", "A")], ¬ tupLt x t) ∧
      ∃ l₁ l₂, [((5 : ℚ), "S", "B"), ((5 : ℚ), "S", "A")] = l₁ ++ t :: l₂ ∧
        t ∉ l₁ ∧ rest = l₁ ++ l₂ :=
  claim8_amended _ (by decide)

/-!
### C5 — numeric-parse recovery in `WeatherRisk.load`

The claim says every risk record yields a stored numeric value and that a
malformed raw value never escapes as an error.  The recovery path
`val = float(digits) if digits else 0.0` sits *inside* the `except` block
and is itself unprotected: when the character-filtered string is nonempty
but still unparseable (e.g. raw value `"-"`, filtered to `"-"`), the inner
`float` raises, `load` aborts (skipping `self.dates.sort()` and the rest of
the file), and the caller in `main` catches it as a warning.  The amended
claim states the exact behaviour. -/

/-- **C5, counterexample.**  A record with risk value `"-"`: the direct
parse fails, the filtered digit string is `"-"` (nonempty), the re-parse
raises — `load` propagates the exception (flag `true`) and stores
nothing. -/
theorem claim5_cex :
    load ⟨[], []⟩ [[("city_id", "X"), ("date", "d1"), ("risk", "-")]]
      = (⟨[], []⟩, true) := by decide

/-- **C5, amended.**  For a record with a nonempty city id: the stored value
is the direct parse of the raw risk when that succeeds; else `0.0` when the
filtered digit string is empty; else the parse of the filtered digit string
when that succeeds; and when the filtered string is nonempty and
unparseable the record raises (`loadRow _ _ = none`), which `load` reports
to its caller instead of storing a value. -/
theorem claim5_amended (wr : WeatherRisk) (r : AL String)
    (hcid : cidOf r ≠ "") :
    (∀ v, pyFloat? (rawOf r) = some v →
      loadRow wr r = some (wrStore wr (cidOf r) (dateOf r) v)) ∧
    (pyFloat? (rawOf r) = none → digitsOf (rawOf r) = "" →
      loadRow wr r = some (wrStore wr (cidOf r) (dateOf r) 0)) ∧
    (∀ v, pyFloat? (rawOf r) = none → digitsOf (rawOf r) ≠ "" →
      pyFloat? (digitsOf (rawOf r)) = some v →
      loadRow wr r = some (wrStore wr (cidOf r) (dateOf r) v)) ∧
    (pyFloat? (rawOf r) = none → digitsOf (rawOf r) ≠ "" →
      pyFloat? (digitsOf (rawOf r)) = none →
      loadRow wr r = none) := by
  refine ⟨?_, ?_, ?_, ?_⟩
  · intro v hv
    simp only [loadRow, if_neg hcid, hv]
  · intro h1 h2
    simp only [loadRow, if_neg hcid, h1, h2, if_pos]
  · intro v h1 h2 h3
    simp only [loadRow, if_neg hcid, h1, if_neg h2, h3]
  · intro h1 h2 h3
    simp only [loadRow, if_neg hcid, h1, if_neg h2, h3]

/-- **C5, witness**: the amended theorem at a concrete record whose risk
value `"2x"` fails the direct parse and recovers to `2` via the digit
filter. -/
theorem claim5_witness :
    (∀ v, pyFloat? (rawOf [("city_id", "X"), ("risk", "2x")]) = some v →
      loadRow ⟨[], []⟩ [("city_id", "X"), ("risk", "2x")] = some (wrStore ⟨[], []⟩
        (cidOf [("city_id", "X"), ("risk", "2x")])
        (dateOf [("city_id", "X"), ("risk", "2x")]) v)) ∧
    (pyFloat? (rawOf [("city_id", "X"), ("risk", "2x")]) = none →
      digitsOf (rawOf [("city_id", "X"), ("risk", "2x")]) = "" →
      loadRow ⟨[], []⟩ [("city_id", "X"), ("risk", "2x")] = some (wrStore ⟨[], []⟩
        (cidOf [("city_id", "X"), ("risk", "2x")])
        (dateOf [("city_id", "X"), ("risk", "2x")]) 0)) ∧
    (∀ v, pyFloat? (rawOf [("city_id", "X"), ("risk", "2x")]) = none →
      digitsOf (rawOf [("city_id", "X"), ("risk", "2x")]) ≠ "" →
      pyFloat? (digitsOf (rawOf [("city_id", "X"), ("risk", "2x")])) = some v →
      loadRow ⟨[], []⟩ [("city_id", "X"), ("risk", "2x")] = some (wrStore ⟨[], []⟩
        (cidOf [("city_id", "X"), ("risk", "2x")])
        (dateOf [("city_id", "X"), ("risk", "2x")]) v)) ∧
    (pyFloat? (rawOf [("city_id", "X"), ("risk", "2x")]) = none →
      digitsOf (rawOf [("city_id", "X"), ("risk", "2x")]) ≠ "" →
      pyFloat? (digitsOf (rawOf [("city_id", "X"), ("risk", "2x")])) = none →
      loadRow ⟨[], []⟩ [("city_id", "X"), ("risk", "2x")] = none) :=
  claim5_amended ⟨[], []⟩ [("city_id", "X"), ("risk", "2x")] (by decide)

/-!
### C10 — the empty-string date

`load` stores `risk[cid][""]` for a record with empty date field but the
`if date and ...` guard keeps `""` out of `self.dates`, and
`best_date_for_path` only ever returns dates from that list.  The claim's
first part ("stores a risk entry under the empty-string date") fails for a
record whose risk value additionally raises (see C5): then nothing at all
is stored.  Amended to records whose risk value is processed without an
exception; the dates-list and `best_date_for_path` parts hold as stated. -/

theorem mem_insSortedStr (y x : String) : ∀ (l : List String),
    y ∈ insSortedStr x l ↔ y = x ∨ y ∈ l
  | [] => by simp [insSortedStr]
  | z :: zs => by
    by_cases h : pyStrLe z x = true
    · simp only [insSortedStr, if_pos h, List.mem_cons, mem_insSortedStr y x zs]
      tauto
    · simp only [insSortedStr, if_neg h, List.mem_cons]

theorem mem_sortStrings (y : String) (l : List String) :
    y ∈ sortStrings l ↔ y ∈ l := by
  suffices h : ∀ (l acc : List String),
      y ∈ l.foldl (fun acc x => insSortedStr x acc) acc ↔ y ∈ acc ∨ y ∈ l by
    rw [sortStrings, h l []]
    simp
  intro l
  induction l with
  | nil =>
    intro acc
    simp
  | cons x xs ih =>
    intro acc
    simp only [List.foldl_cons, ih, mem_insSortedStr, List.mem_cons]
    tauto

/-- Outcomes of one load record: skipped (empty id), or stored via
`wrStore` (any of the three value paths), or raised (excluded by
`= some _`). -/
theorem loadRow_cases {wr : WeatherRisk} {r : AL String} {wr' : WeatherRisk}
    (h : loadRow wr r = some wr') :
    (cidOf r = "" ∧ wr' = wr) ∨
      (cidOf r ≠ "" ∧ ∃ v, wr' = wrStore wr (cidOf r) (dateOf r) v) := by
  by_cases hc : cidOf r = ""
  · rw [loadRow, if_pos hc] at h
    injection h with h
    exact Or.inl ⟨hc, h.symm⟩
  · rw [loadRow, if_neg hc] at h
    refine Or.inr ⟨hc, ?_⟩
    rcases h1 : pyFloat? (rawOf r) with _ | v
    · rw [h1] at h
      simp only at h
      by_cases h2 : digitsOf (rawOf r) = ""
      · rw [if_pos h2] at h
        injection h with h
        exact ⟨0, h.symm⟩
      · rw [if_neg h2] at h
        rcases h3 : pyFloat? (digitsOf (rawOf r)) with _ | v
        · rw [h3] at h
          exact Option.noConfusion h
        · rw [h3] at h
          injection h with h
          exact ⟨v, h.symm⟩
    · rw [h1] at h
      injection h with h
      exact ⟨v, h.symm⟩

theorem wrStore_dates_no_empty {wr : WeatherRisk} (cid date : String) (v : ℚ)
    (h : "" ∉ wr.dates) : "" ∉ (wrStore wr cid date v).dates := by
  unfold wrStore
  simp only
  split
  · rename_i hcond
    intro hmem
    rcases List.mem_append.mp hmem with hm | hm
    · exact h hm
    · rw [List.mem_singleton] at hm
      exact hcond.1 hm.symm
  · exact h

theorem load_dates_no_empty : ∀ (rows : List (AL String)) (wr : WeatherRisk),
    "" ∉ wr.dates → "" ∉ (load wr rows).1.dates := by
  intro rows
  induction rows with
  | nil =>
    intro wr h
    simp only [load]
    intro hmem
    exact h ((mem_sortStrings _ _).mp hmem)
  | cons r rs ih =>
    intro wr h
    rcases hlr : loadRow wr r with _ | wr'
    · simp only [load, hlr]
      exact h
    · simp only [load, hlr]
      apply ih
      rcases loadRow_cases hlr with ⟨_, rfl⟩ | ⟨_, v, rfl⟩
      · exact h
      · exact wrStore_dates_no_empty _ _ _ h

/-- One step of the best-date scan either keeps the accumulator or moves to
the scanned date. -/
theorem bestStep_cases (wr : WeatherRisk) (pairs : List (String × String))
    (acc : Option (String × ℚ)) (date : String) :
    bestStep wr pairs acc date = acc ∨
      ∃ t, segRisk wr date pairs = some t ∧
        bestStep wr pairs acc date = some (date, t) := by
  unfold bestStep
  rcases h : segRisk wr date pairs with _ | t
  · exact Or.inl rfl
  · rcases acc with _ | dr
    · exact Or.inr ⟨t, rfl, rfl⟩
    · by_cases hlt : t < dr.2
      · simp only [if_pos hlt]
        exact Or.inr ⟨t, rfl, rfl⟩
      · simp only [if_neg hlt]
        exact Or.inl trivial

/-- The best-date scan only ever produces a scanned date (or the initial
accumulator). -/
theorem bestFold_mem (wr : WeatherRisk) (pairs : List (String × String)) :
    ∀ (dates : List String) (acc : Option (String × ℚ)) (dr : String × ℚ),
    dates.foldl (bestStep wr pairs) acc = some dr → acc = some dr ∨ dr.1 ∈ dates := by
  intro dates
  induction dates with
  | nil =>
    intro acc dr h
    exact Or.inl h
  | cons d ds ih =>
    intro acc dr h
    simp only [List.foldl_cons] at h
    rcases ih _ _ h with h2 | h2
    · rcases bestStep_cases wr pairs acc d with h3 | ⟨t, _, h3⟩
      · rw [h3] at h2
        exact Or.inl h2
      · rw [h3] at h2
        injection h2 with h2
        rw [← h2]
        exact Or.inr (List.mem_cons_self _ _)
    · exact Or.inr (List.mem_cons_of_mem _ h2)

/-- **C10, counterexample.**  A record with empty date field whose risk
value `"-"` raises: nothing is stored, so "a risk record whose date field
is the empty string stores a risk entry under the empty-string date" fails
as stated. -/
theorem claim10_cex :
    dateOf [("city_id", "X"), ("date", ""), ("risk", "-")] = "" ∧
    cidOf [("city_id", "X"), ("date", ""), ("risk", "-")] = "X" ∧
    (load ⟨[], []⟩ [[("city_id", "X"), ("date", ""), ("risk", "-")]]).1.risk = [] := by
  decide

/-- **C10, amended.**  (1) A record with nonempty id and empty date field
that is processed without raising stores an entry under the date `""`;
(2) `""` is never added to the known-dates list; (3) consequently
`best_date_for_path` never returns `""` as the best date, for any route. -/
theorem claim10_amended :
    (∀ (wr : WeatherRisk) (r : AL String) (wr' : WeatherRisk),
      loadRow wr r = some wr' → cidOf r ≠ "" → dateOf r = "" →
      (alGet (alGetD wr'.risk (cidOf r) []) "").isSome = true) ∧
    (∀ (wr : WeatherRisk) (rows : List (AL String)), "" ∉ wr.dates →
      "" ∉ (load wr rows).1.dates) ∧
    (∀ (wr : WeatherRisk) (route : List String), "" ∉ wr.dates →
      (best_date_for_path route wr).1 ≠ some "") := by
  refine ⟨?_, ?_, ?_⟩
  · intro wr r wr' h hc hd
    rcases loadRow_cases h with ⟨hc', _⟩ | ⟨_, v, rfl⟩
    · exact absurd hc' hc
    · unfold wrStore
      simp only
      rw [hd, alGetD, alGet_alSet_self]
      simp only [Option.getD_some]
      rw [alGet_alSet_self]
      rfl
  · intro wr rows h
    exact load_dates_no_empty rows wr h
  · intro wr route h hsome
    unfold best_date_for_path at hsome
    by_cases hlen : route.length < 2
    · rw [if_pos hlen] at hsome
      simp at hsome
    · rw [if_neg hlen] at hsome
      rcases hf : wr.dates.foldl (bestStep wr (route.zip route.tail)) none with _ | dr
      · rw [hf] at hsome
        simp at hsome
      · rw [hf] at hsome
        simp only at hsome
        injection hsome with hh
        rcases bestFold_mem wr _ wr.dates none dr hf with h2 | h2
        · exact Option.noConfusion h2
        · rw [hh] at h2
          exact h h2

/-- **C10, witness**: the three parts of the amended claim at concrete
inputs. -/
theorem claim10_witness :
    (alGet (alGetD (wrStore ⟨[], []⟩ "X" "" 0).risk
      (cidOf [("city_id", "X"), ("date", "")]) []) "").isSome = true ∧
    ("" ∉ (load ⟨[], []⟩ [[("city_id", "X"), ("date", ""), ("risk", "1")]]).1.dates) ∧
    (best_date_for_path ["X", "Y"] ⟨[("X", [("d1", 4)]), ("Y", [("d1", 2)])], ["d1"]⟩).1
      ≠ some "" := by
  refine ⟨?_, ?_, ?_⟩
  · exact claim10_amended.1 ⟨[], []⟩ [("city_id", "X"), ("date", "")]
      (wrStore ⟨[], []⟩ "X" "" 0) (by decide) (by decide) (by decide)
  · exact claim10_amended.2.1 ⟨[], []⟩ [[("city_id", "X"), ("date", ""), ("risk", "1")]]
      (by decide)
  · exact claim10_amended.2.2 ⟨[("X", [("d1", 4)]), ("Y", [("d1", 2)])], ["d1"]⟩
      ["X", "Y"] (by decide)

/-!
### C4 — `best_date_for_path`

The inner loop over a date is the feasibility check plus the summed
`edge_risk`; the outer loop is a first-minimum scan over `wr.dates` in list
order (ascending, since `load` sorts).  The claim is confirmed. -/

/-- The per-date scan computes exactly: the summed segment risk when every
pair has explicit entries, `None` (infeasible) otherwise. -/
theorem segRisk_eq (wr : WeatherRisk) (date : String) :
    ∀ (pairs : List (String × String)),
    segRisk wr date pairs =
      if ∀ uv ∈ pairs, pairOk wr date uv then
        some ((pairs.map (fun uv => edge_risk wr uv.1 uv.2 date)).sum)
      else none
  | [] => by simp [segRisk]
  | uv :: rest => by
    by_cases h1 : pairOk wr date uv
    · have hb : ((alGet (alGetD wr.risk uv.1 []) date).isSome
          && (alGet (alGetD wr.risk uv.2 []) date).isSome) = true := by
        rw [Bool.and_eq_true]
        exact h1
      rw [segRisk, if_pos hb, segRisk_eq wr date rest]
      by_cases h2 : ∀ x ∈ rest, pairOk wr date x
      · have hall : ∀ x ∈ uv :: rest, pairOk wr date x := by
          intro x hx
          rcases List.mem_cons.mp hx with rfl | hx
          · exact h1
          · exact h2 x hx
        rw [if_pos h2, if_pos hall]
        simp
      · have hnall : ¬ ∀ x ∈ uv :: rest, pairOk wr date x := fun hall =>
          h2 fun x hx => hall x (List.mem_cons_of_mem _ hx)
        rw [if_neg h2, if_neg hnall]
    · have hb : ¬ ((alGet (alGetD wr.risk uv.1 []) date).isSome
          && (alGet (alGetD wr.risk uv.2 []) date).isSome) = true := by
        rw [Bool.and_eq_true]
        exact h1
      have hnall : ¬ ∀ x ∈ uv :: rest, pairOk wr date x :=
        fun hall => h1 (hall uv (List.mem_cons_self _ _))
      rw [segRisk, if_neg hb, if_neg hnall]

/-- Full characterisation of the first-minimum date scan: the result is
`none` iff the accumulator was `none` and no scanned date is feasible; a
`some` result bounds every feasible scanned date, and is either the kept
accumulator or a scanned date that strictly beats every earlier feasible
scanned date and the accumulator. -/
theorem bestFold_spec (wr : WeatherRisk) (pairs : List (String × String)) :
    ∀ (dates : List String) (acc : Option (String × ℚ)),
    (dates.foldl (bestStep wr pairs) acc = none ↔
      (acc = none ∧ ∀ x ∈ dates, segRisk wr x pairs = none)) ∧
    (∀ dr, dates.foldl (bestStep wr pairs) acc = some dr →
      (∀ x ∈ dates, ∀ t, segRisk wr x pairs = some t → dr.2 ≤ t) ∧
      (acc = some dr ∨
        (∃ l₁ l₂, dates = l₁ ++ dr.1 :: l₂ ∧ segRisk wr dr.1 pairs = some dr.2 ∧
          (∀ x ∈ l₁, ∀ t, segRisk wr x pairs = some t → dr.2 < t) ∧
          (∀ ar, acc = some ar → dr.2 < ar.2)))) := by
  intro dates
  induction dates with
  | nil =>
    intro acc
    constructor
    · simp
    · intro dr h
      refine ⟨by simp, Or.inl h⟩
  | cons d ds ih =>
    intro acc
    have hfold : (d :: ds).foldl (bestStep wr pairs) acc
        = ds.foldl (bestStep wr pairs) (bestStep wr pairs acc d) := rfl
    -- the three possible outcomes of the first step
    have main : ∀ acc' : Option (String × ℚ), bestStep wr pairs acc d = acc' →
        (∀ t, segRisk wr d pairs = some t →
          (acc' = some (d, t) ∧ ∀ ar, acc = some ar → t < ar.2) ∨
          (acc' = acc ∧ ∃ ar, acc = some ar ∧ ar.2 ≤ t)) →
        (segRisk wr d pairs = none → acc' = acc) →
        (acc' = none → acc = none ∧ segRisk wr d pairs = none) →
        (∀ ar', acc' = some ar' →
          (acc = some ar' ∧ ∀ t, segRisk wr d pairs = some t → ar'.2 ≤ t) ∨
          (segRisk wr d pairs = some ar'.2 ∧ ar'.1 = d ∧
            ∀ ar, acc = some ar → ar'.2 < ar.2)) →
        ((d :: ds).foldl (bestStep wr pairs) acc = none ↔
          (acc = none ∧ ∀ x ∈ d :: ds, segRisk wr x pairs = none)) ∧
        (∀ dr, (d :: ds).foldl (bestStep wr pairs) acc = some dr →
          (∀ x ∈ d :: ds, ∀ t, segRisk wr x pairs = some t → dr.2 ≤ t) ∧
          (acc = some dr ∨
            (∃ l₁ l₂, d :: ds = l₁ ++ dr.1 :: l₂ ∧ segRisk wr dr.1 pairs = some dr.2 ∧
              (∀ x ∈ l₁, ∀ t, segRisk wr x pairs = some t → dr.2 < t) ∧
              (∀ ar, acc = some ar → dr.2 < ar.2)))) := by
      intro acc' hstep hsome hnone haccnone haccsome
      rw [hfold, hstep]
      constructor
      · rw [(ih acc').1]
        constructor
        · rintro ⟨h1, h2⟩
          obtain ⟨ha, hd⟩ := haccnone h1
          refine ⟨ha, ?_⟩
          intro x hx
          rcases List.mem_cons.mp hx with rfl | hx
          · exact hd
          · exact h2 x hx
        · rintro ⟨h1, h2⟩
          have hd := h2 d (List.mem_cons_self _ _)
          refine ⟨?_, fun x hx => h2 x (List.mem_cons_of_mem _ hx)⟩
          rw [hnone hd, h1]
      · intro dr h
        obtain ⟨hbound, hsrc⟩ := (ih acc').2 dr h
        -- bound over the head date
        have hdbound : ∀ t, segRisk wr d pairs = some t → dr.2 ≤ t := by
          intro t ht
          rcases hsome t ht with ⟨hup, _⟩ | ⟨hkeep, ar, har, hle⟩
          · rcases hsrc with hsrc2 | ⟨_, _, _, _, _, haccs⟩
            · rw [hup] at hsrc2
              injection hsrc2 with hsrc2
              rw [← hsrc2]
            · exact le_of_lt (haccs (d, t) hup)
          · rcases hsrc with hsrc2 | ⟨_, _, _, _, _, haccs⟩
            · rw [hkeep, har] at hsrc2
              injection hsrc2 with hsrc2
              rw [← hsrc2]
              exact hle
            · exact le_of_lt (lt_of_lt_of_le (haccs ar (by rw [hkeep, har])) hle)
        constructor
        · intro x hx t ht
          rcases List.mem_cons.mp hx with rfl | hx
          · exact hdbound t ht
          · exact hbound x hx t ht
        · rcases hsrc with hsrc | ⟨l₁, l₂, hdec, hsg, hbefore, haccs⟩
          · -- result is the post-step accumulator
            rcases haccsome dr hsrc with ⟨hkeep, hbnd⟩ | ⟨hsg, hd1, hstrict⟩
            · exact Or.inl hkeep
            · refine Or.inr ⟨[], ds, by rw [hd1]; rfl, by rw [hd1]; exact hsg, by simp, hstrict⟩
          · -- result comes from the tail scan
            refine Or.inr ⟨d :: l₁, l₂, by rw [hdec]; rfl, hsg, ?_, ?_⟩
            · intro x hx t ht
              rcases List.mem_cons.mp hx with rfl | hx
              · -- strict against the head date
                rcases hsome t ht with ⟨hup, _⟩ | ⟨hkeep, ar, har, hle⟩
                · exact haccs (_, t) hup
                · exact lt_of_lt_of_le (haccs ar (by rw [hkeep, har])) hle
              · exact hbefore x hx t ht
            · intro ar har
              rcases hsome2 : segRisk wr d pairs with _ | t
              · exact haccs ar (by rw [hnone hsome2, har])
              · rcases hsome t hsome2 with ⟨hup, hstrict⟩ | ⟨hkeep, ar2, har2, hle⟩
                · exact lt_trans (haccs (d, t) hup) (hstrict ar har)
                · exact haccs ar (by rw [hkeep, har])
    -- discharge the step-outcome obligations by case analysis on the step
    rcases hseg : segRisk wr d pairs with _ | t
    · have hstep : bestStep wr pairs acc d = acc := by
        unfold bestStep
        rw [hseg]
      refine main acc hstep ?_ (fun _ => rfl) ?_ ?_
      · intro t ht
        rw [hseg] at ht
        exact Option.noConfusion ht
      · intro h1
        exact ⟨h1, hseg⟩
      · intro ar' h1
        exact Or.inl ⟨h1, fun t ht => absurd (hseg ▸ ht) (by simp)⟩
    · rcases acc with _ | ar
      · have hstep : bestStep wr pairs none d = some (d, t) := by
          unfold bestStep
          rw [hseg]
        refine main (some (d, t)) hstep ?_ ?_ ?_ ?_
        · intro t' ht'
          rw [hseg] at ht'
          injection ht' with ht'
          subst ht'
          exact Or.inl ⟨rfl, fun ar har => Option.noConfusion har⟩
        · intro hc
          rw [hseg] at hc
          exact Option.noConfusion hc
        · intro hc
          exact Option.noConfusion hc
        · intro ar' h1
          injection h1 with h1
          subst h1
          exact Or.inr ⟨hseg, rfl, fun ar har => Option.noConfusion har⟩
      · by_cases hlt : t < ar.2
        · have hstep : bestStep wr pairs (some ar) d = some (d, t) := by
            unfold bestStep
            simp only [hseg]
            rw [if_pos hlt]
          refine main (some (d, t)) hstep ?_ ?_ ?_ ?_
          · intro t' ht'
            rw [hseg] at ht'
            injection ht' with ht'
            subst ht'
            refine Or.inl ⟨rfl, ?_⟩
            intro ar2 har2
            injection har2 with har2
            subst har2
            exact hlt
          · intro hc
            rw [hseg] at hc
            exact Option.noConfusion hc
          · intro hc
            exact Option.noConfusion hc
          · intro ar' h1
            injection h1 with h1
            subst h1
            refine Or.inr ⟨hseg, rfl, ?_⟩
            intro ar2 har2
            injection har2 with har2
            subst har2
            exact hlt
        · have hstep : bestStep wr pairs (some ar) d = some ar := by
            unfold bestStep
            simp only [hseg]
            rw [if_neg hlt]
          refine main (some ar) hstep ?_ (fun _ => rfl) ?_ ?_
          · intro t' ht'
            rw [hseg] at ht'
            injection ht' with ht'
            subst ht'
            exact Or.inr ⟨rfl, ar, rfl, le_of_not_lt hlt⟩
          · intro hc
            exact Option.noConfusion hc
          · intro ar' h1
            injection h1 with h1
            subst h1
            refine Or.inl ⟨rfl, ?_⟩
            intro t' ht'
            rw [hseg] at ht'
            injection ht' with ht'
            subst ht'
            exact le_of_not_lt hlt

/-- A feasible date's scan value is the summed segment risk. -/
theorem segRisk_of_feasible (wr : WeatherRisk) (route : List String) (date : String)
    (h : FeasibleDate wr route date) :
    segRisk wr date (route.zip route.tail) = some (totalRisk wr route date) := by
  have hall : ∀ uv ∈ route.zip route.tail, pairOk wr date uv := h
  rw [segRisk_eq, if_pos hall]
  rfl

/-- **C4.**  `best_date_for_path` (the spec's `bestDateForRoute`): returns a
date only when it is feasible (every consecutive pair of stops has explicit
risk entries for both endpoints on that date); among the known dates —
scanned in ascending order, per the sortedness hypothesis established by
`load` — it returns one of minimum summed `edgeRisk`, the first such on
ties (every feasible date strictly earlier in the list has strictly larger
total); and it returns no date, with risk `0.0`, when no date is feasible
or the route has fewer than 2 stops. -/
theorem claim4_theorem (route : List String) (wr : WeatherRisk)
    (_hsorted : List.Pairwise (fun a b => pyStrLe a b = true) wr.dates) :
    (route.length < 2 → best_date_for_path route wr = (none, 0)) ∧
    ((best_date_for_path route wr).1 = none → (best_date_for_path route wr).2 = 0 ∧
      (2 ≤ route.length → ∀ d ∈ wr.dates, ¬ FeasibleDate wr route d)) ∧
    (∀ d, (best_date_for_path route wr).1 = some d →
      d ∈ wr.dates ∧ FeasibleDate wr route d ∧
      (best_date_for_path route wr).2 = totalRisk wr route d ∧
      (∀ x ∈ wr.dates, FeasibleDate wr route x →
        totalRisk wr route d ≤ totalRisk wr route x) ∧
      ∃ l₁ l₂, wr.dates = l₁ ++ d :: l₂ ∧
        ∀ x ∈ l₁, FeasibleDate wr route x →
          totalRisk wr route d < totalRisk wr route x) := by
  by_cases hlen : route.length < 2
  · have hres : best_date_for_path route wr = (none, 0) := by
      simp only [best_date_for_path, if_pos hlen]
    refine ⟨fun _ => hres, ?_, ?_⟩
    · intro _
      rw [hres]
      exact ⟨rfl, fun hc => absurd hlen (not_lt.mpr hc)⟩
    · intro d hd
      rw [hres] at hd
      simp at hd
  · rcases hf : wr.dates.foldl (bestStep wr (route.zip route.tail)) none with _ | dr
    · have hres : best_date_for_path route wr = (none, 0) := by
        simp only [best_date_for_path, if_neg hlen, hf]
      refine ⟨fun hc => absurd hc hlen, ?_, ?_⟩
      · intro _
        rw [hres]
        refine ⟨rfl, ?_⟩
        intro _ d hd hfeas
        have hall := ((bestFold_spec wr (route.zip route.tail) wr.dates none).1.mp hf).2 d hd
        rw [segRisk_of_feasible wr route d hfeas] at hall
        exact Option.noConfusion hall
      · intro d hd
        rw [hres] at hd
        simp at hd
    · have hres1 : (best_date_for_path route wr).1 = some dr.1 := by
        simp only [best_date_for_path, if_neg hlen, hf]
      have hres2 : (best_date_for_path route wr).2 = dr.2 := by
        simp only [best_date_for_path, if_neg hlen, hf]
      obtain ⟨hbound, hsrc⟩ := (bestFold_spec wr (route.zip route.tail) wr.dates none).2 dr hf
      rcases hsrc with hsrc | ⟨l₁, l₂, hdec, hsg, hbefore, _⟩
      · exact Option.noConfusion hsrc
      refine ⟨fun hc => absurd hc hlen, ?_, ?_⟩
      · intro hc
        rw [hres1] at hc
        exact Option.noConfusion hc
      · intro d hd
        rw [hres1] at hd
        injection hd with hd
        subst hd
        have hfeas : FeasibleDate wr route dr.1 ∧ dr.2 = totalRisk wr route dr.1 := by
          rw [segRisk_eq] at hsg
          by_cases hfe : ∀ uv ∈ route.zip route.tail, pairOk wr dr.1 uv
          · rw [if_pos hfe] at hsg
            injection hsg with hsg
            exact ⟨hfe, hsg.symm⟩
          · rw [if_neg hfe] at hsg
            exact Option.noConfusion hsg
        refine ⟨?_, hfeas.1, by rw [hres2]; exact hfeas.2, ?_, ?_⟩
        · rw [hdec]
          exact List.mem_append_right _ (List.mem_cons_self _ _)
        · intro x hx hfx
          have hsx := segRisk_of_feasible wr route x hfx
          have hb := hbound x hx _ hsx
          rw [← hfeas.2]
          exact hb
        · refine ⟨l₁, l₂, hdec, ?_⟩
          intro x hx hfx
          have hsx := segRisk_of_feasible wr route x hfx
          have hb := hbefore x hx _ hsx
          rw [← hfeas.2]
          exact hb

/-- **C4, witness**: the theorem at a concrete table where `"d2"` has the
smaller total but is infeasible (stop `"Y"` has no `"d2"` entry), so the
feasible `"d1"` with total `3` is selected. -/
theorem claim4_witness :
    (["X", "Y"].length < 2 →
      best_date_for_path ["X", "Y"]
        ⟨[("X", [("d1", 4), ("d2", 1)]), ("Y", [("d1", 2)])], ["d1", "d2"]⟩ = (none, 0)) ∧
    ((best_date_for_path ["X", "Y"]
        ⟨[("X", [("d1", 4), ("d2", 1)]), ("Y", [("d1", 2)])], ["d1", "d2"]⟩).1 = none →
      (best_date_for_path ["X", "Y"]
        ⟨[("X", [("d1", 4), ("d2", 1)]), ("Y", [("d1", 2)])], ["d1", "d2"]⟩).2 = 0 ∧
      (2 ≤ (["X", "Y"] : List String).length → ∀ d ∈ (["d1", "d2"] : List String),
        ¬ FeasibleDate ⟨[("X", [("d1", 4), ("d2", 1)]), ("Y", [("d1", 2)])], ["d1", "d2"]⟩
          ["X", "Y"] d)) ∧
    (∀ d, (best_date_for_path ["X", "Y"]
        ⟨[("X", [("d1", 4), ("d2", 1)]), ("Y", [("d1", 2)])], ["d1", "d2"]⟩).1 = some d →
      d ∈ (["d1", "d2"] : List String) ∧
      FeasibleDate ⟨[("X", [("d1", 4), ("d2", 1)]), ("Y", [("d1", 2)])], ["d1", "d2"]⟩
        ["X", "Y"] d ∧
      (best_date_for_path ["X", "Y"]
        ⟨[("X", [("d1", 4), ("d2", 1)]), ("Y", [("d1", 2)])], ["d1", "d2"]⟩).2 =
        totalRisk ⟨[("X", [("d1", 4), ("d2", 1)]), ("Y", [("d1", 2)])], ["d1", "d2"]⟩
          ["X", "Y"] d ∧
      (∀ x ∈ (["d1", "d2"] : List String),
        FeasibleDate ⟨[("X", [("d1", 4), ("d2", 1)]), ("Y", [("d1", 2)])], ["d1", "d2"]⟩
          ["X", "Y"] x →
        totalRisk ⟨[("X", [("d1", 4), ("d2", 1)]), ("Y", [("d1", 2)])], ["d1", "d2"]⟩
          ["X", "Y"] d ≤
          totalRisk ⟨[("X", [("d1", 4), ("d2", 1)]), ("Y", [("d1", 2)])], ["d1", "d2"]⟩
            ["X", "Y"] x) ∧
      ∃ l₁ l₂, (["d1", "d2"] : List String) = l₁ ++ d :: l₂ ∧
        ∀ x ∈ l₁,
          FeasibleDate ⟨[("X", [("d1", 4), ("d2", 1)]), ("Y", [("d1", 2)])], ["d1", "d2"]⟩
            ["X", "Y"] x →
          totalRisk ⟨[("X", [("d1", 4), ("d2", 1)]), ("Y", [("d1", 2)])], ["d1", "d2"]⟩
            ["X", "Y"] d <
            totalRisk ⟨[("X", [("d1", 4), ("d2", 1)]), ("Y", [("d1", 2)])], ["d1", "d2"]⟩
              ["X", "Y"] x) :=
  claim4_theorem ["X", "Y"]
    ⟨[("X", [("d1", 4), ("d2", 1)]), ("Y", [("d1", 2)])], ["d1", "d2"]⟩ (by decide)

/-!
### C3 — `evaluateBest` (the `alg == "BEST"` branch of `handle_route`)

`min(results.keys(), key=...)` with a strict-`<` running minimum keeps the
first key attaining the minimum, and `results` holds the succeeding
algorithms in token order, so the selected success has minimal score with
ties broken by the enumeration order BFS, DFS, PRIM, KRUSKAL, BELLMAN.
Confirmed. -/

/-- Python's `min(..., key=f)` as a strict-`<` fold: the result is an
element, is `≤` every element, and every element strictly before it (it is
the *first* minimum) has strictly larger key. -/
theorem minFold_spec {α : Type} (f : α → ℚ) :
    ∀ (xs : List α) (x : α),
    (xs.foldl (fun m y => if f y < f m then y else m) x) ∈ x :: xs ∧
    (∀ y ∈ x :: xs, f (xs.foldl (fun m y => if f y < f m then y else m) x) ≤ f y) ∧
    ∃ l₁ l₂, x :: xs = l₁ ++ (xs.foldl (fun m y => if f y < f m then y else m) x) :: l₂ ∧
      ∀ y ∈ l₁, f (xs.foldl (fun m y => if f y < f m then y else m) x) < f y := by
  intro xs
  induction xs with
  | nil =>
    intro x
    refine ⟨List.mem_cons_self _ _, ?_, [], [], rfl, by simp⟩
    intro y hy
    rw [List.mem_singleton] at hy
    subst hy
    rfl
  | cons y ys ih =>
    intro x
    have hstep : (y :: ys).foldl (fun m y => if f y < f m then y else m) x
        = ys.foldl (fun m y => if f y < f m then y else m) (if f y < f x then y else x) := rfl
    by_cases hy : f y < f x
    · rw [hstep, if_pos hy]
      obtain ⟨hmem, hbnd, l₁, l₂, hdec, hbef⟩ := ih y
      refine ⟨List.mem_cons_of_mem _ hmem, ?_, x :: l₁, l₂,
        by rw [List.cons_append, ← hdec], ?_⟩
      · intro z hz
        rcases List.mem_cons.mp hz with rfl | hz
        · exact le_of_lt (lt_of_le_of_lt (hbnd y (List.mem_cons_self _ _)) hy)
        · exact hbnd z hz
      · intro z hz
        rcases List.mem_cons.mp hz with rfl | hz
        · exact lt_of_le_of_lt (hbnd y (List.mem_cons_self _ _)) hy
        · exact hbef z hz
    · rw [hstep, if_neg hy]
      obtain ⟨hmem, hbnd, l₁, l₂, hdec, hbef⟩ := ih x
      refine ⟨?_, ?_, ?_⟩
      · rcases List.mem_cons.mp hmem with hh | hh
        · rw [hh]
          exact List.mem_cons_self _ _
        · exact List.mem_cons_of_mem _ (List.mem_cons_of_mem _ hh)
      · intro z hz
        rcases List.mem_cons.mp hz with rfl | hz
        · exact hbnd z (List.mem_cons_self _ _)
        · rcases List.mem_cons.mp hz with rfl | hz
          · exact le_trans (hbnd x (List.mem_cons_self _ _)) (le_of_not_lt hy)
          · exact hbnd z (List.mem_cons_of_mem _ hz)
      · rcases l₁ with _ | ⟨a, l₁t⟩
        · rw [List.nil_append] at hdec
          injection hdec with h1 h2
          refine ⟨[], y :: ys, ?_, by simp⟩
          rw [List.nil_append, ← h1]
        · rw [List.cons_append] at hdec
          injection hdec with h1 h2
          subst h1
          refine ⟨x :: y :: l₁t, l₂, ?_, ?_⟩
          · rw [List.cons_append, List.cons_append, ← h2]
          · intro z hz
            rcases List.mem_cons.mp hz with rfl | hz
            · exact hbef _ (List.mem_cons_self _ _)
            · rcases List.mem_cons.mp hz with rfl | hz
              · exact lt_of_lt_of_le (hbef _ (List.mem_cons_self _ _)) (le_of_not_lt hy)
              · exact hbef z (List.mem_cons_of_mem _ hz)

/-- Splitting a `filterMap` result pulls back to a split of the input list
(the prefix of the input filter-maps to the prefix of the output). -/
theorem filterMap_decomp {α β : Type} (f : α → Option β) :
    ∀ (l : List α) (r₁ : List β) (p : β) (r₂ : List β),
    l.filterMap f = r₁ ++ p :: r₂ →
    ∃ t₁ a t₂, l = t₁ ++ a :: t₂ ∧ f a = some p ∧ t₁.filterMap f = r₁ := by
  intro l
  induction l with
  | nil =>
    intro r₁ p r₂ h
    rw [List.filterMap_nil] at h
    exact absurd h.symm (List.append_ne_nil_of_right_ne_nil _ (List.cons_ne_nil _ _))
  | cons x xs ih =>
    intro r₁ p r₂ h
    rcases hfx : f x with _ | b
    · rw [List.filterMap_cons, hfx] at h
      obtain ⟨t₁, a, t₂, hl, hfa, hft⟩ := ih r₁ p r₂ h
      refine ⟨x :: t₁, a, t₂, by rw [hl]; rfl, hfa, ?_⟩
      rw [List.filterMap_cons, hfx, hft]
    · rw [List.filterMap_cons, hfx] at h
      rcases r₁ with _ | ⟨c, r₁t⟩
      · simp only [List.nil_append] at h
        injection h with h1 h2
        exact ⟨[], x, xs, rfl, by rw [hfx, h1], rfl⟩
      · rw [List.cons_append] at h
        injection h with h1 h2
        obtain ⟨t₁, a, t₂, hl, hfa, hft⟩ := ih r₁t p r₂ h2
        refine ⟨x :: t₁, a, t₂, by rw [hl]; rfl, hfa, ?_⟩
        rw [List.filterMap_cons, hfx, hft, h1]

set_option maxHeartbeats 1000000 in
/-- **C3.**  `evaluateBest` runs all five algorithms, discards the failing
ones (empty route), and: it fails overall exactly when all five fail;
otherwise it returns a succeeding algorithm whose composite score
(`total_distance + 20 * total_risk`, the `score` field) is ≤ the score of
every other succeeding algorithm, and every *earlier* token in the
enumeration order BFS, DFS, PRIM, KRUSKAL, BELLMAN that succeeds has
strictly larger score (first-minimum tie-break). -/
theorem claim3_theorem (g : Graph) (wr : WeatherRisk) (names : AL String)
    (src dst : String) :
    (evaluateBest g wr names src dst = none ↔
      ∀ a ∈ bestAlgTokens, (compute g wr names src dst a).ok = false) ∧
    (∀ a r, evaluateBest g wr names src dst = some (a, r) →
      a ∈ bestAlgTokens ∧ r = compute g wr names src dst a ∧ r.ok = true ∧
      (∀ b ∈ bestAlgTokens, (compute g wr names src dst b).ok = true →
        r.score ≤ (compute g wr names src dst b).score) ∧
      ∃ l₁ l₂, bestAlgTokens = l₁ ++ a :: l₂ ∧
        ∀ b ∈ l₁, (compute g wr names src dst b).ok = true →
          r.score < (compute g wr names src dst b).score) := by
  have hmemres : ∀ p : String × ComputeResult,
      p ∈ bestAlgTokens.filterMap (computeOk g wr names src dst) ↔
      p.1 ∈ bestAlgTokens ∧ p.2 = compute g wr names src dst p.1 ∧ p.2.ok = true := by
    intro p
    rw [List.mem_filterMap]
    constructor
    · rintro ⟨a, ha, hfa⟩
      unfold computeOk at hfa
      by_cases hok : (compute g wr names src dst a).ok
      · rw [if_pos hok] at hfa
        injection hfa with h1
        rw [← h1]
        exact ⟨ha, rfl, hok⟩
      · rw [if_neg hok] at hfa
        exact Option.noConfusion hfa
    · rintro ⟨h1, h2, h3⟩
      refine ⟨p.1, h1, ?_⟩
      unfold computeOk
      rw [if_pos (by rw [← h2]; exact h3), ← h2]
  constructor
  · constructor
    · intro h a ha
      unfold evaluateBest at h
      rcases hres : bestAlgTokens.filterMap (computeOk g wr names src dst) with _ | ⟨x, xs⟩
      · rw [List.filterMap_eq_nil_iff] at hres
        have hfa := hres a ha
        unfold computeOk at hfa
        by_cases hok : (compute g wr names src dst a).ok
        · rw [if_pos hok] at hfa
          exact Option.noConfusion hfa
        · rwa [Bool.not_eq_true] at hok
      · rw [hres] at h
        exact Option.noConfusion h
    · intro h
      unfold evaluateBest
      rcases hres : bestAlgTokens.filterMap (computeOk g wr names src dst) with _ | ⟨x, xs⟩
      · rfl
      · obtain ⟨h1, h2, h3⟩ := (hmemres x).mp (by rw [hres]; exact List.mem_cons_self _ _)
        rw [h2, h x.1 h1] at h3
        exact Bool.noConfusion h3
  · intro a r h
    unfold evaluateBest at h
    rcases hres : bestAlgTokens.filterMap (computeOk g wr names src dst) with _ | ⟨x, xs⟩
    · rw [hres] at h
      exact Option.noConfusion h
    · rw [hres] at h
      injection h with h
      obtain ⟨hmem, hbnd, l₁, l₂, hdec, hbef⟩ :=
        minFold_spec (fun p : String × ComputeResult => p.2.score) xs x
      rw [h] at hmem hbnd hdec hbef
      have hmem2 : (a, r) ∈ bestAlgTokens.filterMap (computeOk g wr names src dst) := by
        rw [hres]
        exact hmem
      obtain ⟨h1, h2, h3⟩ := (hmemres (a, r)).mp hmem2
      refine ⟨h1, h2, h3, ?_, ?_⟩
      · intro b hb hok
        have hbmem : (b, compute g wr names src dst b) ∈
            bestAlgTokens.filterMap (computeOk g wr names src dst) :=
          (hmemres (b, compute g wr names src dst b)).mpr ⟨hb, rfl, hok⟩
        rw [hres] at hbmem
        exact hbnd _ hbmem
      · have hdec2 : bestAlgTokens.filterMap (computeOk g wr names src dst)
            = l₁ ++ (a, r) :: l₂ := by
          rw [hres, hdec]
        obtain ⟨t₁, a', t₂, hts, hfa, hft⟩ :=
          filterMap_decomp (computeOk g wr names src dst) bestAlgTokens l₁ (a, r) l₂ hdec2
        have ha2 : a' = a := by
          unfold computeOk at hfa
          by_cases hok : (compute g wr names src dst a').ok
          · rw [if_pos hok] at hfa
            injection hfa with hfa1
            rw [Prod.mk.injEq] at hfa1
            exact hfa1.1
          · rw [if_neg hok] at hfa
            exact Option.noConfusion hfa
        subst ha2
        refine ⟨t₁, t₂, hts, ?_⟩
        intro b hb hok
        have hbmem : (b, compute g wr names src dst b) ∈
            t₁.filterMap (computeOk g wr names src dst) := by
          rw [List.mem_filterMap]
          refine ⟨b, hb, ?_⟩
          unfold computeOk
          rw [if_pos hok]
        rw [hft] at hbmem
        exact hbef _ hbmem

/-! ### C2: order on optional distances -/

theorem dle_refl (a : Option ℚ) : dle a a := by
  cases a <;> simp [dle]

theorem dle_trans {a b c : Option ℚ} (h1 : dle a b) (h2 : dle b c) : dle a c := by
  cases a <;> cases b <;> cases c <;> simp_all [dle]
  exact le_trans h1 h2

theorem dle_none_right (a : Option ℚ) : dle a none := by
  cases a <;> simp [dle]

theorem dle_some_some {a b : ℚ} : dle (some a) (some b) ↔ a ≤ b := by
  simp [dle]

theorem dle_some_le {a : Option ℚ} {b : ℚ} (h : dle a (some b)) :
    ∃ q, a = some q ∧ q ≤ b := by
  cases a with
  | none => simp [dle] at h
  | some q => exact ⟨q, rfl, dle_some_some.mp h⟩

theorem dle_mono_right {a : Option ℚ} {b c : ℚ} (h : dle a (some b)) (hbc : b ≤ c) :
    dle a (some c) := by
  obtain ⟨q, rfl, hq⟩ := dle_some_le h
  rw [dle_some_some]
  linarith

theorem oadd_mono_le {a : Option ℚ} {c : ℚ} (w : ℚ) (h : dle a (some c)) :
    dle (oadd a w) (some (c + w)) := by
  obtain ⟨q, rfl, hq⟩ := dle_some_le h
  simp only [oadd, Option.map_some']
  rw [dle_some_some]
  linarith

theorem alGetD_alSet_self {α : Type} (l : AL α) (k : String) (v dflt : α) :
    alGetD (alSet l k v) k dflt = v := by
  rw [alGetD, alGet_alSet_self]
  rfl

theorem alGetD_alSet_ne {α : Type} (l : AL α) (k k' : String) (v dflt : α)
    (h : k ≠ k') : alGetD (alSet l k v) k' dflt = alGetD l k' dflt := by
  rw [alGetD, alGet_alSet_ne _ _ _ _ h, alGetD]

theorem alGetD_mapNone {α β : Type} (L : AL α) (v : String) :
    alGetD (L.map (fun kv => (kv.1, (none : Option β)))) v none = none := by
  induction L with
  | nil => rfl
  | cons kv t ih =>
    by_cases h : kv.1 = v
    · simp [alGetD, alGet, h]
    · simpa [alGetD, alGet, h] using ih

/-! ### C2: walk lemmas -/

theorem isWalk_append (g : Graph) :
    ∀ (es₁ es₂ : List Edge) (s t : String),
      IsWalk g s t (es₁ ++ es₂) ↔ ∃ m, IsWalk g s m es₁ ∧ IsWalk g m t es₂ := by
  intro es₁
  induction es₁ with
  | nil =>
    intro es₂ s t
    constructor
    · intro h
      exact ⟨s, rfl, by simpa using h⟩
    · rintro ⟨m, hm, h⟩
      have hm' : s = m := hm
      subst hm'
      simpa using h
  | cons e es ih =>
    intro es₂ s t
    simp only [List.cons_append, IsWalk]
    constructor
    · rintro ⟨he, hs, hw⟩
      obtain ⟨m, h1, h2⟩ := (ih es₂ e.dst t).mp hw
      exact ⟨m, ⟨he, hs, h1⟩, h2⟩
    · rintro ⟨m, ⟨he, hs, h1⟩, h2⟩
      exact ⟨he, hs, (ih es₂ e.dst t).mpr ⟨m, h1, h2⟩⟩

theorem walkCost_nil : walkCost [] = 0 := rfl

theorem walkCost_cons (e : Edge) (es : List Edge) :
    walkCost (e :: es) = e.real_dist + walkCost es := by
  simp [walkCost]

theorem walkCost_append (es₁ es₂ : List Edge) :
    walkCost (es₁ ++ es₂) = walkCost es₁ + walkCost es₂ := by
  simp [walkCost]

theorem walkCost_nonneg {g : Graph} (hpos : PosW g) :
    ∀ {es : List Edge} {s t : String}, IsWalk g s t es → 0 ≤ walkCost es := by
  intro es
  induction es with
  | nil =>
    intro s t _
    simp [walkCost]
  | cons e es ih =>
    intro s t h
    obtain ⟨he, _, hw⟩ := h
    have h1 : 0 < e.real_dist := hpos e he
    have h2 : 0 ≤ walkCost es := ih hw
    rw [walkCost_cons]
    linarith

theorem walkVerts_subset {g : Graph} (hcl : ClosedG g) :
    ∀ {es : List Edge} {s t : String}, IsWalk g s t es → s ∈ citiesKeys g →
      ∀ v ∈ walkVerts s es, v ∈ citiesKeys g := by
  intro es
  induction es with
  | nil =>
    intro s t _ hs v hv
    simp only [walkVerts, List.map_nil, List.mem_singleton] at hv
    exact hv ▸ hs
  | cons e es ih =>
    intro s t h hs v hv
    obtain ⟨he, _, hw⟩ := h
    have hdst : e.dst ∈ citiesKeys g := (hcl e he).2
    simp only [walkVerts, List.map_cons, List.mem_cons] at hv
    rcases hv with hv | hv
    · exact hv ▸ hs
    · exact ih hw hdst v (by simpa [walkVerts] using hv)

theorem dstDup_decomp :
    ∀ {es : List Edge}, ¬ (es.map Edge.dst).Nodup →
      ∃ es₁ e₁ es₂ e₂ es₃, es = es₁ ++ e₁ :: (es₂ ++ e₂ :: es₃) ∧
        e₁.dst = e₂.dst := by
  intro es
  induction es with
  | nil =>
    intro h
    simp at h
  | cons e tl ih =>
    intro h
    rw [List.map_cons, List.nodup_cons] at h
    by_cases hmem : e.dst ∈ tl.map Edge.dst
    · obtain ⟨e₂, he₂, hdst⟩ := List.mem_map.mp hmem
      obtain ⟨p, q, hpq⟩ := List.append_of_mem he₂
      exact ⟨[], e, p, e₂, q, by rw [hpq]; rfl, hdst.symm⟩
    · have hnd : ¬ (tl.map Edge.dst).Nodup := fun hn => h ⟨hmem, hn⟩
      obtain ⟨es₁, e₁, es₂, e₂, es₃, heq, hdst⟩ := ih hnd
      exact ⟨e :: es₁, e₁, es₂, e₂, es₃, by rw [heq]; rfl, hdst⟩

theorem walk_reduce_aux {g : Graph} (hpos : PosW g) :
    ∀ (n : Nat) (es : List Edge) (s t : String), es.length ≤ n → IsWalk g s t es →
      ∃ es', IsWalk g s t es' ∧ walkCost es' ≤ walkCost es ∧
        (walkVerts s es').Nodup := by
  intro n
  induction n with
  | zero =>
    intro es s t hlen hw
    have hnil : es = [] := List.length_eq_zero.mp (Nat.le_zero.mp hlen)
    subst hnil
    exact ⟨[], hw, le_refl _, by simp [walkVerts]⟩
  | succ n ih =>
    intro es s t hlen hw
    by_cases hnd : (walkVerts s es).Nodup
    · exact ⟨es, hw, le_refl _, hnd⟩
    · rw [walkVerts, List.nodup_cons] at hnd
      by_cases hmem : s ∈ es.map Edge.dst
      · obtain ⟨e, hemem, hedst⟩ := List.mem_map.mp hmem
        obtain ⟨p, q, hpq⟩ := List.append_of_mem hemem
        subst hpq
        obtain ⟨m, hw1, hw2⟩ := (isWalk_append g p (e :: q) s t).mp hw
        obtain ⟨he, _, hwq⟩ := hw2
        rw [hedst] at hwq
        have hlq : q.length ≤ n := by
          rw [List.length_append, List.length_cons] at hlen
          omega
        obtain ⟨es', h1, h2, h3⟩ := ih q s t hlq hwq
        refine ⟨es', h1, ?_, h3⟩
        have hc1 : 0 ≤ walkCost p := walkCost_nonneg hpos hw1
        have hc2 : 0 < e.real_dist := hpos e he
        have hsplit : walkCost (p ++ e :: q) =
            walkCost p + (e.real_dist + walkCost q) := by
          rw [walkCost_append, walkCost_cons]
        rw [hsplit]
        linarith
      · have hnd' : ¬ (es.map Edge.dst).Nodup := fun hn => hnd ⟨hmem, hn⟩
        obtain ⟨es₁, e₁, es₂, e₂, es₃, heq, hdst⟩ := dstDup_decomp hnd'
        subst heq
        obtain ⟨m₁, hwa, hwb⟩ :=
          (isWalk_append g es₁ (e₁ :: (es₂ ++ e₂ :: es₃)) s t).mp hw
        obtain ⟨he₁, hsrc₁, hwc⟩ := hwb
        obtain ⟨m₂, hwd, hwe⟩ := (isWalk_append g es₂ (e₂ :: es₃) e₁.dst t).mp hwc
        obtain ⟨he₂, _, hwf⟩ := hwe
        rw [← hdst] at hwf
        have hwnew : IsWalk g s t (es₁ ++ e₁ :: es₃) :=
          (isWalk_append g es₁ (e₁ :: es₃) s t).mpr ⟨m₁, hwa, he₁, hsrc₁, hwf⟩
        have hlnew : (es₁ ++ e₁ :: es₃).length ≤ n := by
          rw [List.length_append, List.length_cons] at hlen ⊢
          rw [List.length_append, List.length_cons] at hlen
          omega
        obtain ⟨es', h1, h2, h3⟩ := ih _ s t hlnew hwnew
        refine ⟨es', h1, ?_, h3⟩
        have hc2 : 0 ≤ walkCost es₂ := walkCost_nonneg hpos hwd
        have hce : 0 < e₂.real_dist := hpos e₂ he₂
        have hA : walkCost (es₁ ++ e₁ :: es₃) =
            walkCost es₁ + (e₁.real_dist + walkCost es₃) := by
          rw [walkCost_append, walkCost_cons]
        have hB : walkCost (es₁ ++ e₁ :: (es₂ ++ e₂ :: es₃)) =
            walkCost es₁ + (e₁.real_dist +
              (walkCost es₂ + (e₂.real_dist + walkCost es₃))) := by
          rw [walkCost_append, walkCost_cons, walkCost_append, walkCost_cons]
        rw [hB]
        rw [hA] at h2
        linarith

/-! ### C2: single relaxation step -/

/-- The three branches of one relaxation attempt: source at infinity (no
change), guard false (no change), guard true (both maps updated, flag set). -/
theorem relaxEdge_cases (st : AL (Option ℚ) × AL (Option String) × Bool) (e : Edge) :
    (alGetD st.1 e.src none = none ∧ relaxEdge st e = st) ∨
    (∃ du dv, alGetD st.1 e.src none = some du ∧ alGetD st.1 e.dst none = some dv ∧
      dv ≤ du + e.real_dist ∧ relaxEdge st e = st) ∨
    (∃ du, alGetD st.1 e.src none = some du ∧
      (∀ dv, alGetD st.1 e.dst none = some dv → du + e.real_dist < dv) ∧
      relaxEdge st e =
        (alSet st.1 e.dst (some (du + e.real_dist)),
         alSet st.2.1 e.dst (some e.src), true)) := by
  rcases hsrc : alGetD st.1 e.src none with _ | du
  · exact Or.inl ⟨rfl, by simp only [relaxEdge, hsrc]⟩
  · rcases hdst : alGetD st.1 e.dst none with _ | dv
    · refine Or.inr (Or.inr ⟨du, rfl, ?_, ?_⟩)
      · intro dv h
        exact Option.noConfusion h
      · simp only [relaxEdge, hsrc, hdst]
    · by_cases hlt : du + e.real_dist < dv
      · refine Or.inr (Or.inr ⟨du, rfl, ?_, ?_⟩)
        · intro dv' h
          injection h with h
          rw [← h]
          exact hlt
        · simp only [relaxEdge, hsrc, hdst]
          rw [if_pos hlt]
      · refine Or.inr (Or.inl ⟨du, dv, rfl, rfl, le_of_not_lt hlt, ?_⟩)
        simp only [relaxEdge, hsrc, hdst]
        rw [if_neg hlt]

theorem relaxEdge_mono (st : AL (Option ℚ) × AL (Option String) × Bool) (e : Edge)
    (v : String) :
    dle (alGetD (relaxEdge st e).1 v none) (alGetD st.1 v none) := by
  rcases relaxEdge_cases st e with ⟨_, heq⟩ | ⟨du, dv, _, _, _, heq⟩ |
    ⟨du, hsrc, hguard, heq⟩
  · rw [heq]
    exact dle_refl _
  · rw [heq]
    exact dle_refl _
  · rw [heq]
    by_cases hv : v = e.dst
    · subst hv
      show dle (alGetD (alSet st.1 e.dst (some (du + e.real_dist))) e.dst none)
        (alGetD st.1 e.dst none)
      rw [alGetD_alSet_self]
      rcases hdst : alGetD st.1 e.dst none with _ | dv
      · exact dle_none_right _
      · rw [dle_some_some]
        exact le_of_lt (hguard dv hdst)
    · show dle (alGetD (alSet st.1 e.dst (some (du + e.real_dist))) v none) _
      rw [alGetD_alSet_ne _ _ _ _ _ (fun h => hv h.symm)]
      exact dle_refl _

theorem relaxFold_mono (es : List Edge) :
    ∀ (st : AL (Option ℚ) × AL (Option String) × Bool) (v : String),
      dle (alGetD (es.foldl relaxEdge st).1 v none) (alGetD st.1 v none) := by
  induction es with
  | nil =>
    intro st v
    exact dle_refl _
  | cons e tl ih =>
    intro st v
    rw [List.foldl_cons]
    exact dle_trans (ih (relaxEdge st e) v) (relaxEdge_mono st e v)

theorem relaxFold_bound (es : List Edge) :
    ∀ (st : AL (Option ℚ) × AL (Option String) × Bool) (e : Edge), e ∈ es →
      dle (alGetD (es.foldl relaxEdge st).1 e.dst none)
          (oadd (alGetD st.1 e.src none) e.real_dist) := by
  induction es with
  | nil =>
    intro st e h
    exact absurd h (List.not_mem_nil e)
  | cons e₀ tl ih =>
    intro st e h
    rw [List.foldl_cons]
    rcases List.mem_cons.mp h with heq | hmem
    · subst heq
      have h1 : dle (alGetD (relaxEdge st e).1 e.dst none)
          (oadd (alGetD st.1 e.src none) e.real_dist) := by
        rcases relaxEdge_cases st e with ⟨hs, heq⟩ | ⟨du, dv, hs, hd, hle, heq⟩ |
          ⟨du, hs, hg, heq⟩
        · rw [heq, hs]
          exact dle_none_right _
        · rw [heq, hs, hd]
          simp only [oadd, Option.map_some']
          rw [dle_some_some]
          exact hle
        · rw [heq, hs]
          show dle (alGetD (alSet st.1 e.dst (some (du + e.real_dist))) e.dst none) _
          rw [alGetD_alSet_self]
          simp only [oadd, Option.map_some']
          exact dle_refl _
      exact dle_trans (relaxFold_mono tl _ _) h1
    · have h2 := ih (relaxEdge st e₀) e hmem
      refine dle_trans h2 ?_
      rcases hb : alGetD st.1 e.src none with _ | q
      · simp only [oadd, Option.map_none']
        exact dle_none_right _
      · have hm := relaxEdge_mono st e₀ e.src
        rw [hb] at hm
        obtain ⟨r, hr, hrq⟩ := dle_some_le hm
        rw [hr]
        simp only [oadd, Option.map_some']
        rw [dle_some_some]
        linarith

theorem relaxEdge_eq_of_flag_false {st : AL (Option ℚ) × AL (Option String) × Bool}
    {e : Edge} (h : (relaxEdge st e).2.2 = false) :
    relaxEdge st e = st ∧ RelaxFails st.1 e := by
  rcases relaxEdge_cases st e with ⟨hs, heq⟩ | ⟨du, dv, hs, hd, hle, heq⟩ |
    ⟨du, hs, hg, heq⟩
  · refine ⟨heq, ?_⟩
    intro du hdu
    rw [hs] at hdu
    exact Option.noConfusion hdu
  · refine ⟨heq, ?_⟩
    intro du' hdu
    rw [hs] at hdu
    injection hdu with hdu
    subst hdu
    exact ⟨dv, hd, hle⟩
  · rw [heq] at h
    exact Bool.noConfusion h

theorem relaxFold_flag_mono (es : List Edge) :
    ∀ (st : AL (Option ℚ) × AL (Option String) × Bool), st.2.2 = true →
      (es.foldl relaxEdge st).2.2 = true := by
  induction es with
  | nil =>
    intro st h
    exact h
  | cons e tl ih =>
    intro st h
    rw [List.foldl_cons]
    refine ih _ ?_
    rcases relaxEdge_cases st e with ⟨_, heq⟩ | ⟨du, dv, _, _, _, heq⟩ |
      ⟨du, _, _, heq⟩
    · rw [heq]
      exact h
    · rw [heq]
      exact h
    · rw [heq]

theorem relaxFold_no_update (es : List Edge) :
    ∀ (st : AL (Option ℚ) × AL (Option String) × Bool),
      (es.foldl relaxEdge st).2.2 = false →
      es.foldl relaxEdge st = st ∧ ∀ e ∈ es, RelaxFails st.1 e := by
  induction es with
  | nil =>
    intro st _
    exact ⟨rfl, fun e he => absurd he (List.not_mem_nil e)⟩
  | cons e tl ih =>
    intro st h
    rw [List.foldl_cons] at h ⊢
    have hflag : (relaxEdge st e).2.2 = false := by
      cases hb : (relaxEdge st e).2.2
      · rfl
      · have := relaxFold_flag_mono tl _ hb
        rw [h] at this
        exact Bool.noConfusion this
    obtain ⟨hre, hrf⟩ := relaxEdge_eq_of_flag_false hflag
    rw [hre] at h ⊢
    obtain ⟨hfold, hall⟩ := ih st h
    refine ⟨hfold, ?_⟩
    intro e' he'
    rcases List.mem_cons.mp he' with h1 | h1
    · subst h1
      exact hrf
    · exact hall e' h1

/-! ### C2: the Bellman–Ford invariant is preserved -/

theorem relaxEdge_inv {g : Graph} {start : String} (hpos : PosW g)
    {st : AL (Option ℚ) × AL (Option String) × Bool} {e : Edge}
    (he : e ∈ allEdges g) (hinv : BFInv g start st.1 st.2.1) :
    BFInv g start (relaxEdge st e).1 (relaxEdge st e).2.1 := by
  obtain ⟨g1, g3, g4, g6⟩ := hinv
  rcases relaxEdge_cases st e with ⟨_, heq⟩ | ⟨du, dv, _, _, _, heq⟩ |
    ⟨du, hs, hg, heq⟩
  · rw [heq]
    exact ⟨g1, g3, g4, g6⟩
  · rw [heq]
    exact ⟨g1, g3, g4, g6⟩
  · have hmono : ∀ u, dle (alGetD (relaxEdge st e).1 u none) (alGetD st.1 u none) :=
      fun u => relaxEdge_mono st e u
    rw [heq]
    rw [heq] at hmono
    show BFInv g start (alSet st.1 e.dst (some (du + e.real_dist)))
      (alSet st.2.1 e.dst (some e.src))
    have hw : 0 < e.real_dist := hpos e he
    obtain ⟨esu, hwalk, hcost⟩ := g3 e.src du hs
    have hnn : 0 ≤ du := hcost ▸ walkCost_nonneg hpos hwalk
    have hdstart : e.dst ≠ start := by
      intro hds
      have := hg 0 (by rw [hds]; exact g1)
      linarith
    have hsd : e.src ≠ e.dst := by
      intro hsd
      have := hg du (by rw [← hsd]; exact hs)
      linarith
    refine ⟨?_, ?_, ?_, ?_⟩
    · rw [alGetD_alSet_ne _ _ _ _ _ hdstart]
      exact g1
    · intro v q hv
      by_cases hvd : v = e.dst
      · subst hvd
        rw [alGetD_alSet_self] at hv
        injection hv with hv
        refine ⟨esu ++ [e], ?_, ?_⟩
        · exact (isWalk_append g esu [e] start e.dst).mpr ⟨e.src, hwalk, he, rfl, rfl⟩
        · rw [walkCost_append, walkCost_cons, walkCost_nil, hcost, ← hv]
          ring
      · rw [alGetD_alSet_ne _ _ _ _ _ (fun h => hvd h.symm)] at hv
        exact g3 v q hv
    · intro v u hp
      by_cases hvd : v = e.dst
      · subst hvd
        rw [alGetD_alSet_self] at hp
        injection hp with hp
        subst hp
        refine ⟨e, he, rfl, rfl, du, du + e.real_dist, ?_, ?_, le_refl _⟩
        · rw [alGetD_alSet_ne _ _ _ _ _ (fun h => hsd h.symm)]
          exact hs
        · rw [alGetD_alSet_self]
      · rw [alGetD_alSet_ne _ _ _ _ _ (fun h => hvd h.symm)] at hp
        obtain ⟨e', he', hsrc', hdst', du', q', hdu', hq', hle'⟩ := g4 v u hp
        have hmu := hmono u
        rw [hdu'] at hmu
        obtain ⟨du₂, hdu₂, hledu⟩ := dle_some_le hmu
        refine ⟨e', he', hsrc', hdst', du₂, q', hdu₂, ?_, ?_⟩
        · rw [alGetD_alSet_ne _ _ _ _ _ (fun h => hvd h.symm)]
          exact hq'
        · linarith
    · intro v q hvstart hv
      by_cases hvd : v = e.dst
      · subst hvd
        exact ⟨e.src, by rw [alGetD_alSet_self]⟩
      · rw [alGetD_alSet_ne _ _ _ _ _ (fun h => hvd h.symm)] at hv
        obtain ⟨u, hu⟩ := g6 v q hvstart hv
        exact ⟨u, by rw [alGetD_alSet_ne _ _ _ _ _ (fun h => hvd h.symm)]; exact hu⟩

theorem relaxFold_inv {g : Graph} {start : String} (hpos : PosW g) :
    ∀ (es : List Edge), (∀ e ∈ es, e ∈ allEdges g) →
      ∀ st, BFInv g start st.1 st.2.1 →
        BFInv g start (es.foldl relaxEdge st).1 (es.foldl relaxEdge st).2.1 := by
  intro es
  induction es with
  | nil =>
    intro _ st h
    exact h
  | cons e tl ih =>
    intro hall st h
    rw [List.foldl_cons]
    exact ih (fun e' he' => hall e' (List.mem_cons_of_mem _ he'))
      (relaxEdge st e) (relaxEdge_inv hpos (hall e (List.mem_cons_self _ _)) h)

/-! ### C2: what the rounds establish -/

theorem relaxFold_bnd {g : Graph} {start : String} {k : Nat}
    {st : AL (Option ℚ) × AL (Option String) × Bool}
    (hbnd : BndD g start st.1 k) :
    BndD g start ((allEdges g).foldl relaxEdge st).1 (k + 1) := by
  intro v es hw hlen
  rcases List.eq_nil_or_concat es with rfl | ⟨es₀, e, rfl⟩
  · exact dle_trans (relaxFold_mono (allEdges g) st v) (hbnd v [] hw (Nat.zero_le _))
  · rw [List.concat_eq_append] at hw hlen ⊢
    obtain ⟨m, hw₀, hwe⟩ := (isWalk_append g es₀ [e] start v).mp hw
    obtain ⟨he, hesrc, hedst⟩ := hwe
    have hvd : e.dst = v := hedst
    subst hvd
    subst hesrc
    have hlen₀ : es₀.length ≤ k := by
      rw [List.length_append, List.length_cons, List.length_nil] at hlen
      omega
    have h1 : dle (alGetD st.1 e.src none) (some (walkCost es₀)) :=
      hbnd e.src es₀ hw₀ hlen₀
    have h2 := relaxFold_bound (allEdges g) st e he
    have h3 := oadd_mono_le e.real_dist h1
    have h4 := dle_trans h2 h3
    have hcw : walkCost (es₀ ++ [e]) = walkCost es₀ + e.real_dist := by
      rw [walkCost_append, walkCost_cons, walkCost_nil]
      ring
    rw [hcw]
    exact h4

theorem bfRounds_cases {g : Graph} {start : String} :
    ∀ (k : Nat) (d : AL (Option ℚ)) (p : AL (Option String)) (j : Nat),
      BndD g start d j →
      FixD (bfRounds k d p (allEdges g)).1 (allEdges g) ∨
      BndD g start (bfRounds k d p (allEdges g)).1 (j + k) := by
  intro k
  induction k with
  | zero =>
    intro d p j h
    exact Or.inr (by simpa using h)
  | succ k ih =>
    intro d p j h
    have hbnd1 : BndD g start ((allEdges g).foldl relaxEdge (d, p, false)).1 (j + 1) :=
      relaxFold_bnd h
    simp only [bfRounds]
    by_cases hb : ((allEdges g).foldl relaxEdge (d, p, false)).2.2 = true
    · rw [if_pos hb]
      rcases ih _ _ (j + 1) hbnd1 with h1 | h1
      · exact Or.inl h1
      · have harith : j + 1 + k = j + (k + 1) := by omega
        rw [← harith]
        exact Or.inr h1
    · rw [if_neg hb]
      rw [Bool.not_eq_true] at hb
      obtain ⟨heq, hall⟩ := relaxFold_no_update (allEdges g) (d, p, false) hb
      rw [heq]
      exact Or.inl hall

theorem bfRounds_inv {g : Graph} {start : String} (hpos : PosW g) :
    ∀ (k : Nat) (d : AL (Option ℚ)) (p : AL (Option String)),
      BFInv g start d p →
      BFInv g start (bfRounds k d p (allEdges g)).1 (bfRounds k d p (allEdges g)).2 := by
  intro k
  induction k with
  | zero =>
    intro d p h
    exact h
  | succ k ih =>
    intro d p h
    have hinv1 := relaxFold_inv hpos (allEdges g) (fun _ he => he) (d, p, false) h
    simp only [bfRounds]
    by_cases hb : ((allEdges g).foldl relaxEdge (d, p, false)).2.2 = true
    · rw [if_pos hb]
      exact ih _ _ hinv1
    · rw [if_neg hb]
      exact hinv1

theorem bf_init_inv {g : Graph} {start : String} :
    BFInv g start (alSet (g.cities.map (fun kv => (kv.1, none))) start (some 0))
      (g.cities.map (fun kv => (kv.1, none))) := by
  refine ⟨?_, ?_, ?_, ?_⟩
  · rw [alGetD_alSet_self]
  · intro v q hv
    by_cases hvs : v = start
    · subst hvs
      rw [alGetD_alSet_self] at hv
      injection hv with hv
      exact ⟨[], rfl, by rw [walkCost_nil, hv]⟩
    · rw [alGetD_alSet_ne _ _ _ _ _ (fun h => hvs h.symm), alGetD_mapNone] at hv
      exact Option.noConfusion hv
  · intro v u hp
    rw [alGetD_mapNone] at hp
    exact Option.noConfusion hp
  · intro v q hvs hv
    rw [alGetD_alSet_ne _ _ _ _ _ (fun h => hvs h.symm), alGetD_mapNone] at hv
    exact Option.noConfusion hv

theorem bf_init_bnd {g : Graph} {start : String} :
    BndD g start (alSet (g.cities.map (fun kv => (kv.1, none))) start (some 0)) 0 := by
  intro v es hw hlen
  have hnil : es = [] := List.length_eq_zero.mp (Nat.le_zero.mp hlen)
  subst hnil
  have hv : start = v := hw
  subst hv
  rw [alGetD_alSet_self, walkCost_nil]
  rw [dle_some_some]

theorem fix_opt {g : Graph} {d : AL (Option ℚ)} (hfix : FixD d (allEdges g)) :
    ∀ (es : List Edge) (s v : String) (q : ℚ), IsWalk g s v es →
      alGetD d s none = some q →
      ∃ qv, alGetD d v none = some qv ∧ qv ≤ q + walkCost es := by
  intro es
  induction es with
  | nil =>
    intro s v q hw hq
    have hsv : s = v := hw
    subst hsv
    exact ⟨q, hq, by rw [walkCost_nil, add_zero]⟩
  | cons e tl ih =>
    intro s v q hw hq
    obtain ⟨he, hsrc, hw'⟩ := hw
    obtain ⟨dv, hdv, hle⟩ := hfix e he q (by rw [hsrc]; exact hq)
    obtain ⟨qv, hqv, hqle⟩ := ih e.dst v dv hw' hdv
    refine ⟨qv, hqv, ?_⟩
    rw [walkCost_cons]
    linarith

theorem walk_length_bound {g : Graph} (hcl : ClosedG g) {s t : String}
    {es : List Edge} (hw : IsWalk g s t es) (hs : s ∈ citiesKeys g)
    (hnd : (walkVerts s es).Nodup) :
    es.length + 1 ≤ (citiesKeys g).length := by
  have hsub : walkVerts s es ⊆ citiesKeys g :=
    fun v hv => walkVerts_subset hcl hw hs v hv
  have hle := (List.subperm_of_subset hnd hsub).length_le
  simpa [walkVerts] using hle

theorem bf_opt {g : Graph} {start : String} (hpos : PosW g) (hcl : ClosedG g)
    (hstart : start ∈ citiesKeys g) {d : AL (Option ℚ)}
    (hcase : FixD d (allEdges g) ∨ BndD g start d ((citiesKeys g).length - 1))
    (hstart0 : alGetD d start none = some 0) :
    ∀ (v : String) (es : List Edge), IsWalk g start v es →
      dle (alGetD d v none) (some (walkCost es)) := by
  intro v es hw
  obtain ⟨es', hw', hc', hnd'⟩ := walk_reduce_aux hpos es.length es start v (le_refl _) hw
  rcases hcase with hfix | hbnd
  · obtain ⟨qv, hqv, hle⟩ := fix_opt hfix es' start v 0 hw' hstart0
    rw [hqv, dle_some_some]
    linarith
  · have hlen : es'.length ≤ (citiesKeys g).length - 1 := by
      have := walk_length_bound hcl hw' hstart hnd'
      omega
    exact dle_mono_right (hbnd v es' hw' hlen) hc'

/-! ### C2: the predecessor chain reconstructs an optimal walk -/

theorem chain_reconstruct {g : Graph} {start : String} (hcl : ClosedG g)
    (hpos : PosW g) {d : AL (Option ℚ)} {p : AL (Option String)}
    (hinv : BFInv g start d p)
    (hopt : ∀ (v : String) (es : List Edge), IsWalk g start v es →
      dle (alGetD d v none) (some (walkCost es))) :
    ∀ (m : Nat) (v : String) (q : ℚ), alGetD d v none = some q →
      countBelow g d q < m →
      ∀ fuel, m ≤ fuel →
        ∃ es, IsWalk g start v es ∧ walkCost es = q ∧
          followParent p start fuel (some v) = (walkVerts start es).reverse := by
  obtain ⟨g1, g3, g4, g6⟩ := hinv
  intro m
  induction m with
  | zero =>
    intro v q _ h
    omega
  | succ m ih =>
    intro v q hv hcount fuel hfuel
    obtain ⟨f, rfl⟩ : ∃ f, fuel = f + 1 := ⟨fuel - 1, by omega⟩
    by_cases hvs : v = start
    · subst hvs
      have hq0 : q = 0 := by
        rw [g1] at hv
        injection hv with hv
        exact hv.symm
      refine ⟨[], rfl, by rw [walkCost_nil, hq0], ?_⟩
      simp [followParent, walkVerts]
    · obtain ⟨u, hu⟩ := g6 v q hvs hv
      obtain ⟨e, he, hesrc, hedst, du, q', hdu, hq', hle⟩ := g4 v u hu
      have hqq : q' = q := by
        rw [hv] at hq'
        injection hq' with h
        exact h.symm
      rw [hqq] at hle
      obtain ⟨esu, hwu, hcu⟩ := g3 u du hdu
      have hwv : IsWalk g start v (esu ++ [e]) := by
        refine (isWalk_append g esu [e] start v).mpr ⟨u, hwu, he, hesrc, hedst⟩
      have hople := hopt v (esu ++ [e]) hwv
      rw [hv] at hople
      have hcost : walkCost (esu ++ [e]) = du + e.real_dist := by
        rw [walkCost_append, walkCost_cons, walkCost_nil, hcu]
        ring
      rw [hcost, dle_some_some] at hople
      have hqe : q = du + e.real_dist := le_antisymm hople hle
      have hdu_lt : du < q := by
        have := hpos e he
        linarith
      have hcb : countBelow g d du < countBelow g d q := by
        have hmono : ∀ x, (fun u => dltB (alGetD d u none) du) x = true →
            (fun u => dltB (alGetD d u none) q) x = true := by
          intro x hx
          simp only [dltB] at hx ⊢
          cases hdx : alGetD d x none with
          | none =>
            rw [hdx] at hx
            exact Bool.noConfusion hx
          | some r =>
            rw [hdx] at hx
            simp only [decide_eq_true_eq] at hx ⊢
            linarith
        have hsubl : List.Sublist
            ((citiesKeys g).filter (fun u => dltB (alGetD d u none) du))
            ((citiesKeys g).filter (fun u => dltB (alGetD d u none) q)) :=
          List.monotone_filter_right _ hmono
        have hulen := hsubl.length_le
        have humem : u ∈ (citiesKeys g).filter (fun u => dltB (alGetD d u none) q) := by
          rw [List.mem_filter]
          refine ⟨?_, ?_⟩
          · rw [← hesrc]
            exact (hcl e he).1
          · rw [hdu]
            simp only [dltB, decide_eq_true_eq]
            exact hdu_lt
        have hunmem : u ∉ (citiesKeys g).filter (fun u => dltB (alGetD d u none) du) := by
          rw [List.mem_filter]
          rintro ⟨_, hbad⟩
          rw [hdu] at hbad
          simp only [dltB, decide_eq_true_eq] at hbad
          exact absurd hbad (lt_irrefl du)
        rcases lt_or_eq_of_le hulen with hlt | heq
        · exact hlt
        · exfalso
          rw [hsubl.eq_of_length heq] at hunmem
          exact hunmem humem
      have hcb' : countBelow g d du < m := by omega
      have hfu : m ≤ f := by omega
      obtain ⟨esu', hwu', hcu', hfp⟩ := ih u du hdu hcb' f hfu
      refine ⟨esu' ++ [e], ?_, ?_, ?_⟩
      · exact (isWalk_append g esu' [e] start v).mpr ⟨u, hwu', he, hesrc, hedst⟩
      · rw [walkCost_append, walkCost_cons, walkCost_nil, hcu', hqe]
        ring
      · simp only [followParent]
        rw [if_neg hvs, hu, hfp]
        have hdv : e.dst = v := hedst
        simp [walkVerts, ← hdv]

/-- **C2.** For every graph with both endpoints present, edges between known
cities and positive directional costs (all of which `add_bidir_edge`
guarantees), `bellman_path` returns `[]` exactly when no directed walk from
`start` to `dest` exists, and otherwise returns the vertex trace of a walk
from `start` to `dest` of minimal total directional cost. -/
theorem claim2_theorem (g : Graph) (start dest : String)
    (hstart : start ∈ citiesKeys g) (_hdest : dest ∈ citiesKeys g)
    (hcl : ClosedG g) (hpos : PosW g) :
    (bellman_path g start dest = [] ↔ ¬ Reachable g start dest) ∧
    (Reachable g start dest →
      ∃ es, IsWalk g start dest es ∧
        bellman_path g start dest = walkVerts start es ∧
        ∀ es', IsWalk g start dest es' → walkCost es ≤ walkCost es') := by
  obtain ⟨c, hc⟩ : ∃ c, alGet g.cities start = some c :=
    Option.isSome_iff_exists.mp (alGet_isSome_of_mem_keys hstart)
  have hbf : bellman_ford g start =
      bfRounds (g.cities.length - 1)
        (alSet (g.cities.map fun kv => (kv.1, none)) start (some 0))
        (g.cities.map fun kv => (kv.1, none)) (allEdges g) := by
    simp only [bellman_ford, hc]
  have hinv := @bfRounds_inv g start hpos (g.cities.length - 1)
    (alSet (g.cities.map fun kv => (kv.1, none)) start (some 0))
    (g.cities.map fun kv => (kv.1, none)) (@bf_init_inv g start)
  rw [← hbf] at hinv
  have hcase := @bfRounds_cases g start (g.cities.length - 1)
    (alSet (g.cities.map fun kv => (kv.1, none)) start (some 0))
    (g.cities.map fun kv => (kv.1, none)) 0 (@bf_init_bnd g start)
  rw [← hbf] at hcase
  have hkeys : (citiesKeys g).length = g.cities.length := by
    simp [citiesKeys, alKeys]
  have hcase' : FixD (bellman_ford g start).1 (allEdges g) ∨
      BndD g start (bellman_ford g start).1 ((citiesKeys g).length - 1) := by
    rcases hcase with h | h
    · exact Or.inl h
    · rw [Nat.zero_add] at h
      rw [hkeys]
      exact Or.inr h
  have hopt := bf_opt hpos hcl hstart hcase' hinv.1
  cases hdd : alGetD (bellman_ford g start).1 dest none with
  | none =>
    have hnr : ¬ Reachable g start dest := by
      rintro ⟨es, hw⟩
      have h := hopt dest es hw
      rw [hdd] at h
      simp [dle] at h
    have hbp : bellman_path g start dest = [] := by
      simp only [bellman_path]
      rw [hdd]
    exact ⟨⟨fun _ => hnr, fun _ => hbp⟩, fun hr => absurd hr hnr⟩
  | some q =>
    have hcount : countBelow g (bellman_ford g start).1 q < (citiesKeys g).length + 1 := by
      have hle : countBelow g (bellman_ford g start).1 q ≤ (citiesKeys g).length :=
        List.length_filter_le _ _
      omega
    have hfuel : (citiesKeys g).length + 1 ≤ g.cities.length + 1 := by
      rw [hkeys]
    obtain ⟨es, hwes, hces, hfp⟩ := chain_reconstruct hcl hpos hinv hopt
      ((citiesKeys g).length + 1) dest q hdd hcount (g.cities.length + 1) hfuel
    have hbp : bellman_path g start dest =
        reconstruct (g.cities.length + 1) (bellman_ford g start).2 start dest := by
      simp only [bellman_path]
      rw [hdd]
    by_cases hds : dest = start
    · subst hds
      have hbp' : bellman_path g dest dest = [dest] := by
        rw [hbp]
        simp [reconstruct]
      refine ⟨⟨?_, ?_⟩, ?_⟩
      · intro h
        rw [hbp'] at h
        exact absurd h (by simp)
      · intro hnr
        exact absurd ⟨[], rfl⟩ hnr
      · intro _
        refine ⟨[], rfl, by rw [hbp', walkVerts, List.map_nil], ?_⟩
        intro es' hw'
        have h0 := walkCost_nonneg hpos hw'
        rw [walkCost_nil]
        exact h0
    · obtain ⟨u, hu⟩ := hinv.2.2.2 dest q hds hdd
      have hpget : (alGet (bellman_ford g start).2 dest).isNone = false := by
        cases hh : alGet (bellman_ford g start).2 dest with
        | none =>
          exfalso
          simp only [alGetD, hh, Option.getD_none] at hu
          exact Option.noConfusion hu
        | some x => rfl
      have hrec : reconstruct (g.cities.length + 1) (bellman_ford g start).2 start dest =
          walkVerts start es := by
        simp only [reconstruct]
        rw [if_neg hds]
        rw [if_neg (by simp [hpget])]
        rw [hfp, List.reverse_reverse]
        rw [if_pos ⟨by simp [walkVerts], by simp [walkVerts]⟩]
      refine ⟨⟨?_, ?_⟩, ?_⟩
      · intro h
        rw [hbp, hrec] at h
        exact absurd h (by simp [walkVerts])
      · intro hnr
        exact absurd ⟨es, hwes⟩ hnr
      · intro _
        refine ⟨es, hwes, by rw [hbp, hrec], ?_⟩
        intro es' hw'
        have h := hopt dest es' hw'
        rw [hdd, dle_some_some] at h
        rw [hces]
        exact h

/-- Witness for `claim2_theorem`: the three-city graph `gTie` with its four
edges, `start = "S"`, `dest = "A"`; the hypotheses hold by computation and
the theorem applies. -/
theorem claim2_witness :
    ("S" ∈ citiesKeys gTie ∧ "A" ∈ citiesKeys gTie ∧ ClosedG gTie ∧ PosW gTie) ∧
    ((bellman_path gTie "S" "A" = [] ↔ ¬ Reachable gTie "S" "A") ∧
      (Reachable gTie "S" "A" →
        ∃ es, IsWalk gTie "S" "A" es ∧
          bellman_path gTie "S" "A" = walkVerts "S" es ∧
          ∀ es', IsWalk gTie "S" "A" es' → walkCost es ≤ walkCost es')) :=
  ⟨⟨by decide, by decide, by decide, by decide⟩,
    claim2_theorem gTie "S" "A" (by decide) (by decide) (by decide) (by decide)⟩

/-! ### C7: unreachable destinations give empty routes -/

theorem mem_alKeys_alSet {α : Type} {l : AL α} {k x : String} {v : α}
    (h : x ∈ alKeys (alSet l k v)) : x ∈ alKeys l ∨ x = k := by
  rw [alKeys_alSet] at h
  by_cases hm : k ∈ alKeys l
  · rw [if_pos hm] at h
    exact Or.inl h
  · rw [if_neg hm] at h
    rcases List.mem_append.mp h with h | h
    · exact Or.inl h
    · exact Or.inr (List.mem_singleton.mp h)

theorem mem_adj_allEdges {g : Graph} {u : String} {e : Edge}
    (he : e ∈ alGetD g.adj u []) : e ∈ allEdges g := by
  unfold alGetD at he
  cases hh : alGet g.adj u with
  | none =>
    rw [hh] at he
    simp at he
  | some l =>
    rw [hh] at he
    simp only [Option.getD_some] at he
    have hmem := alGet_mem hh
    unfold allEdges
    rw [List.mem_flatten]
    exact ⟨l, List.mem_map_of_mem Prod.snd hmem, he⟩

theorem mem_adj_src {g : Graph} (hak : AdjKeyed g) {u : String} {e : Edge}
    (he : e ∈ alGetD g.adj u []) : e.src = u := by
  unfold alGetD at he
  cases hh : alGet g.adj u with
  | none =>
    rw [hh] at he
    simp at he
  | some l =>
    rw [hh] at he
    simp only [Option.getD_some] at he
    exact hak (u, l) (alGet_mem hh) e he

theorem Reachable.step {g : Graph} {s u : String} {e : Edge}
    (hr : Reachable g s u) (he : e ∈ allEdges g) (hsrc : e.src = u) :
    Reachable g s e.dst := by
  obtain ⟨es, hw⟩ := hr
  exact ⟨es ++ [e], (isWalk_append g es [e] s e.dst).mpr ⟨u, hw, he, hsrc, rfl⟩⟩

theorem reconstruct_eq_nil {fuel : Nat} {parent : AL (Option String)}
    {start dest : String} (hne : dest ≠ start) (hnk : dest ∉ alKeys parent) :
    reconstruct fuel parent start dest = [] := by
  simp only [reconstruct]
  rw [if_neg hne]
  rw [if_pos (by rw [alGet_eq_none_of_not_mem_keys hnk]; rfl)]

theorem bfsSearch_keys (S : String → Prop) (nbrs : String → List String)
    (dest : String) (hstep : ∀ u v, S u → v ∈ nbrs u → S v) :
    ∀ (fuel : Nat) (queue visited : List String) (parent : AL (Option String)),
      (∀ u ∈ queue, S u) →
      (∀ k ∈ alKeys parent, S k) →
      ∀ k ∈ alKeys (bfsSearch nbrs dest fuel queue visited parent), S k := by
  intro fuel
  induction fuel with
  | zero =>
    intro q vis par _ hp k hk
    exact hp k hk
  | succ fuel ih =>
    intro q vis par hq hp k hk
    cases q with
    | nil => exact hp k hk
    | cons u q' =>
      simp only [bfsSearch] at hk
      by_cases hd : u = dest
      · rw [if_pos hd] at hk
        exact hp k hk
      · rw [if_neg hd] at hk
        have hu : S u := hq u (List.mem_cons_self _ _)
        have hfold : ∀ (l : List String), (∀ v ∈ l, S v) →
            ∀ st : List String × List String × AL (Option String),
              (∀ x ∈ st.1, S x) → (∀ k ∈ alKeys st.2.2, S k) →
              (∀ x ∈ (l.foldl (fun (st : List String × List String × AL (Option String)) v =>
                  if v ∈ st.2.1 then st
                  else (st.1 ++ [v], st.2.1 ++ [v], alSet st.2.2 v (some u))) st).1, S x) ∧
              (∀ k ∈ alKeys (l.foldl
                  (fun (st : List String × List String × AL (Option String)) v =>
                  if v ∈ st.2.1 then st
                  else (st.1 ++ [v], st.2.1 ++ [v], alSet st.2.2 v (some u))) st).2.2,
                S k) := by
          intro l
          induction l with
          | nil =>
            intro _ st h1 h2
            exact ⟨h1, h2⟩
          | cons v tl ihl =>
            intro hall st h1 h2
            rw [List.foldl_cons]
            refine ihl (fun x hx => hall x (List.mem_cons_of_mem _ hx)) _ ?_ ?_
            · by_cases hv : v ∈ st.2.1
              · rw [if_pos hv]
                exact h1
              · rw [if_neg hv]
                show ∀ x ∈ st.1 ++ [v], S x
                intro x hx
                rcases List.mem_append.mp hx with hx | hx
                · exact h1 x hx
                · rw [List.mem_singleton] at hx
                  subst hx
                  exact hall x (List.mem_cons_self _ _)
            · by_cases hv : v ∈ st.2.1
              · rw [if_pos hv]
                exact h2
              · rw [if_neg hv]
                show ∀ k ∈ alKeys (alSet st.2.2 v (some u)), S k
                intro k' hk'
                rcases mem_alKeys_alSet hk' with h | h
                · exact h2 k' h
                · subst h
                  exact hall k' (List.mem_cons_self _ _)
        obtain ⟨hq'', hp''⟩ := hfold (nbrs u) (fun v hv => hstep u v hu hv)
          (q', vis, par) (fun x hx => hq x (List.mem_cons_of_mem _ hx)) hp
        exact ih _ _ _ hq'' hp'' k hk

theorem bfs_path_unreachable {g : Graph} {start dest : String} (hak : AdjKeyed g)
    (hnr : ¬ Reachable g start dest) : bfs_path g start dest = [] := by
  have hne : dest ≠ start := fun h => hnr ⟨[], h.symm⟩
  have hstep : ∀ u v, Reachable g start u → v ∈ graphNbrs g u →
      Reachable g start v := by
    intro u v hu hv
    unfold graphNbrs at hv
    obtain ⟨e, he, hedst⟩ := List.mem_map.mp hv
    have h1 := mem_adj_allEdges he
    have h2 := mem_adj_src hak he
    have h3 := Reachable.step hu h1 h2
    rw [hedst] at h3
    exact h3
  simp only [bfs_path]
  apply reconstruct_eq_nil hne
  intro hk
  refine hnr (bfsSearch_keys (Reachable g start) (graphNbrs g) dest hstep
    (totalAdjLen g + 2) [start] [start] [(start, none)] ?_ ?_ dest hk)
  · intro u hu
    rw [List.mem_singleton] at hu
    subst hu
    exact ⟨[], rfl⟩
  · intro k hkk
    have hks : k = start := by simpa [alKeys] using hkk
    subst hks
    exact ⟨[], rfl⟩

theorem dfsGo_keys {g : Graph} {start dest : String} (hak : AdjKeyed g) :
    ∀ (fuel : Nat) (u : String) (st : List String × AL (Option String) × Bool),
      Reachable g start u →
      (∀ k ∈ alKeys st.2.1, Reachable g start k) →
      ∀ k ∈ alKeys (dfsGo g dest fuel u st).2.1, Reachable g start k := by
  intro fuel
  induction fuel with
  | zero =>
    intro u st _ hp k hk
    exact hp k hk
  | succ fuel ih =>
    intro u st hu hp k hk
    simp only [dfsGo] at hk
    by_cases hflag : st.2.2 = true
    · rw [if_pos hflag] at hk
      exact hp k hk
    · rw [if_neg hflag] at hk
      by_cases hd : u = dest
      · rw [if_pos hd] at hk
        exact hp k hk
      · rw [if_neg hd] at hk
        have hfold : ∀ (l : List Edge), (∀ e ∈ l, e ∈ allEdges g ∧ e.src = u) →
            ∀ st' : List String × AL (Option String) × Bool,
              (∀ k ∈ alKeys st'.2.1, Reachable g start k) →
              ∀ k ∈ alKeys ((l.foldl
                  (fun (st : List String × AL (Option String) × Bool) e =>
                    if e.dst ∈ st.1 then st
                    else dfsGo g dest fuel e.dst
                      (st.1, alSet st.2.1 e.dst (some u), st.2.2)) st')).2.1,
                Reachable g start k := by
          intro l
          induction l with
          | nil =>
            intro _ st' hp' k' hk'
            exact hp' k' hk'
          | cons e tl ihl =>
            intro hall st' hp' k' hk'
            rw [List.foldl_cons] at hk'
            refine ihl (fun x hx => hall x (List.mem_cons_of_mem _ hx)) _ ?_ k' hk'
            by_cases hmem : e.dst ∈ st'.1
            · rw [if_pos hmem]
              exact hp'
            · rw [if_neg hmem]
              have hre : Reachable g start e.dst :=
                Reachable.step hu (hall e (List.mem_cons_self _ _)).1
                  (hall e (List.mem_cons_self _ _)).2
              refine ih e.dst _ hre ?_
              intro k₂ hk₂
              rcases mem_alKeys_alSet hk₂ with h | h
              · exact hp' k₂ h
              · subst h
                exact hre
        refine hfold (alGetD g.adj u []) ?_ (st.1 ++ [u], st.2.1, false) hp k hk
        intro e he
        exact ⟨mem_adj_allEdges he, mem_adj_src hak he⟩

theorem dfs_path_unreachable {g : Graph} {start dest : String} (hak : AdjKeyed g)
    (hnr : ¬ Reachable g start dest) : dfs_path g start dest = [] := by
  have hne : dest ≠ start := fun h => hnr ⟨[], h.symm⟩
  simp only [dfs_path]
  apply reconstruct_eq_nil hne
  intro hk
  refine hnr (dfsGo_keys hak (totalAdjLen g + 2) start ([], [(start, none)], false)
    ⟨[], rfl⟩ ?_ dest hk)
  intro k hkk
  have hks : k = start := by simpa [alKeys] using hkk
  subst hks
  exact ⟨[], rfl⟩

theorem relaxEdge_reach {g : Graph} {start : String}
    {st : AL (Option ℚ) × AL (Option String) × Bool} {e : Edge}
    (he : e ∈ allEdges g)
    (hs : ∀ v q, alGetD st.1 v none = some q → Reachable g start v) :
    ∀ v q, alGetD (relaxEdge st e).1 v none = some q → Reachable g start v := by
  intro v q hv
  rcases relaxEdge_cases st e with ⟨_, heq⟩ | ⟨du, dv, _, _, _, heq⟩ |
    ⟨du, hsrc, _, heq⟩
  · rw [heq] at hv
    exact hs v q hv
  · rw [heq] at hv
    exact hs v q hv
  · rw [heq] at hv
    replace hv : alGetD (alSet st.1 e.dst (some (du + e.real_dist))) v none = some q := hv
    by_cases hvd : v = e.dst
    · subst hvd
      exact Reachable.step (hs e.src du hsrc) he rfl
    · rw [alGetD_alSet_ne _ _ _ _ _ (fun h => hvd h.symm)] at hv
      exact hs v q hv

theorem relaxFold_reach {g : Graph} {start : String} :
    ∀ (es : List Edge), (∀ e ∈ es, e ∈ allEdges g) →
      ∀ (st : AL (Option ℚ) × AL (Option String) × Bool),
        (∀ v q, alGetD st.1 v none = some q → Reachable g start v) →
        ∀ v q, alGetD ((es.foldl relaxEdge st)).1 v none = some q →
          Reachable g start v := by
  intro es
  induction es with
  | nil =>
    intro _ st hs
    exact hs
  | cons e tl ih =>
    intro hall st hs
    rw [List.foldl_cons]
    exact ih (fun e' he' => hall e' (List.mem_cons_of_mem _ he')) _
      (relaxEdge_reach (hall e (List.mem_cons_self _ _)) hs)

theorem bfRounds_reach {g : Graph} {start : String} :
    ∀ (k : Nat) (d : AL (Option ℚ)) (p : AL (Option String)),
      (∀ v q, alGetD d v none = some q → Reachable g start v) →
      ∀ v q, alGetD (bfRounds k d p (allEdges g)).1 v none = some q →
        Reachable g start v := by
  intro k
  induction k with
  | zero =>
    intro d p hs
    exact hs
  | succ k ih =>
    intro d p hs
    have hs1 := relaxFold_reach (allEdges g) (fun _ he => he) (d, p, false) hs
    simp only [bfRounds]
    by_cases hb : ((allEdges g).foldl relaxEdge (d, p, false)).2.2 = true
    · rw [if_pos hb]
      exact ih _ _ hs1
    · rw [if_neg hb]
      exact hs1

theorem bellman_path_unreachable {g : Graph} {start dest : String}
    (hnr : ¬ Reachable g start dest) : bellman_path g start dest = [] := by
  have hreach : ∀ v q, alGetD (bellman_ford g start).1 v none = some q →
      Reachable g start v := by
    cases hc : alGet g.cities start with
    | none =>
      have hbf : bellman_ford g start =
          (g.cities.map fun kv => (kv.1, none),
           g.cities.map fun kv => (kv.1, none)) := by
        simp only [bellman_ford, hc]
      rw [hbf]
      intro v q hv
      replace hv : alGetD (g.cities.map fun kv => (kv.1, (none : Option ℚ))) v none =
          some q := hv
      rw [alGetD_mapNone] at hv
      exact Option.noConfusion hv
    | some c =>
      have hbf : bellman_ford g start =
          bfRounds (g.cities.length - 1)
            (alSet (g.cities.map fun kv => (kv.1, none)) start (some 0))
            (g.cities.map fun kv => (kv.1, none)) (allEdges g) := by
        simp only [bellman_ford, hc]
      rw [hbf]
      refine bfRounds_reach (g.cities.length - 1) _ _ ?_
      intro v q hv
      by_cases hvs : v = start
      · subst hvs
        exact ⟨[], rfl⟩
      · rw [alGetD_alSet_ne _ _ _ _ _ (fun h => hvs h.symm), alGetD_mapNone] at hv
        exact Option.noConfusion hv
  simp only [bellman_path]
  cases hdd : alGetD (bellman_ford g start).1 dest none with
  | none => rfl
  | some q => exact absurd (hreach dest q hdd) hnr

theorem mem_eraseFirst {α : Type} [DecidableEq α] :
    ∀ (l : List α) (m x : α), x ∈ eraseFirst l m → x ∈ l := by
  intro l
  induction l with
  | nil =>
    intro m x hx
    simp [eraseFirst] at hx
  | cons y t ih =>
    intro m x hx
    simp only [eraseFirst] at hx
    by_cases hy : y = m
    · rw [if_pos hy] at hx
      exact List.mem_cons_of_mem _ hx
    · rw [if_neg hy] at hx
      rcases List.mem_cons.mp hx with h | h
      · rw [h]
        exact List.mem_cons_self _ _
      · exact List.mem_cons_of_mem _ (ih m x h)

theorem mem_alAppendS {a : AL (List String)} {k x u v : String}
    (h : v ∈ alGetD (alAppendS a k x) u []) :
    v ∈ alGetD a u [] ∨ (u = k ∧ v = x) := by
  unfold alAppendS at h
  by_cases hu : u = k
  · subst hu
    rw [alGetD_alSet_self] at h
    rcases List.mem_append.mp h with h | h
    · exact Or.inl h
    · exact Or.inr ⟨rfl, List.mem_singleton.mp h⟩
  · rw [alGetD_alSet_ne _ _ _ _ _ (fun hh => hu hh.symm)] at h
    exact Or.inl h

theorem mstAdj_values {Q : String → String → Prop} :
    ∀ (l : List Edge) (a : AL (List String)),
      (∀ u v, v ∈ alGetD a u [] → Q u v) →
      (∀ e ∈ l, Q e.src e.dst ∧ Q e.dst e.src) →
      ∀ u v, v ∈ alGetD (l.foldl (fun a e =>
        alAppendS (alAppendS a e.src e.dst) e.dst e.src) a) u [] → Q u v := by
  intro l
  induction l with
  | nil =>
    intro a ha _ u v hv
    exact ha u v hv
  | cons e tl ih =>
    intro a ha hall u v hv
    rw [List.foldl_cons] at hv
    refine ih _ ?_ (fun e' he' => hall e' (List.mem_cons_of_mem _ he')) u v hv
    intro u' v' hv'
    rcases mem_alAppendS hv' with h | ⟨hu, hvx⟩
    · rcases mem_alAppendS h with h | ⟨hu, hvx⟩
      · exact ha u' v' h
      · subst hu
        subst hvx
        exact (hall e (List.mem_cons_self _ _)).1
    · subst hu
      subst hvx
      exact (hall e (List.mem_cons_self _ _)).2

theorem primLoop_reach {g : Graph} {start : String} (hak : AdjKeyed g) :
    ∀ (fuel : Nat) (visited : List String) (pq : List (ℚ × String × String))
      (mst : List Edge),
      (∀ x ∈ visited, Reachable g start x) →
      (∀ t ∈ pq, Reachable g start t.2.1 ∧ Reachable g start t.2.2) →
      (∀ e ∈ mst, Reachable g start e.src ∧ Reachable g start e.dst) →
      ∀ e ∈ primLoop g fuel visited pq mst,
        Reachable g start e.src ∧ Reachable g start e.dst := by
  intro fuel
  induction fuel with
  | zero =>
    intro vis pq mst _ _ hm e he
    exact hm e he
  | succ fuel ih =>
    intro vis pq mst hv hpq hm e he
    simp only [primLoop] at he
    by_cases hstop : pq = [] ∨ ¬ vis.length < g.cities.length
    · rw [if_pos hstop] at he
      exact hm e he
    · rw [if_neg hstop] at he
      obtain ⟨x, ts, rfl⟩ : ∃ x ts, pq = x :: ts := by
        cases pq with
        | nil => exact absurd (Or.inl rfl) hstop
        | cons x ts => exact ⟨x, ts, rfl⟩
      simp only [popMin] at he
      have hmpq : findMinTup x ts ∈ x :: ts := findMinTup_mem x ts
      have hm2 := hpq (findMinTup x ts) hmpq
      by_cases hvmem : (findMinTup x ts).2.2 ∈ vis
      · rw [if_pos hvmem] at he
        exact ih vis (eraseFirst (x :: ts) (findMinTup x ts)) mst hv
          (fun y hy => hpq y (mem_eraseFirst _ _ _ hy)) hm e he
      · rw [if_neg hvmem] at he
        refine ih _ _ _ ?_ ?_ ?_ e he
        · intro y hy
          rcases List.mem_append.mp hy with h | h
          · exact hv y h
          · rw [List.mem_singleton] at h
            subst h
            exact hm2.2
        · intro t ht
          rcases List.mem_append.mp ht with h | h
          · exact hpq t (mem_eraseFirst _ _ _ h)
          · obtain ⟨ne, hne, hmap⟩ := List.mem_map.mp h
            have hne' : ne ∈ alGetD g.adj (findMinTup x ts).2.2 [] :=
              (List.mem_filter.mp hne).1
            have h1 := mem_adj_allEdges hne'
            have h2 := mem_adj_src hak hne'
            subst hmap
            constructor
            · show Reachable g start ne.src
              rw [h2]
              exact hm2.2
            · show Reachable g start ne.dst
              exact Reachable.step hm2.2 h1 h2
        · cases hfind : (alGetD g.adj (findMinTup x ts).2.1 []).find?
              (fun e => e.dst == (findMinTup x ts).2.2) with
          | none => exact hm
          | some e₀ =>
            intro e' he'
            rcases List.mem_append.mp he' with h | h
            · exact hm e' h
            · rw [List.mem_singleton] at h
              subst h
              have h1 : e' ∈ alGetD g.adj (findMinTup x ts).2.1 [] :=
                List.mem_of_find?_eq_some hfind
              have h2 := mem_adj_allEdges h1
              have h3 := mem_adj_src hak h1
              have hpeq : e'.dst = (findMinTup x ts).2.2 := by
                have hb := List.find?_some hfind
                simpa using hb
              constructor
              · rw [h3]
                exact hm2.1
              · rw [hpeq]
                exact hm2.2

theorem prim_mst_reach {g : Graph} {start : String} (hak : AdjKeyed g) :
    ∀ e ∈ prim_mst_edges g start,
      Reachable g start e.src ∧ Reachable g start e.dst := by
  simp only [prim_mst_edges]
  cases hc : alGet g.cities start with
  | none =>
    intro e he
    exact absurd he (List.not_mem_nil e)
  | some c =>
    refine primLoop_reach hak _ [start] _ [] ?_ ?_ ?_
    · intro x hx
      rw [List.mem_singleton] at hx
      subst hx
      exact ⟨[], rfl⟩
    · intro t ht
      obtain ⟨e, he, hmap⟩ := List.mem_map.mp ht
      have h1 := mem_adj_allEdges he
      have h2 := mem_adj_src hak he
      subst hmap
      constructor
      · show Reachable g start e.src
        rw [h2]
        exact ⟨[], rfl⟩
      · show Reachable g start e.dst
        exact Reachable.step ⟨[], rfl⟩ h1 h2
    · intro e he
      exact absurd he (List.not_mem_nil e)

theorem prim_path_unreachable {g : Graph} {start dest : String} (hak : AdjKeyed g)
    (hnr : ¬ Reachable g start dest) : prim_path g start dest = [] := by
  have hne : dest ≠ start := fun h => hnr ⟨[], h.symm⟩
  have hQ : ∀ u v, v ∈ alGetD (mstAdj (prim_mst_edges g start)) u [] →
      Reachable g start v := by
    unfold mstAdj
    refine mstAdj_values _ _ ?_ ?_
    · intro u v hv
      exact absurd hv (List.not_mem_nil v)
    · intro e he
      exact ⟨(prim_mst_reach hak e he).2, (prim_mst_reach hak e he).1⟩
  simp only [prim_path, tree_path_in_adj]
  apply reconstruct_eq_nil hne
  intro hk
  refine hnr (bfsSearch_keys (Reachable g start)
    (fun u => alGetD (mstAdj (prim_mst_edges g start)) u []) dest
    (fun u v _ hv => hQ u v hv) _ [start] [start] [(start, none)] ?_ ?_ dest hk)
  · intro u hu
    rw [List.mem_singleton] at hu
    subst hu
    exact ⟨[], rfl⟩
  · intro k hkk
    have hks : k = start := by simpa [alKeys] using hkk
    subst hks
    exact ⟨[], rfl⟩

theorem kruskalLoop_forall {P : Edge → Prop} (fuel : Nat) :
    ∀ (es : List Edge) (par : AL String) (rank : AL Nat) (mst : List Edge),
      (∀ e ∈ es, P e) → (∀ e ∈ mst, P e) →
      ∀ e ∈ kruskalLoop fuel es par rank mst, P e := by
  intro es
  induction es with
  | nil =>
    intro par rank mst _ hm e he
    exact hm e he
  | cons e₀ tl ih =>
    intro par rank mst hes hm e he
    simp only [kruskalLoop] at he
    by_cases hne : (ufFind fuel par e₀.src).1 ≠
        (ufFind fuel (ufFind fuel par e₀.src).2 e₀.dst).1
    · rw [if_pos hne] at he
      refine ih _ _ _ (fun x hx => hes x (List.mem_cons_of_mem _ hx)) ?_ e he
      intro x hx
      rcases List.mem_append.mp hx with h | h
      · exact hm x h
      · rw [List.mem_singleton] at h
        subst h
        exact hes x (List.mem_cons_self _ _)
    · rw [if_neg hne] at he
      exact ih _ _ _ (fun x hx => hes x (List.mem_cons_of_mem _ hx)) hm e he

theorem dedupGo_subset : ∀ (l : List Edge) (seen : List (String × String)) (e : Edge),
    e ∈ dedupGo l seen → e ∈ l := by
  intro l
  induction l with
  | nil =>
    intro seen e he
    simp [dedupGo] at he
  | cons x t ih =>
    intro seen e he
    simp only [dedupGo] at he
    by_cases hk : canonPair x.src x.dst ∈ seen
    · rw [if_pos hk] at he
      exact List.mem_cons_of_mem _ (ih _ _ he)
    · rw [if_neg hk] at he
      rcases List.mem_cons.mp he with h | h
      · rw [h]
        exact List.mem_cons_self _ _
      · exact List.mem_cons_of_mem _ (ih _ _ h)

theorem mem_insSortedEdge {y x : Edge} : ∀ (l : List Edge),
    y ∈ insSortedEdge x l → y = x ∨ y ∈ l := by
  intro l
  induction l with
  | nil =>
    intro h
    simp only [insSortedEdge, List.mem_singleton] at h
    exact Or.inl h
  | cons z zs ih =>
    intro h
    simp only [insSortedEdge] at h
    by_cases hc : z.real_dist ≤ x.real_dist
    · rw [if_pos hc] at h
      rcases List.mem_cons.mp h with h | h
      · exact Or.inr (by rw [h]; exact List.mem_cons_self _ _)
      · rcases ih h with h | h
        · exact Or.inl h
        · exact Or.inr (List.mem_cons_of_mem _ h)
    · rw [if_neg hc] at h
      rcases List.mem_cons.mp h with h | h
      · exact Or.inl h
      · exact Or.inr h

theorem sortEdges_fold_subset : ∀ (l acc : List Edge) (y : Edge),
    y ∈ l.foldl (fun acc x => insSortedEdge x acc) acc → y ∈ acc ∨ y ∈ l := by
  intro l
  induction l with
  | nil =>
    intro acc y h
    exact Or.inl h
  | cons x t ih =>
    intro acc y h
    rw [List.foldl_cons] at h
    rcases ih _ y h with h | h
    · rcases mem_insSortedEdge _ h with h | h
      · exact Or.inr (by rw [h]; exact List.mem_cons_self _ _)
      · exact Or.inl h
    · exact Or.inr (List.mem_cons_of_mem _ h)

theorem kruskal_mst_subset {g : Graph} :
    ∀ e ∈ kruskal_mst_edges g, e ∈ allEdges g := by
  simp only [kruskal_mst_edges]
  refine kruskalLoop_forall _ _ _ _ _ ?_ ?_
  · intro e he
    rcases sortEdges_fold_subset _ [] e he with h | h
    · exact absurd h (List.not_mem_nil e)
    · exact dedupGo_subset _ [] e h
  · intro e he
    exact absurd he (List.not_mem_nil e)

theorem kruskal_path_unreachable {g : Graph} {start dest : String} (hsym : SymG g)
    (hnr : ¬ Reachable g start dest) : kruskal_path g start dest = [] := by
  have hne : dest ≠ start := fun h => hnr ⟨[], h.symm⟩
  have hQ : ∀ u v, v ∈ alGetD (mstAdj (kruskal_mst_edges g)) u [] →
      Reachable g start u → Reachable g start v := by
    unfold mstAdj
    refine mstAdj_values _ _ ?_ ?_
    · intro u v hv
      exact absurd hv (List.not_mem_nil v)
    · intro e he
      have hall : e ∈ allEdges g := kruskal_mst_subset e he
      constructor
      · intro hu
        exact Reachable.step hu hall rfl
      · intro hd
        obtain ⟨e', he', h1, h2⟩ := hsym e hall
        have h3 := Reachable.step hd he' h1
        rw [h2] at h3
        exact h3
  simp only [kruskal_path, tree_path_in_adj]
  apply reconstruct_eq_nil hne
  intro hk
  refine hnr (bfsSearch_keys (Reachable g start)
    (fun u => alGetD (mstAdj (kruskal_mst_edges g)) u []) dest
    (fun u v hu hv => hQ u v hv hu) _ [start] [start] [(start, none)] ?_ ?_ dest hk)
  · intro u hu
    rw [List.mem_singleton] at hu
    subst hu
    exact ⟨[], rfl⟩
  · intro k hkk
    have hks : k = start := by simpa [alKeys] using hkk
    subst hks
    exact ⟨[], rfl⟩

/-- **C7.** On a graph whose adjacency lists are keyed by the edge origin
and whose edges all have a reverse edge (both invariants `add_bidir_edge`
establishes), when `dst` is unreachable from `src` every one of the five
algorithms produces an empty route, and `compute` returns the failure
record carrying the algorithm's label and the `"No route found"` message —
no exception, a plain failure value. -/
theorem claim7_theorem (g : Graph) (wr : WeatherRisk) (names : AL String)
    (src dst : String) (hak : AdjKeyed g) (hsym : SymG g)
    (hnr : ¬ Reachable g src dst) :
    compute g wr names src dst "BFS" = .failure "BFS" "No route found" ∧
    compute g wr names src dst "DFS" = .failure "DFS" "No route found" ∧
    compute g wr names src dst "PRIM" = .failure "Prim MST" "No route found" ∧
    compute g wr names src dst "KRUSKAL" =
      .failure "Kruskal MST" "No route found" ∧
    compute g wr names src dst "BELLMAN" =
      .failure "Bellman-Ford" "No route found" := by
  have h1 := bfs_path_unreachable hak hnr
  have h2 := dfs_path_unreachable hak hnr
  have h3 := prim_path_unreachable hak hnr
  have h4 := kruskal_path_unreachable hsym hnr
  have h5 := bellman_path_unreachable hnr
  refine ⟨?_, ?_, ?_, ?_, ?_⟩
  · simp [compute, h1]
  · simp [compute, h2]
  · simp [compute, h3]
  · simp [compute, h4]
  · simp [compute, h5]

/-- Witness for `claim7_theorem`: `gSBA` has three cities and no edges at
all, so `"A"` is unreachable from `"S"`; all five algorithms fail with
`"No route found"`. -/
theorem claim7_witness :
    (AdjKeyed gSBA ∧ SymG gSBA ∧ ¬ Reachable gSBA "S" "A") ∧
    (compute gSBA ⟨[], []⟩ [] "S" "A" "BFS" = .failure "BFS" "No route found" ∧
     compute gSBA ⟨[], []⟩ [] "S" "A" "DFS" = .failure "DFS" "No route found" ∧
     compute gSBA ⟨[], []⟩ [] "S" "A" "PRIM" =
       .failure "Prim MST" "No route found" ∧
     compute gSBA ⟨[], []⟩ [] "S" "A" "KRUSKAL" =
       .failure "Kruskal MST" "No route found" ∧
     compute gSBA ⟨[], []⟩ [] "S" "A" "BELLMAN" =
       .failure "Bellman-Ford" "No route found") :=
  have hnr : ¬ Reachable gSBA "S" "A" := by
    rintro ⟨es, hw⟩
    cases es with
    | nil => exact absurd hw (by decide)
    | cons e tl => exact absurd hw.1 (by simp [allEdges, gSBA])
  ⟨⟨by decide, by decide, hnr⟩,
    claim7_theorem gSBA ⟨[], []⟩ [] "S" "A" (by decide) (by decide) hnr⟩

/-! ### C9: discovery-order positions -/

theorem posIn_append_of_mem {x : String} :
    ∀ {l : List String} (l₂ : List String), x ∈ l →
      posIn (l ++ l₂) x = posIn l x := by
  intro l
  induction l with
  | nil =>
    intro l₂ hx
    exact absurd hx (List.not_mem_nil x)
  | cons y t ih =>
    intro l₂ hx
    by_cases hy : y = x
    · simp [posIn, hy]
    · rcases List.mem_cons.mp hx with h | h
      · exact absurd h.symm hy
      · simp [posIn, hy, ih l₂ h]

theorem posIn_append_self {x : String} :
    ∀ {l : List String}, x ∉ l → posIn (l ++ [x]) x = l.length := by
  intro l
  induction l with
  | nil => simp [posIn]
  | cons y t ih =>
    intro hx
    have hy : y ≠ x := fun h => hx (by rw [h]; exact List.mem_cons_self _ _)
    have hxt : x ∉ t := fun h => hx (List.mem_cons_of_mem _ h)
    simp [posIn, hy, ih hxt]

theorem posIn_lt_length {x : String} :
    ∀ {l : List String}, x ∈ l → posIn l x < l.length := by
  intro l
  induction l with
  | nil =>
    intro hx
    exact absurd hx (List.not_mem_nil x)
  | cons y t ih =>
    intro hx
    by_cases hy : y = x
    · simp [posIn, hy]
    · rcases List.mem_cons.mp hx with h | h
      · exact absurd h.symm hy
      · simp only [posIn, if_neg hy, List.length_cons]
        exact Nat.succ_lt_succ (ih h)

/-! ### C9: adjacent pairs of a list as a chain -/

theorem chain'_iff_pairs {α : Type} (P : α → α → Prop) :
    ∀ l : List α, List.Chain' P l ↔ ∀ uv ∈ l.zip l.tail, P uv.1 uv.2 := by
  intro l
  induction l with
  | nil => simp
  | cons x t ih =>
    cases t with
    | nil => simp
    | cons y s =>
      rw [List.chain'_cons, ih]
      constructor
      · rintro ⟨hxy, hrest⟩ uv huv
        rcases List.mem_cons.mp huv with h | h
        · rw [h]
          exact hxy
        · exact hrest uv h
      · intro hall
        exact ⟨hall (x, y) (List.mem_cons_self _ _),
          fun uv huv => hall uv (List.mem_cons_of_mem _ huv)⟩

/-! ### C9: following a measure-decreasing parent map -/

theorem followParent_spec {par : AL (Option String)} {start : String}
    {μ : String → Nat}
    (hB : ∀ k u, alGetD par k none = some u →
      μ u < μ k ∧ (u = start ∨ ∃ w, alGetD par u none = some w)) :
    ∀ (n : Nat) (v : String), μ v < n →
      ∀ fuel, n ≤ fuel →
      (v = start ∨ ∃ u, alGetD par v none = some u) →
      ∃ c, followParent par start fuel (some v) = v :: c ∧
        (v :: c).getLast? = some start ∧
        List.Chain' (fun a b => alGetD par a none = some b) (v :: c) ∧
        List.Pairwise (fun a b => μ b < μ a) (v :: c) := by
  intro n
  induction n with
  | zero =>
    intro v h
    omega
  | succ n ih =>
    intro v hv fuel hfuel hentry
    obtain ⟨f, rfl⟩ : ∃ f, fuel = f + 1 := ⟨fuel - 1, by omega⟩
    by_cases hvs : v = start
    · subst hvs
      refine ⟨[], by simp [followParent], rfl, ?_, ?_⟩
      · exact List.chain'_singleton _
      · exact List.pairwise_singleton _ _
    · rcases hentry with h | ⟨u, hu⟩
      · exact absurd h hvs
      obtain ⟨hμ, hentry'⟩ := hB v u hu
      obtain ⟨c, hc, hlast, hchain, hpw⟩ := ih u (by omega) f (by omega) hentry'
      refine ⟨u :: c, ?_, ?_, ?_, ?_⟩
      · simp only [followParent]
        rw [if_neg hvs, hu, hc]
      · rw [List.getLast?_cons_cons]
        exact hlast
      · rw [List.chain'_cons]
        exact ⟨hu, hchain⟩
      · refine List.pairwise_cons.mpr ⟨?_, hpw⟩
        intro b hb
        rcases List.mem_cons.mp hb with h | h
        · rw [h]
          exact hμ
        · have hbu := (List.pairwise_cons.mp hpw).1 b h
          omega

theorem reconstruct_spec {par : AL (Option String)} {start dest : String}
    {μ : String → Nat} {fuel : Nat}
    (hB : ∀ k u, alGetD par k none = some u →
      μ u < μ k ∧ (u = start ∨ ∃ w, alGetD par u none = some w))
    (hentry : dest = start ∨ ∃ u, alGetD par dest none = some u)
    (hfuel : μ dest < fuel) :
    reconstruct fuel par start dest ≠ [] ∧
    (reconstruct fuel par start dest).head? = some start ∧
    (reconstruct fuel par start dest).getLast? = some dest ∧
    (reconstruct fuel par start dest).Nodup ∧
    List.Chain' (fun a b => alGetD par b none = some a)
      (reconstruct fuel par start dest) := by
  by_cases hds : dest = start
  · subst hds
    have hr : reconstruct fuel par dest dest = [dest] := by
      simp [reconstruct]
    rw [hr]
    refine ⟨by simp, rfl, rfl, List.nodup_singleton _, List.chain'_singleton _⟩
  · rcases hentry with h | ⟨u, hu⟩
    · exact absurd h hds
    obtain ⟨c, hc, hlast, hchain, hpw⟩ :=
      followParent_spec hB (μ dest + 1) dest (by omega) fuel (by omega)
        (Or.inr ⟨u, hu⟩)
    have hpget : (alGet par dest).isNone = false := by
      cases hh : alGet par dest with
      | none =>
        exfalso
        unfold alGetD at hu
        rw [hh] at hu
        exact Option.noConfusion hu
      | some x => rfl
    have hr : reconstruct fuel par start dest = (dest :: c).reverse := by
      simp only [reconstruct]
      rw [if_neg hds]
      rw [if_neg (by simp [hpget])]
      rw [hc]
      rw [if_pos ⟨by simp, by rw [List.head?_reverse]; exact hlast⟩]
    rw [hr]
    refine ⟨by simp, ?_, ?_, ?_, ?_⟩
    · rw [List.head?_reverse]
      exact hlast
    · rw [List.getLast?_reverse]
      rfl
    · rw [List.nodup_reverse]
      exact hpw.imp fun h heq => absurd (heq ▸ h) (lt_irrefl _)
    · exact List.chain'_reverse.mpr (hchain.imp fun a b h => h)

/-! ### C9: the breadth-first search maintains its invariant and terminates -/

theorem bfsFold_inv (nbrs : String → List String) (start : String)
    (bound : List String) (hbound : ∀ u v, v ∈ nbrs u → v ∈ bound) (u : String) :
    ∀ (l : List String), (∀ v ∈ l, v ∈ nbrs u) →
      ∀ (st : List String × List String × AL (Option String)),
        FoldInv nbrs start bound u st →
        FoldInv nbrs start bound u (l.foldl
          (fun (st : List String × List String × AL (Option String)) v =>
            if v ∈ st.2.1 then st
            else (st.1 ++ [v], st.2.1 ++ [v], alSet st.2.2 v (some u))) st) ∧
        (∀ v ∈ l, v ∈ (l.foldl
          (fun (st : List String × List String × AL (Option String)) v =>
            if v ∈ st.2.1 then st
            else (st.1 ++ [v], st.2.1 ++ [v], alSet st.2.2 v (some u))) st).2.1) ∧
        (l.foldl
          (fun (st : List String × List String × AL (Option String)) v =>
            if v ∈ st.2.1 then st
            else (st.1 ++ [v], st.2.1 ++ [v], alSet st.2.2 v (some u))) st).1.length +
          st.2.1.length = st.1.length + (l.foldl
          (fun (st : List String × List String × AL (Option String)) v =>
            if v ∈ st.2.1 then st
            else (st.1 ++ [v], st.2.1 ++ [v], alSet st.2.2 v (some u))) st).2.1.length ∧
        (∀ x ∈ st.2.1, x ∈ (l.foldl
          (fun (st : List String × List String × AL (Option String)) v =>
            if v ∈ st.2.1 then st
            else (st.1 ++ [v], st.2.1 ++ [v], alSet st.2.2 v (some u))) st).2.1) := by
  intro l
  induction l with
  | nil =>
    intro _ st hInv
    exact ⟨hInv, fun v hv => absurd hv (List.not_mem_nil v), rfl, fun x hx => hx⟩
  | cons v tl ihl =>
    intro hall st hInv
    simp only [List.foldl_cons]
    by_cases hv : v ∈ st.2.1
    · rw [if_pos hv]
      obtain ⟨h1, h2, h3, h4⟩ := ihl (fun x hx => hall x (List.mem_cons_of_mem _ hx))
        st hInv
      refine ⟨h1, ?_, h3, h4⟩
      intro w hw
      rcases List.mem_cons.mp hw with h | h
      · rw [h]
        exact h4 v hv
      · exact h2 w h
    · rw [if_neg hv]
      obtain ⟨f1, f2, f3, f4, f5, f6, f7, f8, f9⟩ := hInv
      have hvn : v ∈ nbrs u := hall v (List.mem_cons_self _ _)
      have hvs : v ≠ start := fun h => hv (h ▸ f2)
      have hInv' : FoldInv nbrs start bound u
          (st.1 ++ [v], st.2.1 ++ [v], alSet st.2.2 v (some u)) := by
        refine ⟨?_, ?_, ?_, ?_, ?_, ?_, ?_, ?_, ?_⟩
        · intro x hx
          rcases List.mem_append.mp hx with h | h
          · exact List.mem_append_left _ (f1 x h)
          · exact List.mem_append_right _ h
        · exact List.mem_append_left _ f2
        · show alGet (alSet st.2.2 v (some u)) start = some none
          rw [alGet_alSet_ne _ _ _ _ hvs]
          exact f3
        · show (st.2.1 ++ [v]).Nodup
          rw [List.nodup_append]
          refine ⟨f4, List.nodup_singleton _, ?_⟩
          intro a ha hav
          rw [List.mem_singleton] at hav
          subst hav
          exact hv ha
        · intro x hx
          rcases List.mem_append.mp hx with h | h
          · exact f5 x h
          · rw [List.mem_singleton] at h
            subst h
            exact hbound u x hvn
        · intro x hx
          rcases List.mem_append.mp hx with h | h
          · rcases f6 x h with h' | ⟨w, hw⟩
            · exact Or.inl h'
            · refine Or.inr ⟨w, ?_⟩
              show alGetD (alSet st.2.2 v (some u)) x none = some w
              rw [alGetD_alSet_ne _ _ _ _ _ (fun hh => hv (by rw [hh]; exact h))]
              exact hw
          · rw [List.mem_singleton] at h
            subst h
            refine Or.inr ⟨u, ?_⟩
            show alGetD (alSet st.2.2 x (some u)) x none = some u
            rw [alGetD_alSet_self]
        · intro k w hkw
          by_cases hkv : k = v
          · subst hkv
            replace hkw : alGetD (alSet st.2.2 k (some u)) k none = some w := hkw
            rw [alGetD_alSet_self] at hkw
            injection hkw with hkw
            subst hkw
            refine ⟨List.mem_append_right _ (List.mem_cons_self _ _),
              List.mem_append_left _ f9, ?_, hall k (List.mem_cons_self _ _)⟩
            show posIn (st.2.1 ++ [k]) u < posIn (st.2.1 ++ [k]) k
            rw [posIn_append_of_mem _ f9, posIn_append_self hv]
            exact posIn_lt_length f9
          · replace hkw : alGetD (alSet st.2.2 v (some u)) k none = some w := hkw
            rw [alGetD_alSet_ne _ _ _ _ _ (fun hh => hkv hh.symm)] at hkw
            obtain ⟨hk1, hk2, hk3, hk4⟩ := f7 k w hkw
            refine ⟨List.mem_append_left _ hk1, List.mem_append_left _ hk2, ?_, hk4⟩
            show posIn (st.2.1 ++ [v]) w < posIn (st.2.1 ++ [v]) k
            rw [posIn_append_of_mem _ hk2, posIn_append_of_mem _ hk1]
            exact hk3
        · intro x hx
          rcases List.mem_append.mp hx with h | h
          · rcases f8 x h with hq | hc
            · rcases List.mem_cons.mp hq with h' | h'
              · rw [h']
                exact Or.inl (List.mem_cons_self _ _)
              · exact Or.inl (List.mem_cons_of_mem _ (List.mem_append_left _ h'))
            · exact Or.inr (fun y hy => List.mem_append_left _ (hc y hy))
          · rw [List.mem_singleton] at h
            subst h
            exact Or.inl (List.mem_cons_of_mem _
              (List.mem_append_right _ (List.mem_cons_self _ _)))
        · exact List.mem_append_left _ f9
      obtain ⟨h1, h2, h3, h4⟩ := ihl (fun x hx => hall x (List.mem_cons_of_mem _ hx))
        _ hInv'
      refine ⟨h1, ?_, ?_, ?_⟩
      · intro w hw
        rcases List.mem_cons.mp hw with h | h
        · rw [h]
          exact h4 v (List.mem_append_right _ (List.mem_cons_self _ _))
        · exact h2 w h
      · have h3' : _ + (st.2.1 ++ [v]).length = (st.1 ++ [v]).length + _ := h3
        simp only [List.length_append, List.length_cons, List.length_nil] at h3' ⊢
        omega
      · intro x hx
        exact h4 x (List.mem_append_left _ hx)

theorem bfsSearch_spec (nbrs : String → List String) (start dest : String)
    (bound : List String) (hbound : ∀ u v, v ∈ nbrs u → v ∈ bound) :
    ∀ (fuel : Nat) (q vis : List String) (par : AL (Option String)),
      SearchInv nbrs start bound q vis par →
      q.length + (bound.length - vis.length) < fuel →
      ∃ q' vis',
        SearchInv nbrs start bound q' vis' (bfsSearch nbrs dest fuel q vis par) ∧
        (dest ∈ vis' ∨ q' = []) := by
  intro fuel
  induction fuel with
  | zero =>
    intro q vis par _ h
    omega
  | succ fuel ih =>
    intro q vis par hinv hΦ
    cases q with
    | nil => exact ⟨[], vis, hinv, Or.inr rfl⟩
    | cons u q₀ =>
      simp only [bfsSearch]
      by_cases hd : u = dest
      · rw [if_pos hd]
        exact ⟨u :: q₀, vis, hinv, Or.inl (hd ▸ hinv.1 u (List.mem_cons_self _ _))⟩
      · rw [if_neg hd]
        obtain ⟨s1, s2, s3, s4, s5, s6, s7, s8⟩ := hinv
        have hu : u ∈ vis := s1 u (List.mem_cons_self _ _)
        obtain ⟨⟨f1, f2, f3, f4, f5, f6, f7, f8, f9⟩, hl, hlen, hmono⟩ :=
          bfsFold_inv nbrs start bound hbound u (nbrs u) (fun v hv => hv)
            (q₀, vis, par)
            ⟨fun x hx => s1 x (List.mem_cons_of_mem _ hx), s2, s3, s4, s5, s6, s7,
             fun x hx => s8 x hx, hu⟩
        have hinv' : SearchInv nbrs start bound
            ((nbrs u).foldl
              (fun (st : List String × List String × AL (Option String)) v =>
                if v ∈ st.2.1 then st
                else (st.1 ++ [v], st.2.1 ++ [v], alSet st.2.2 v (some u)))
              (q₀, vis, par)).1
            ((nbrs u).foldl
              (fun (st : List String × List String × AL (Option String)) v =>
                if v ∈ st.2.1 then st
                else (st.1 ++ [v], st.2.1 ++ [v], alSet st.2.2 v (some u)))
              (q₀, vis, par)).2.1
            ((nbrs u).foldl
              (fun (st : List String × List String × AL (Option String)) v =>
                if v ∈ st.2.1 then st
                else (st.1 ++ [v], st.2.1 ++ [v], alSet st.2.2 v (some u)))
              (q₀, vis, par)).2.2 := by
          refine ⟨f1, f2, f3, f4, f5, f6, f7, ?_⟩
          intro x hx
          rcases f8 x hx with hq | hc
          · rcases List.mem_cons.mp hq with h | h
            · rw [h]
              exact Or.inr (fun y hy => hl y hy)
            · exact Or.inl h
          · exact Or.inr hc
        have hlenle := List.Subperm.length_le (List.subperm_of_subset f4 f5)
        have hvisle := List.Subperm.length_le (List.subperm_of_subset s4 hmono)
        have hlen' : ((nbrs u).foldl
              (fun (st : List String × List String × AL (Option String)) v =>
                if v ∈ st.2.1 then st
                else (st.1 ++ [v], st.2.1 ++ [v], alSet st.2.2 v (some u)))
              (q₀, vis, par)).1.length + vis.length =
            q₀.length + ((nbrs u).foldl
              (fun (st : List String × List String × AL (Option String)) v =>
                if v ∈ st.2.1 then st
                else (st.1 ++ [v], st.2.1 ++ [v], alSet st.2.2 v (some u)))
              (q₀, vis, par)).2.1.length := hlen
        simp only [List.length_cons] at hΦ
        obtain ⟨q', vis', hI, hT⟩ := ih _ _ _ hinv' (by omega)
        exact ⟨q', vis', hI, hT⟩

/-! ### C9: the tree adjacency and its value count -/

theorem alAppendS_mem_self (a : AL (List String)) (k x : String) :
    x ∈ alGetD (alAppendS a k x) k [] := by
  unfold alAppendS
  rw [alGetD_alSet_self]
  exact List.mem_append_right _ (List.mem_cons_self _ _)

theorem alAppendS_mono {a : AL (List String)} {u y : String} (k x : String)
    (h : y ∈ alGetD a u []) : y ∈ alGetD (alAppendS a k x) u [] := by
  unfold alAppendS
  by_cases hu : u = k
  · subst hu
    rw [alGetD_alSet_self]
    exact List.mem_append_left _ h
  · rw [alGetD_alSet_ne _ _ _ _ _ (fun hh => hu hh.symm)]
    exact h

theorem mstAdjFold_mono {y u : String} :
    ∀ (l : List Edge) (a : AL (List String)), y ∈ alGetD a u [] →
      y ∈ alGetD (l.foldl (fun a e =>
        alAppendS (alAppendS a e.src e.dst) e.dst e.src) a) u [] := by
  intro l
  induction l with
  | nil =>
    intro a h
    exact h
  | cons e tl ih =>
    intro a h
    rw [List.foldl_cons]
    exact ih _ (alAppendS_mono _ _ (alAppendS_mono _ _ h))

theorem mstAdj_mem_of_edge {e : Edge} :
    ∀ (l : List Edge) (a : AL (List String)), e ∈ l →
      e.dst ∈ alGetD (l.foldl (fun a e =>
        alAppendS (alAppendS a e.src e.dst) e.dst e.src) a) e.src [] ∧
      e.src ∈ alGetD (l.foldl (fun a e =>
        alAppendS (alAppendS a e.src e.dst) e.dst e.src) a) e.dst [] := by
  intro l
  induction l with
  | nil =>
    intro a h
    exact absurd h (List.not_mem_nil e)
  | cons e₀ tl ih =>
    intro a h
    rw [List.foldl_cons]
    rcases List.mem_cons.mp h with h | h
    · subst h
      constructor
      · exact mstAdjFold_mono tl _ (alAppendS_mono _ _ (alAppendS_mem_self _ _ _))
      · exact mstAdjFold_mono tl _ (alAppendS_mem_self _ _ _)
    · exact ih _ h

theorem treeEdge_mstAdj {mst : List Edge} {x y : String} (h : TreeEdge mst x y) :
    y ∈ alGetD (mstAdj mst) x [] := by
  obtain ⟨e, he, hcase⟩ := h
  unfold mstAdj
  rcases hcase with ⟨h1, h2⟩ | ⟨h1, h2⟩
  · subst h1
    subst h2
    exact (mstAdj_mem_of_edge mst [] he).1
  · subst h1
    subst h2
    exact (mstAdj_mem_of_edge mst [] he).2

theorem mstAdj_treeEdge {mst : List Edge} :
    ∀ u v, v ∈ alGetD (mstAdj mst) u [] → TreeEdge mst u v := by
  unfold mstAdj
  refine mstAdj_values mst [] ?_ ?_
  · intro u v hv
    exact absurd hv (List.not_mem_nil v)
  · intro e he
    exact ⟨⟨e, he, Or.inl ⟨rfl, rfl⟩⟩, ⟨e, he, Or.inr ⟨rfl, rfl⟩⟩⟩

theorem totalVals_alAppendS : ∀ (a : AL (List String)) (k x : String),
    totalVals (alAppendS a k x) = totalVals a + 1 := by
  intro a
  induction a with
  | nil =>
    intro k x
    simp [alAppendS, alSet, alGetD, alGet, totalVals]
  | cons kv t ih =>
    intro k x
    by_cases hk : kv.1 = k
    · have hrw : alAppendS (kv :: t) k x = (kv.1, kv.2 ++ [x]) :: t := by
        simp [alAppendS, alSet, alGetD, alGet, hk]
      rw [hrw]
      simp only [totalVals, List.map_cons, List.sum_cons, List.length_append,
        List.length_cons, List.length_nil]
      omega
    · have hrw : alAppendS (kv :: t) k x = kv :: alAppendS t k x := by
        simp [alAppendS, alSet, alGetD, alGet, hk]
      rw [hrw]
      have h2 := ih k x
      simp only [totalVals, List.map_cons, List.sum_cons] at h2 ⊢
      omega

theorem totalVals_mstAdjFold : ∀ (l : List Edge) (a : AL (List String)),
    totalVals (l.foldl (fun a e =>
      alAppendS (alAppendS a e.src e.dst) e.dst e.src) a) =
      totalVals a + 2 * l.length := by
  intro l
  induction l with
  | nil =>
    intro a
    simp
  | cons e tl ih =>
    intro a
    rw [List.foldl_cons, ih, totalVals_alAppendS, totalVals_alAppendS,
      List.length_cons]
    omega

theorem flatten_length_totalVals : ∀ (l : AL (List String)),
    (l.map Prod.snd).flatten.length = totalVals l := by
  intro l
  induction l with
  | nil => rfl
  | cons kv t ih =>
    simp only [List.map_cons, List.flatten_cons, List.length_append]
    simp only [totalVals, List.map_cons, List.sum_cons] at ih ⊢
    omega

/-! ### C9: full specification of the tree path search -/

theorem tree_path_in_adj_spec (adj : AL (List String)) (start dest : String)
    (fuel : Nat) (hfuel : totalVals adj + 2 ≤ fuel)
    (hreach : Relation.ReflTransGen (fun a b => b ∈ alGetD adj a []) start dest) :
    tree_path_in_adj adj start dest fuel ≠ [] ∧
    (tree_path_in_adj adj start dest fuel).head? = some start ∧
    (tree_path_in_adj adj start dest fuel).getLast? = some dest ∧
    (tree_path_in_adj adj start dest fuel).Nodup ∧
    List.Chain' (fun a b => b ∈ alGetD adj a [])
      (tree_path_in_adj adj start dest fuel) := by
  have hbound : ∀ u v, v ∈ (fun u => alGetD adj u []) u →
      v ∈ start :: (adj.map Prod.snd).flatten := by
    intro u v hv
    refine List.mem_cons_of_mem _ ?_
    have hv' : v ∈ (alGet adj u).getD [] := hv
    cases hh : alGet adj u with
    | none =>
      rw [hh] at hv'
      exact absurd hv' (List.not_mem_nil v)
    | some l =>
      rw [hh] at hv'
      simp only [Option.getD_some] at hv'
      rw [List.mem_flatten]
      exact ⟨l, List.mem_map_of_mem Prod.snd (alGet_mem hh), hv'⟩
  have hB0 : (start :: (adj.map Prod.snd).flatten).length = totalVals adj + 1 := by
    rw [List.length_cons, flatten_length_totalVals]
  have hinit : SearchInv (fun u => alGetD adj u []) start
      (start :: (adj.map Prod.snd).flatten) [start] [start] [(start, none)] := by
    refine ⟨fun x hx => hx, List.mem_singleton_self _, ?_, List.nodup_singleton _,
      ?_, ?_, ?_, ?_⟩
    · simp [alGet]
    · intro x hx
      rw [List.mem_singleton] at hx
      subst hx
      exact List.mem_cons_self _ _
    · intro x hx
      rw [List.mem_singleton] at hx
      exact Or.inl hx
    · intro k w hkw
      unfold alGetD at hkw
      by_cases hks : start = k
      · have : alGet [(start, (none : Option String))] k = some none := by
          simp [alGet, hks]
        rw [this] at hkw
        exact Option.noConfusion hkw
      · have : alGet [(start, (none : Option String))] k = none := by
          simp [alGet, hks]
        rw [this] at hkw
        exact Option.noConfusion hkw
    · intro x hx
      exact Or.inl hx
  obtain ⟨q', vis', hI, hT⟩ := bfsSearch_spec (fun u => alGetD adj u []) start dest
    (start :: (adj.map Prod.snd).flatten) hbound fuel [start] [start]
    [(start, none)] hinit (by rw [hB0]; simp; omega)
  obtain ⟨i1, i2, i3, i4, i5, i6, i7, i8⟩ := hI
  have hdest_vis : dest ∈ vis' := by
    rcases hT with h | h
    · exact h
    · subst h
      have hclosed : ∀ x ∈ vis', ∀ y ∈ alGetD adj x [], y ∈ vis' := by
        intro x hx
        rcases i8 x hx with h | h
        · exact absurd h (List.not_mem_nil x)
        · exact h
      clear hbound hB0 hinit i1 i3 i5 i6 i7 i8
      induction hreach with
      | refl => exact i2
      | tail hab hbc ih => exact hclosed _ ih _ hbc
  have hentry := i6 dest hdest_vis
  have hμ : ∀ k u,
      alGetD (bfsSearch (fun u => alGetD adj u []) dest fuel [start] [start]
        [(start, none)]) k none = some u →
      posIn vis' u < posIn vis' k ∧
        (u = start ∨ ∃ w, alGetD (bfsSearch (fun u => alGetD adj u []) dest fuel
          [start] [start] [(start, none)]) u none = some w) := by
    intro k u h
    exact ⟨(i7 k u h).2.2.1, i6 u (i7 k u h).2.1⟩
  have hμfuel : posIn vis' dest < fuel := by
    have h1 := posIn_lt_length hdest_vis
    have h2 := List.Subperm.length_le (List.subperm_of_subset i4 i5)
    rw [hB0] at h2
    omega
  obtain ⟨hne, hhead, hlast, hnd, hchain⟩ := reconstruct_spec hμ hentry hμfuel
  simp only [tree_path_in_adj]
  refine ⟨hne, hhead, hlast, hnd, ?_⟩
  exact hchain.imp fun a b h => (i7 b a h).2.2.2

/-! ### C9: connectivity certificates of the Kruskal union–find -/

theorem treeEdge_symm {mst : List Edge} {a b : String} (h : TreeEdge mst a b) :
    TreeEdge mst b a := by
  obtain ⟨e, he, hc⟩ := h
  exact ⟨e, he, hc.symm⟩

theorem mstC_symm {mst : List Edge} {a b : String} (h : MstC mst a b) :
    MstC mst b a :=
  Relation.ReflTransGen.symmetric (fun _ _ hh => treeEdge_symm hh) h

theorem mstC_mono {mst mst' : List Edge} (hsub : ∀ x ∈ mst, x ∈ mst')
    {a b : String} (h : MstC mst a b) : MstC mst' a b :=
  Relation.ReflTransGen.mono (fun x y hxy => by
    obtain ⟨e, he, hc⟩ := hxy
    exact ⟨e, hsub e he, hc⟩) h

theorem ufFind_succ_none {fuel : Nat} {par : AL String} {x : String}
    (h : alGet par x = none) : ufFind (fuel + 1) par x = (x, par) := by
  simp only [ufFind, h]

theorem ufFind_succ_some {fuel : Nat} {par : AL String} {x px : String}
    (h : alGet par x = some px) :
    ufFind (fuel + 1) par x = if px = x then (x, par)
      else ((ufFind fuel par px).1,
        alSet (ufFind fuel par px).2 x (ufFind fuel par px).1) := by
  simp only [ufFind, h]

theorem ufFind_spec {mst : List Edge} :
    ∀ (fuel : Nat) (par : AL String) (x : String),
      (∀ k p, alGet par k = some p → MstC mst k p) →
      MstC mst x (ufFind fuel par x).1 ∧
      (∀ k p, alGet (ufFind fuel par x).2 k = some p → MstC mst k p) := by
  intro fuel
  induction fuel with
  | zero =>
    intro par x hpar
    exact ⟨Relation.ReflTransGen.refl, hpar⟩
  | succ fuel ih =>
    intro par x hpar
    cases hpx : alGet par x with
    | none =>
      rw [ufFind_succ_none hpx]
      exact ⟨Relation.ReflTransGen.refl, hpar⟩
    | some px =>
      rw [ufFind_succ_some hpx]
      by_cases hpxx : px = x
      · rw [if_pos hpxx]
        exact ⟨Relation.ReflTransGen.refl, hpar⟩
      · rw [if_neg hpxx]
        obtain ⟨h1, h2⟩ := ih par px hpar
        have hxpx : MstC mst x px := hpar x px hpx
        refine ⟨?_, ?_⟩
        · show MstC mst x (ufFind fuel par px).1
          exact Relation.ReflTransGen.trans hxpx h1
        · intro k p hk
          replace hk : alGet (alSet (ufFind fuel par px).2 x
              (ufFind fuel par px).1) k = some p := hk
          by_cases hkx : k = x
          · subst hkx
            rw [alGet_alSet_self] at hk
            injection hk with hk
            subst hk
            exact Relation.ReflTransGen.trans hxpx h1
          · rw [alGet_alSet_ne _ _ _ _ (fun hh => hkx hh.symm)] at hk
            exact h2 k p hk

theorem ufUnion_spec {mst : List Edge} {fuel : Nat} {par : AL String}
    {rank : AL Nat} {a b : String}
    (hpar : ∀ k p, alGet par k = some p → MstC mst k p)
    (hab : MstC mst a b) :
    ∀ k p, alGet (ufUnion fuel par rank a b).1 k = some p → MstC mst k p := by
  obtain ⟨ha1, ha2⟩ := ufFind_spec fuel par a hpar
  obtain ⟨hb1, hb2⟩ := ufFind_spec fuel (ufFind fuel par a).2 b ha2
  have hroots : MstC mst (ufFind fuel par a).1
      (ufFind fuel (ufFind fuel par a).2 b).1 :=
    Relation.ReflTransGen.trans (mstC_symm ha1) (Relation.ReflTransGen.trans hab hb1)
  have hset : ∀ (x y : String), MstC mst x y →
      ∀ k p, alGet (alSet (ufFind fuel (ufFind fuel par a).2 b).2 x y) k = some p →
        MstC mst k p := by
    intro x y hxy k p hk
    by_cases hkx : k = x
    · subst hkx
      rw [alGet_alSet_self] at hk
      injection hk with hk
      subst hk
      exact hxy
    · rw [alGet_alSet_ne _ _ _ _ (fun hh => hkx hh.symm)] at hk
      exact hb2 k p hk
  intro k p hk
  simp only [ufUnion] at hk
  by_cases hne : (ufFind fuel par a).1 ≠ (ufFind fuel (ufFind fuel par a).2 b).1
  · rw [if_pos hne] at hk
    by_cases hr1 : alGetD rank (ufFind fuel par a).1 0 <
        alGetD rank (ufFind fuel (ufFind fuel par a).2 b).1 0
    · rw [if_pos hr1] at hk
      exact hset _ _ hroots k p hk
    · rw [if_neg hr1] at hk
      by_cases hr2 : alGetD rank (ufFind fuel (ufFind fuel par a).2 b).1 0 <
          alGetD rank (ufFind fuel par a).1 0
      · rw [if_pos hr2] at hk
        exact hset _ _ (mstC_symm hroots) k p hk
      · rw [if_neg hr2] at hk
        exact hset _ _ (mstC_symm hroots) k p hk
  · rw [if_neg hne] at hk
    exact hb2 k p hk

theorem kruskalLoop_mono {fuel : Nat} :
    ∀ (es : List Edge) (par : AL String) (rank : AL Nat) (mst : List Edge),
      ∀ x ∈ mst, x ∈ kruskalLoop fuel es par rank mst := by
  intro es
  induction es with
  | nil =>
    intro par rank mst x hx
    exact hx
  | cons e tl ih =>
    intro par rank mst x hx
    simp only [kruskalLoop]
    by_cases hne : (ufFind fuel par e.src).1 ≠
        (ufFind fuel (ufFind fuel par e.src).2 e.dst).1
    · rw [if_pos hne]
      exact ih _ _ _ x (List.mem_append_left _ hx)
    · rw [if_neg hne]
      exact ih _ _ _ x hx

theorem kruskalLoop_spans {fuel : Nat} :
    ∀ (es : List Edge) (par : AL String) (rank : AL Nat) (mst : List Edge),
      (∀ k p, alGet par k = some p → MstC mst k p) →
      ∀ e₀ ∈ es, MstC (kruskalLoop fuel es par rank mst) e₀.src e₀.dst := by
  intro es
  induction es with
  | nil =>
    intro par rank mst _ e₀ he₀
    exact absurd he₀ (List.not_mem_nil e₀)
  | cons e tl ih =>
    intro par rank mst hpar e₀ he₀
    obtain ⟨hf1, hf2⟩ := ufFind_spec fuel par e.src hpar
    obtain ⟨hg1, hg2⟩ := ufFind_spec fuel (ufFind fuel par e.src).2 e.dst hf2
    simp only [kruskalLoop]
    by_cases hne : (ufFind fuel par e.src).1 ≠
        (ufFind fuel (ufFind fuel par e.src).2 e.dst).1
    · rw [if_pos hne]
      have hsub : ∀ x ∈ mst, x ∈ mst ++ [e] := fun x hx => List.mem_append_left _ hx
      have hedge : MstC (mst ++ [e]) e.src e.dst :=
        Relation.ReflTransGen.single
          ⟨e, List.mem_append_right _ (List.mem_cons_self _ _), Or.inl ⟨rfl, rfl⟩⟩
      have hpar' : ∀ k p,
          alGet (ufUnion fuel (ufFind fuel (ufFind fuel par e.src).2 e.dst).2 rank
            e.src e.dst).1 k = some p → MstC (mst ++ [e]) k p :=
        ufUnion_spec (fun k p hk => mstC_mono hsub (hg2 k p hk)) hedge
      rcases List.mem_cons.mp he₀ with h | h
      · subst h
        have : e₀ ∈ kruskalLoop fuel tl
            (ufUnion fuel (ufFind fuel (ufFind fuel par e₀.src).2 e₀.dst).2 rank
              e₀.src e₀.dst).1
            (ufUnion fuel (ufFind fuel (ufFind fuel par e₀.src).2 e₀.dst).2 rank
              e₀.src e₀.dst).2 (mst ++ [e₀]) :=
          kruskalLoop_mono _ _ _ _ e₀
            (List.mem_append_right _ (List.mem_cons_self _ _))
        exact Relation.ReflTransGen.single ⟨e₀, this, Or.inl ⟨rfl, rfl⟩⟩
      · exact ih _ _ _ hpar' e₀ h
    · rw [if_neg hne]
      rcases List.mem_cons.mp he₀ with h | h
      · subst h
        have heq : (ufFind fuel par e₀.src).1 =
            (ufFind fuel (ufFind fuel par e₀.src).2 e₀.dst).1 := not_ne_iff.mp hne
        have hconn : MstC mst e₀.src e₀.dst :=
          Relation.ReflTransGen.trans hf1 (heq ▸ mstC_symm hg1)
        exact mstC_mono (fun x hx => kruskalLoop_mono tl _ _ _ x hx) hconn
      · exact ih _ _ _ hg2 e₀ h

/-! ### C9: every graph edge is joined by the Kruskal forest -/

theorem canonPair_cases (a b : String) :
    canonPair a b = (a, b) ∨ canonPair a b = (b, a) := by
  unfold canonPair
  by_cases h : pyStrLt b a = true
  · rw [if_pos h]
    exact Or.inr rfl
  · rw [if_neg h]
    exact Or.inl rfl

theorem canonPair_eq {a b c d : String} (h : canonPair a b = canonPair c d) :
    (a = c ∧ b = d) ∨ (a = d ∧ b = c) := by
  rcases canonPair_cases a b with h1 | h1 <;> rcases canonPair_cases c d with h2 | h2 <;>
    rw [h1, h2, Prod.mk.injEq] at h
  · exact Or.inl h
  · exact Or.inr h
  · exact Or.inr ⟨h.2, h.1⟩
  · exact Or.inl ⟨h.2, h.1⟩

theorem dedupGo_covers : ∀ (l : List Edge) (seen : List (String × String)) (e : Edge),
    e ∈ l → (canonPair e.src e.dst ∈ seen) ∨
      ∃ e' ∈ dedupGo l seen, canonPair e'.src e'.dst = canonPair e.src e.dst := by
  intro l
  induction l with
  | nil =>
    intro seen e he
    exact absurd he (List.not_mem_nil e)
  | cons x t ih =>
    intro seen e he
    simp only [dedupGo]
    by_cases hk : canonPair x.src x.dst ∈ seen
    · rw [if_pos hk]
      rcases List.mem_cons.mp he with h | h
      · refine Or.inl ?_
        rw [h]
        exact hk
      · exact ih seen e h
    · rw [if_neg hk]
      rcases List.mem_cons.mp he with h | h
      · refine Or.inr ⟨x, List.mem_cons_self _ _, ?_⟩
        rw [h]
      · rcases ih (canonPair x.src x.dst :: seen) e h with h' | ⟨e', he', hc⟩
        · rcases List.mem_cons.mp h' with h'' | h''
          · exact Or.inr ⟨x, List.mem_cons_self _ _, h''.symm⟩
          · exact Or.inl h''
        · exact Or.inr ⟨e', List.mem_cons_of_mem _ he', hc⟩

theorem self_mem_insSortedEdge (x : Edge) : ∀ l, x ∈ insSortedEdge x l := by
  intro l
  induction l with
  | nil => exact List.mem_singleton_self x
  | cons z zs ih =>
    simp only [insSortedEdge]
    by_cases hc : z.real_dist ≤ x.real_dist
    · rw [if_pos hc]
      exact List.mem_cons_of_mem _ ih
    · rw [if_neg hc]
      exact List.mem_cons_self _ _

theorem mem_insSortedEdge_of_mem (x : Edge) {y : Edge} :
    ∀ l, y ∈ l → y ∈ insSortedEdge x l := by
  intro l
  induction l with
  | nil =>
    intro h
    exact absurd h (List.not_mem_nil y)
  | cons z zs ih =>
    intro h
    simp only [insSortedEdge]
    by_cases hc : z.real_dist ≤ x.real_dist
    · rw [if_pos hc]
      rcases List.mem_cons.mp h with h' | h'
      · rw [h']
        exact List.mem_cons_self _ _
      · exact List.mem_cons_of_mem _ (ih h')
    · rw [if_neg hc]
      exact List.mem_cons_of_mem _ h

theorem mem_sortEdges_fold : ∀ (l acc : List Edge) (y : Edge),
    y ∈ acc ∨ y ∈ l → y ∈ l.foldl (fun acc x => insSortedEdge x acc) acc := by
  intro l
  induction l with
  | nil =>
    intro acc y h
    rcases h with h | h
    · exact h
    · exact absurd h (List.not_mem_nil y)
  | cons x t ih =>
    intro acc y h
    rw [List.foldl_cons]
    rcases h with h | h
    · exact ih _ y (Or.inl (mem_insSortedEdge_of_mem x _ h))
    · rcases List.mem_cons.mp h with h' | h'
      · refine ih _ y (Or.inl ?_)
        rw [h']
        exact self_mem_insSortedEdge x _
      · exact ih _ y (Or.inr h')

theorem alGet_mapSelf {L : AL City} {k p : String}
    (h : alGet (L.map (fun kv => (kv.1, kv.1))) k = some p) : p = k := by
  induction L with
  | nil => exact Option.noConfusion h
  | cons kv t ih =>
    simp only [List.map_cons, alGet] at h
    by_cases hk : kv.1 = k
    · rw [if_pos hk] at h
      injection h with h
      rw [← h]
      exact hk
    · rw [if_neg hk] at h
      exact ih h

theorem kruskal_spans {g : Graph} :
    ∀ e ∈ allEdges g, MstC (kruskal_mst_edges g) e.src e.dst := by
  intro e he
  rcases dedupGo_covers (allEdges g) [] e he with h | ⟨e', he', hc⟩
  · exact absurd h (List.not_mem_nil _)
  · have hsorted : e' ∈ sortEdges (dedupEdges g) :=
      mem_sortEdges_fold _ [] e' (Or.inr he')
    have h1 : MstC (kruskal_mst_edges g) e'.src e'.dst := by
      simp only [kruskal_mst_edges]
      refine kruskalLoop_spans _ _ _ _ ?_ e' hsorted
      intro k p hk
      rw [show p = k from alGet_mapSelf hk]
      exact Relation.ReflTransGen.refl
    rcases canonPair_eq hc with ⟨hs, hd⟩ | ⟨hs, hd⟩
    · rw [hs, hd] at h1
      exact h1
    · rw [hs, hd] at h1
      exact mstC_symm h1

theorem walk_mstC {g : Graph} {M : List Edge}
    (hedges : ∀ e ∈ allEdges g, MstC M e.src e.dst) :
    ∀ (es : List Edge) (a b : String), IsWalk g a b es → MstC M a b := by
  intro es
  induction es with
  | nil =>
    intro a b h
    have hab : a = b := h
    subst hab
    exact Relation.ReflTransGen.refl
  | cons e tl ih =>
    intro a b h
    obtain ⟨he, hsrc, hw⟩ := h
    have h1 : MstC M a e.dst := hsrc ▸ hedges e he
    exact Relation.ReflTransGen.trans h1 (ih e.dst b hw)

/-! ### C9: the Prim loop spans the reachable component -/

theorem mem_eraseFirst_of_ne {α : Type} [DecidableEq α] {y m : α} :
    ∀ {l : List α}, y ∈ l → y ≠ m → y ∈ eraseFirst l m := by
  intro l
  induction l with
  | nil =>
    intro h _
    exact absurd h (List.not_mem_nil y)
  | cons z t ih =>
    intro h hne
    simp only [eraseFirst]
    by_cases hz : z = m
    · rw [if_pos hz]
      rcases List.mem_cons.mp h with h' | h'
      · exact absurd (h'.trans hz) hne
      · exact h'
    · rw [if_neg hz]
      rcases List.mem_cons.mp h with h' | h'
      · rw [h']
        exact List.mem_cons_self _ _
      · exact List.mem_cons_of_mem _ (ih h' hne)

theorem eraseFirst_length {α : Type} [DecidableEq α] {l : List α} {m : α}
    (h : m ∈ l) : (eraseFirst l m).length + 1 = l.length := by
  obtain ⟨l₁, l₂, heq, _, her⟩ := eraseFirst_decomp h
  rw [her, heq]
  simp only [List.length_append, List.length_cons]
  omega

theorem alGet_of_mem_nodup {α : Type} {l : AL α} (hnd : (alKeys l).Nodup)
    {kv : String × α} (h : kv ∈ l) : alGet l kv.1 = some kv.2 := by
  induction l with
  | nil => exact absurd h (List.not_mem_nil kv)
  | cons x t ih =>
    have hnd' : (x.1 :: alKeys t).Nodup := hnd
    rcases List.mem_cons.mp h with h | h
    · subst h
      simp [alGet]
    · have hx : x.1 ≠ kv.1 := by
        intro hh
        exact (List.nodup_cons.mp hnd').1
          (hh ▸ List.mem_map_of_mem Prod.fst h)
      simp only [alGet, if_neg hx]
      exact ih (List.nodup_cons.mp hnd').2 h

theorem mem_allEdges_adj {g : Graph} (hak : AdjKeyed g)
    (hnda : (alKeys g.adj).Nodup) {e : Edge} (he : e ∈ allEdges g) :
    e ∈ alGetD g.adj e.src [] := by
  unfold allEdges at he
  rw [List.mem_flatten] at he
  obtain ⟨l, hl, hel⟩ := he
  rw [List.mem_map] at hl
  obtain ⟨kv, hkv, hsnd⟩ := hl
  subst hsnd
  have hsrc : e.src = kv.1 := hak kv hkv e hel
  have hget : alGet g.adj kv.1 = some kv.2 := alGet_of_mem_nodup hnda hkv
  unfold alGetD
  rw [hsrc, hget]
  exact hel

theorem remFilter_snoc {v : String} {vis : List String} (hv : v ∉ vis) :
    ∀ (L : AL (List Edge)), (alKeys L).Nodup →
      ((L.filter (fun kv => decide (kv.1 ∉ vis ++ [v]))).map
        (fun kv => kv.2.length)).sum + (alGetD L v []).length =
      ((L.filter (fun kv => decide (kv.1 ∉ vis))).map
        (fun kv => kv.2.length)).sum := by
  intro L
  induction L with
  | nil =>
    intro _
    simp [alGetD, alGet]
  | cons kv t ih =>
    intro hnd
    have hnd' : (kv.1 :: alKeys t).Nodup := hnd
    have hhead : kv.1 ∉ alKeys t := (List.nodup_cons.mp hnd').1
    have htail : (alKeys t).Nodup := (List.nodup_cons.mp hnd').2
    by_cases hk : kv.1 = v
    · have c1 : decide (kv.1 ∉ vis ++ [v]) = false := by
        simp [List.mem_append, hk]
      have c2 : decide (kv.1 ∉ vis) = true := by
        simp [hk, hv]
      have hget : alGetD (kv :: t) v [] = kv.2 := by
        unfold alGetD
        simp [alGet, hk]
      have hfilters : t.filter (fun kv => decide (kv.1 ∉ vis ++ [v])) =
          t.filter (fun kv => decide (kv.1 ∉ vis)) := by
        apply List.filter_congr
        intro x hx
        have hxv : x.1 ≠ v := by
          intro hh
          exact hhead (by rw [hk, ← hh]; exact List.mem_map_of_mem Prod.fst hx)
        rw [decide_eq_decide]
        simp [List.mem_append, hxv]
      rw [List.filter_cons, List.filter_cons, c1, c2, hget, hfilters]
      rw [if_neg (by simp), if_pos rfl]
      simp only [List.map_cons, List.sum_cons]
      omega
    · have hget2 : alGetD (kv :: t) v [] = alGetD t v [] := by
        unfold alGetD
        simp [alGet, hk]
      rw [List.filter_cons, List.filter_cons, hget2]
      by_cases hmem : kv.1 ∈ vis
      · have c1 : decide (kv.1 ∉ vis ++ [v]) = false := by
          simp [List.mem_append, hmem]
        have c2 : decide (kv.1 ∉ vis) = false := by
          simp [hmem]
        rw [c1, c2, if_neg (by simp), if_neg (by simp)]
        exact ih htail
      · have c1 : decide (kv.1 ∉ vis ++ [v]) = true := by
          simp [List.mem_append, hmem, hk]
        have c2 : decide (kv.1 ∉ vis) = true := by
          simp [hmem]
        rw [c1, c2, if_pos rfl, if_pos rfl]
        have h := ih htail
        simp only [List.map_cons, List.sum_cons]
        omega

theorem remAdj_snoc {g : Graph} (hnda : (alKeys g.adj).Nodup) {vis : List String}
    {v : String} (hv : v ∉ vis) :
    remAdj g (vis ++ [v]) + (alGetD g.adj v []).length = remAdj g vis :=
  remFilter_snoc hv g.adj hnda

theorem sum_filter_le {α : Type} (f : α → Nat) (p : α → Bool) :
    ∀ (l : List α), ((l.filter p).map f).sum ≤ (l.map f).sum := by
  intro l
  induction l with
  | nil => exact Nat.le_refl 0
  | cons x t ih =>
    rw [List.filter_cons]
    cases hp : p x
    · rw [if_neg (by simp)]
      simp only [List.map_cons, List.sum_cons]
      omega
    · rw [if_pos rfl]
      simp only [List.map_cons, List.sum_cons]
      omega

theorem remAdj_le_total (g : Graph) (vis : List String) :
    remAdj g vis ≤ totalAdjLen g :=
  sum_filter_le _ _ g.adj

theorem adjLen_le_total (g : Graph) (k : String) :
    (alGetD g.adj k []).length ≤ totalAdjLen g := by
  unfold alGetD totalAdjLen
  cases hh : alGet g.adj k with
  | none => simp
  | some l =>
    simp only [Option.getD_some]
    have hmem : l.length ∈ g.adj.map (fun kv => kv.2.length) :=
      List.mem_map_of_mem _ (alGet_mem hh)
    exact List.single_le_sum (fun x _ => Nat.zero_le x) _ hmem

theorem walk_closed {g : Graph} {vis : List String}
    (hclosed : ∀ e ∈ allEdges g, e.src ∈ vis → e.dst ∈ vis) :
    ∀ (es : List Edge) (a b : String), IsWalk g a b es → a ∈ vis → b ∈ vis := by
  intro es
  induction es with
  | nil =>
    intro a b h ha
    have hab : a = b := h
    exact hab ▸ ha
  | cons e tl ih =>
    intro a b h ha
    obtain ⟨he, hsrc, hw⟩ := h
    refine ih e.dst b hw (hclosed e he ?_)
    rw [hsrc]
    exact ha

theorem primLoop_spans {g : Graph} {start : String} (hak : AdjKeyed g)
    (hcl : ClosedG g) (hnda : (alKeys g.adj).Nodup) :
    ∀ (fuel : Nat) (vis : List String) (pq : List (ℚ × String × String))
      (mst : List Edge),
      (∀ x ∈ vis, x ∈ citiesKeys g) →
      vis.Nodup →
      start ∈ vis →
      (∀ x ∈ vis, MstC mst start x) →
      (∀ t ∈ pq, t.2.1 ∈ vis ∧ t.2.2 ∈ citiesKeys g ∧
        ∃ e ∈ alGetD g.adj t.2.1 [], e.dst = t.2.2) →
      (∀ e ∈ allEdges g, e.src ∈ vis → e.dst ∈ vis ∨
        (e.real_dist, e.src, e.dst) ∈ pq) →
      pq.length + remAdj g vis < fuel →
      ∃ vis' : List String, start ∈ vis' ∧
        (∀ x ∈ vis', MstC (primLoop g fuel vis pq mst) start x) ∧
        ((∀ e ∈ allEdges g, e.src ∈ vis' → e.dst ∈ vis') ∨
          (∀ x ∈ citiesKeys g, x ∈ vis')) := by
  intro fuel
  induction fuel with
  | zero =>
    intro vis pq mst _ _ _ _ _ _ h
    omega
  | succ fuel ih =>
    intro vis pq mst p1 p2 p3 p4 p5 p6 hΦ
    simp only [primLoop]
    by_cases hstop : pq = [] ∨ ¬ vis.length < g.cities.length
    · rw [if_pos hstop]
      refine ⟨vis, p3, p4, ?_⟩
      rcases hstop with h | h
      · subst h
        refine Or.inl ?_
        intro e he hsrc
        rcases p6 e he hsrc with h' | h'
        · exact h'
        · exact absurd h' (List.not_mem_nil _)
      · refine Or.inr ?_
        have hkl : (citiesKeys g).length = g.cities.length := by
          simp [citiesKeys, alKeys]
        obtain ⟨l, hperm, hsub⟩ := List.subperm_of_subset p2 p1
        have hll : l.length = vis.length := hperm.length_eq
        have hleq : l = citiesKeys g := hsub.eq_of_length_le (by omega)
        intro y hy
        exact hperm.mem_iff.mp (hleq ▸ hy)
    · rw [if_neg hstop]
      push_neg at hstop
      obtain ⟨hne, hlt⟩ := hstop
      obtain ⟨x, ts, rfl⟩ : ∃ x ts, pq = x :: ts := by
        cases pq with
        | nil => exact absurd rfl hne
        | cons x ts => exact ⟨x, ts, rfl⟩
      simp only [popMin]
      have hm_mem : findMinTup x ts ∈ x :: ts := findMinTup_mem x ts
      obtain ⟨hm1, hm2, em, hem, hemdst⟩ := p5 (findMinTup x ts) hm_mem
      have herase_len := eraseFirst_length hm_mem
      simp only [List.length_cons] at herase_len hΦ
      by_cases hvm : (findMinTup x ts).2.2 ∈ vis
      · rw [if_pos hvm]
        refine ih vis (eraseFirst (x :: ts) (findMinTup x ts)) mst p1 p2 p3 p4
          ?_ ?_ ?_
        · intro t ht
          exact p5 t (mem_eraseFirst _ _ _ ht)
        · intro e he hsrc
          rcases p6 e he hsrc with h' | h'
          · exact Or.inl h'
          · by_cases heq : (e.real_dist, e.src, e.dst) = findMinTup x ts
            · refine Or.inl ?_
              have hd : e.dst = (findMinTup x ts).2.2 := by rw [← heq]
              rw [hd]
              exact hvm
            · exact Or.inr (mem_eraseFirst_of_ne h' heq)
        · omega
      · rw [if_neg hvm]
        have hfindsome : ((alGetD g.adj (findMinTup x ts).2.1 []).find?
            (fun e => e.dst == (findMinTup x ts).2.2)).isSome := by
          rw [List.find?_isSome]
          exact ⟨em, hem, by simp [hemdst]⟩
        obtain ⟨e₀, hfind⟩ := Option.isSome_iff_exists.mp hfindsome
        rw [hfind]
        have he₀adj : e₀ ∈ alGetD g.adj (findMinTup x ts).2.1 [] :=
          List.mem_of_find?_eq_some hfind
        have he₀all := mem_adj_allEdges he₀adj
        have he₀src := mem_adj_src hak he₀adj
        have he₀dst : e₀.dst = (findMinTup x ts).2.2 := by
          have hb := List.find?_some hfind
          simpa using hb
        refine ih (vis ++ [(findMinTup x ts).2.2]) _ (mst ++ [e₀])
          ?_ ?_ ?_ ?_ ?_ ?_ ?_
        · intro y hy
          rcases List.mem_append.mp hy with h | h
          · exact p1 y h
          · rw [List.mem_singleton] at h
            rw [h]
            exact hm2
        · rw [List.nodup_append]
          refine ⟨p2, List.nodup_singleton _, ?_⟩
          intro a ha hav
          rw [List.mem_singleton] at hav
          subst hav
          exact hvm ha
        · exact List.mem_append_left _ p3
        · intro y hy
          have hsub : ∀ z ∈ mst, z ∈ mst ++ [e₀] :=
            fun z hz => List.mem_append_left _ hz
          rcases List.mem_append.mp hy with h | h
          · exact mstC_mono hsub (p4 y h)
          · rw [List.mem_singleton] at h
            rw [h]
            have hu : MstC (mst ++ [e₀]) start (findMinTup x ts).2.1 :=
              mstC_mono hsub (p4 _ hm1)
            refine Relation.ReflTransGen.trans hu (Relation.ReflTransGen.single ?_)
            exact ⟨e₀, List.mem_append_right _ (List.mem_cons_self _ _),
              Or.inl ⟨he₀src, he₀dst⟩⟩
        · intro t ht
          rcases List.mem_append.mp ht with h | h
          · obtain ⟨q1, q2, q3⟩ := p5 t (mem_eraseFirst _ _ _ h)
            exact ⟨List.mem_append_left _ q1, q2, q3⟩
          · obtain ⟨ne, hne', hmap⟩ := List.mem_map.mp h
            have hne'' : ne ∈ alGetD g.adj (findMinTup x ts).2.2 [] :=
              (List.mem_filter.mp hne').1
            have hnall := mem_adj_allEdges hne''
            have hnsrc := mem_adj_src hak hne''
            subst hmap
            refine ⟨?_, ?_, ?_⟩
            · show ne.src ∈ vis ++ [(findMinTup x ts).2.2]
              rw [hnsrc]
              exact List.mem_append_right _ (List.mem_cons_self _ _)
            · show ne.dst ∈ citiesKeys g
              exact (hcl ne hnall).2
            · show ∃ e ∈ alGetD g.adj ne.src [], e.dst = ne.dst
              rw [hnsrc]
              exact ⟨ne, hne'', rfl⟩
        · intro e he hsrc
          rcases List.mem_append.mp hsrc with h | h
          · rcases p6 e he h with h' | h'
            · exact Or.inl (List.mem_append_left _ h')
            · by_cases heq : (e.real_dist, e.src, e.dst) = findMinTup x ts
              · refine Or.inl ?_
                have hd : e.dst = (findMinTup x ts).2.2 := by rw [← heq]
                rw [hd]
                exact List.mem_append_right _ (List.mem_cons_self _ _)
              · exact Or.inr
                  (List.mem_append_left _ (mem_eraseFirst_of_ne h' heq))
          · rw [List.mem_singleton] at h
            have headj : e ∈ alGetD g.adj (findMinTup x ts).2.2 [] := by
              rw [← h]
              exact mem_allEdges_adj hak hnda he
            by_cases hdmem : e.dst ∈ vis ++ [(findMinTup x ts).2.2]
            · exact Or.inl hdmem
            · refine Or.inr (List.mem_append_right _ ?_)
              rw [List.mem_map]
              refine ⟨e, ?_, rfl⟩
              rw [List.mem_filter]
              exact ⟨headj, by simpa using hdmem⟩
        · have hradj := remAdj_snoc hnda hvm
          have hfil : ((alGetD g.adj (findMinTup x ts).2.2 []).filter
              (fun ne => decide (ne.dst ∉ vis ++ [(findMinTup x ts).2.2]))).length ≤
              (alGetD g.adj (findMinTup x ts).2.2 []).length :=
            List.length_filter_le _ _
          simp only [List.length_append, List.length_map]
          omega

theorem prim_spans {g : Graph} {start dest : String} (hak : AdjKeyed g)
    (hcl : ClosedG g) (hnda : (alKeys g.adj).Nodup)
    (hstart : start ∈ citiesKeys g) (hdest : dest ∈ citiesKeys g)
    (hreach : Reachable g start dest) :
    MstC (prim_mst_edges g start) start dest := by
  obtain ⟨c, hc⟩ : ∃ c, alGet g.cities start = some c :=
    Option.isSome_iff_exists.mp (alGet_isSome_of_mem_keys hstart)
  have hunfold : prim_mst_edges g start =
      primLoop g (2 * totalAdjLen g + 2) [start]
        ((alGetD g.adj start []).map (fun e => (e.real_dist, e.src, e.dst))) [] := by
    simp only [prim_mst_edges, hc]
  rw [hunfold]
  have hΦ : ((alGetD g.adj start []).map
      (fun e => (e.real_dist, e.src, e.dst))).length + remAdj g [start] <
      2 * totalAdjLen g + 2 := by
    rw [List.length_map]
    have h1 := adjLen_le_total g start
    have h2 := remAdj_le_total g [start]
    omega
  obtain ⟨vis', hstart', hmst, hclos⟩ :=
    primLoop_spans hak hcl hnda (2 * totalAdjLen g + 2) [start]
      ((alGetD g.adj start []).map (fun e => (e.real_dist, e.src, e.dst))) []
      (fun y hy => by rw [List.mem_singleton.mp hy]; exact hstart)
      (List.nodup_singleton _)
      (List.mem_singleton_self _)
      (fun y hy => by
        rw [List.mem_singleton.mp hy]
        exact Relation.ReflTransGen.refl)
      (by
        intro t ht
        obtain ⟨e, he, hmap⟩ := List.mem_map.mp ht
        have h1 := mem_adj_allEdges he
        have h2 := mem_adj_src hak he
        subst hmap
        refine ⟨?_, ?_, ?_⟩
        · show e.src ∈ [start]
          rw [h2]
          exact List.mem_singleton_self _
        · show e.dst ∈ citiesKeys g
          exact (hcl e h1).2
        · show ∃ e' ∈ alGetD g.adj e.src [], e'.dst = e.dst
          exact ⟨e, by rw [h2]; exact he, rfl⟩)
      (by
        intro e he hsrc
        rw [List.mem_singleton] at hsrc
        refine Or.inr ?_
        rw [List.mem_map]
        refine ⟨e, ?_, rfl⟩
        rw [← hsrc]
        exact mem_allEdges_adj hak hnda he)
      hΦ
  have hdvis : dest ∈ vis' := by
    rcases hclos with h | h
    · obtain ⟨es, hw⟩ := hreach
      exact walk_closed h es start dest hw hstart'
    · exact h dest hdest
  exact hmst dest hdvis

theorem zip_tail_length {α : Type} (l : List α) :
    (l.zip l.tail).length = l.length - 1 := by
  rw [List.length_zip, List.length_tail]
  omega

/-- **C9.** On a graph with origin-keyed, duplicate-free adjacency and
edges between known cities (all loader invariants), when every city can
reach every city, the Prim-derived and the Kruskal-derived routes are
genuine tree paths from `start` to `dest`: nonempty, without repeated
identifiers, traversing exactly (stops − 1) segments, every segment being
an edge of the respective spanning-tree edge list (in one of its two
directions). -/
theorem claim9_theorem (g : Graph) (start dest : String)
    (hstart : start ∈ citiesKeys g) (hdest : dest ∈ citiesKeys g)
    (hak : AdjKeyed g) (hcl : ClosedG g) (hnda : (alKeys g.adj).Nodup)
    (hconn : ConnectedG g) :
    (prim_path g start dest ≠ [] ∧
      (prim_path g start dest).head? = some start ∧
      (prim_path g start dest).getLast? = some dest ∧
      (prim_path g start dest).Nodup ∧
      ((prim_path g start dest).zip (prim_path g start dest).tail).length =
        (prim_path g start dest).length - 1 ∧
      ∀ uv ∈ (prim_path g start dest).zip (prim_path g start dest).tail,
        TreeEdge (prim_mst_edges g start) uv.1 uv.2) ∧
    (kruskal_path g start dest ≠ [] ∧
      (kruskal_path g start dest).head? = some start ∧
      (kruskal_path g start dest).getLast? = some dest ∧
      (kruskal_path g start dest).Nodup ∧
      ((kruskal_path g start dest).zip (kruskal_path g start dest).tail).length =
        (kruskal_path g start dest).length - 1 ∧
      ∀ uv ∈ (kruskal_path g start dest).zip (kruskal_path g start dest).tail,
        TreeEdge (kruskal_mst_edges g) uv.1 uv.2) := by
  have hreach : Reachable g start dest := hconn start hstart dest hdest
  constructor
  · have hmstc := prim_spans hak hcl hnda hstart hdest hreach
    have hnr : Relation.ReflTransGen
        (fun a b => b ∈ alGetD (mstAdj (prim_mst_edges g start)) a []) start dest :=
      Relation.ReflTransGen.mono (fun a b h => treeEdge_mstAdj h) hmstc
    have hfuel : totalVals (mstAdj (prim_mst_edges g start)) + 2 ≤
        treeFuel (prim_mst_edges g start) := by
      unfold mstAdj treeFuel
      rw [totalVals_mstAdjFold]
      simp [totalVals]
    obtain ⟨h1, h2, h3, h4, h5⟩ :=
      tree_path_in_adj_spec (mstAdj (prim_mst_edges g start)) start dest
        (treeFuel (prim_mst_edges g start)) hfuel hnr
    have hpp : prim_path g start dest =
        tree_path_in_adj (mstAdj (prim_mst_edges g start)) start dest
          (treeFuel (prim_mst_edges g start)) := rfl
    rw [hpp]
    refine ⟨h1, h2, h3, h4, zip_tail_length _, ?_⟩
    intro uv huv
    exact mstAdj_treeEdge uv.1 uv.2 ((chain'_iff_pairs _ _).mp h5 uv huv)
  · have hmstc : MstC (kruskal_mst_edges g) start dest := by
      obtain ⟨es, hw⟩ := hreach
      exact walk_mstC kruskal_spans es start dest hw
    have hnr : Relation.ReflTransGen
        (fun a b => b ∈ alGetD (mstAdj (kruskal_mst_edges g)) a []) start dest :=
      Relation.ReflTransGen.mono (fun a b h => treeEdge_mstAdj h) hmstc
    have hfuel : totalVals (mstAdj (kruskal_mst_edges g)) + 2 ≤
        treeFuel (kruskal_mst_edges g) := by
      unfold mstAdj treeFuel
      rw [totalVals_mstAdjFold]
      simp [totalVals]
    obtain ⟨h1, h2, h3, h4, h5⟩ :=
      tree_path_in_adj_spec (mstAdj (kruskal_mst_edges g)) start dest
        (treeFuel (kruskal_mst_edges g)) hfuel hnr
    have hpp : kruskal_path g start dest =
        tree_path_in_adj (mstAdj (kruskal_mst_edges g)) start dest
          (treeFuel (kruskal_mst_edges g)) := rfl
    rw [hpp]
    refine ⟨h1, h2, h3, h4, zip_tail_length _, ?_⟩
    intro uv huv
    exact mstAdj_treeEdge uv.1 uv.2 ((chain'_iff_pairs _ _).mp h5 uv huv)

/-- Witness for `claim9_theorem`: the three-city graph `gTie` is connected
(its four edges link `"S"` with both `"B"` and `"A"` in both directions);
the theorem applies at `start = "S"`, `dest = "A"`. -/
theorem claim9_witness :
    ("S" ∈ citiesKeys gTie ∧ "A" ∈ citiesKeys gTie ∧ AdjKeyed gTie ∧
      ClosedG gTie ∧ (alKeys gTie.adj).Nodup ∧ ConnectedG gTie) ∧
    ((prim_path gTie "S" "A" ≠ [] ∧
      (prim_path gTie "S" "A").head? = some "S" ∧
      (prim_path gTie "S" "A").getLast? = some "A" ∧
      (prim_path gTie "S" "A").Nodup ∧
      ((prim_path gTie "S" "A").zip (prim_path gTie "S" "A").tail).length =
        (prim_path gTie "S" "A").length - 1 ∧
      ∀ uv ∈ (prim_path gTie "S" "A").zip (prim_path gTie "S" "A").tail,
        TreeEdge (prim_mst_edges gTie "S") uv.1 uv.2) ∧
    (kruskal_path gTie "S" "A" ≠ [] ∧
      (kruskal_path gTie "S" "A").head? = some "S" ∧
      (kruskal_path gTie "S" "A").getLast? = some "A" ∧
      (kruskal_path gTie "S" "A").Nodup ∧
      ((kruskal_path gTie "S" "A").zip (kruskal_path gTie "S" "A").tail).length =
        (kruskal_path gTie "S" "A").length - 1 ∧
      ∀ uv ∈ (kruskal_path gTie "S" "A").zip (kruskal_path gTie "S" "A").tail,
        TreeEdge (kruskal_mst_edges gTie) uv.1 uv.2)) := by
  have hconn : ConnectedG gTie := by
    intro u hu v hv
    have hu' : u = "S" ∨ u = "B" ∨ u = "A" := by
      simpa [citiesKeys, alKeys, gTie] using hu
    have hv' : v = "S" ∨ v = "B" ∨ v = "A" := by
      simpa [citiesKeys, alKeys, gTie] using hv
    rcases hu' with rfl | rfl | rfl <;> rcases hv' with rfl | rfl | rfl
    · exact ⟨[], rfl⟩
    · exact ⟨[⟨"S", "B", 5, 5⟩], by decide⟩
    · exact ⟨[⟨"S", "A", 5, 5⟩], by decide⟩
    · exact ⟨[⟨"B", "S", 5, 5⟩], by decide⟩
    · exact ⟨[], rfl⟩
    · exact ⟨[⟨"B", "S", 5, 5⟩, ⟨"S", "A", 5, 5⟩], by decide⟩
    · exact ⟨[⟨"A", "S", 5, 5⟩], by decide⟩
    · exact ⟨[⟨"A", "S", 5, 5⟩, ⟨"S", "B", 5, 5⟩], by decide⟩
    · exact ⟨[], rfl⟩
  exact ⟨⟨by decide, by decide, by decide, by decide, by decide, hconn⟩,
    claim9_theorem gTie "S" "A" (by decide) (by decide) (by decide) (by decide)
      (by decide) hconn⟩

end BestPath



